import Mathlib

/-!
# bbrcit_kde: bound-propagating kernel density evaluation

A shallow embedding of `KernelDensityImpl.h` and `Rectangle.h`.

* Scalars (`FloatType`) are elements of an arbitrary linearly ordered field `α`
  ("exact arithmetic"); at `α = ℚ` every definition below is executable.
* Reference arguments that the C++ code mutates (`upper`, `lower`, the query
  tree) are returned as results.
* `report_error` only writes a diagnostic to a stream and does not influence
  any returned value; the evaluators below leave the stream out.
-/

namespace bbrcit

/-! ## Data model -/

/-- Modelled from the spec: `Point<D,T>` (Point.h is not part of the sources),
an ordered D-tuple of coordinates with indexed access. -/
abbrev Point (α : Type) (D : Nat) := Fin D → α

/-- Modelled from the spec: `Interval<T>` (Interval.h is not part of the
sources), a closed interval `[lower, upper]`. -/
structure Interval (α : Type) where
  lower : α
  upper : α

/-- Rectangle of `Rectangle.h`: the vector `intervals_` of `D` edges. -/
abbrev Rectangle (α : Type) (D : Nat) := Fin D → Interval α

/-- Modelled from the spec: the attribute bundle carried by data points and by
tree nodes (the attribute class is a template argument that is not part of the
sources). -/
structure Attributes (α : Type) where
  weight : α
  mass : α
  lower : α
  upper : α
  lower_abw : α
  upper_abw : α

/-- Modelled from the spec: the point-level local bandwidth correction `abw()`.
The sources only ever write it through `set_lower_abw` / `set_upper_abw`, always
with the same value; it is read here from `lower_abw`. -/
def Attributes.abw {α : Type} (a : Attributes α) : α := a.lower_abw

/-- Modelled from the spec: `DataPoint<D>`, a point with its attributes. -/
structure DataPoint (α : Type) (D : Nat) where
  point : Point α D
  attributes : Attributes α

/-- Modelled from the spec: `TreeNode` of the kd-tree (Kdtree.h is not part of
the sources): bounding box, inclusive index range into the point array,
aggregate attributes, and two children that are both present or both absent
(`is_leaf()`). -/
inductive TreeNode (α : Type) (D : Nat) where
  | leaf (bbox_ : Rectangle α D) (start_idx_ end_idx_ : Nat) (attr_ : Attributes α) :
      TreeNode α D
  | node (bbox_ : Rectangle α D) (start_idx_ end_idx_ : Nat) (attr_ : Attributes α)
      (left_ right_ : TreeNode α D) : TreeNode α D

namespace TreeNode

variable {α : Type} {D : Nat}

def bbox_ : TreeNode α D → Rectangle α D
  | leaf b _ _ _ => b
  | node b _ _ _ _ _ => b

def start_idx_ : TreeNode α D → Nat
  | leaf _ s _ _ => s
  | node _ s _ _ _ _ => s

def end_idx_ : TreeNode α D → Nat
  | leaf _ _ e _ => e
  | node _ _ e _ _ _ => e

def attr_ : TreeNode α D → Attributes α
  | leaf _ _ _ a => a
  | node _ _ _ a _ _ => a

def is_leaf : TreeNode α D → Bool
  | leaf _ _ _ _ => true
  | node _ _ _ _ _ _ => false

/-- Replace the aggregate attributes of a node (`attr_.set_upper`, `attr_.set_lower`). -/
def set_attr (a : Attributes α) : TreeNode α D → TreeNode α D
  | leaf b s e _ => leaf b s e a
  | node b s e _ l r => node b s e a l r

/-- Number of nodes, the termination measure of the tree recursions. -/
def size : TreeNode α D → Nat
  | leaf _ _ _ _ => 1
  | node _ _ _ _ l r => l.size + r.size + 1

end TreeNode

/-- Modelled from the spec: `Kdtree`, the (permuted) point array and the root. -/
structure Kdtree (α : Type) (D : Nat) where
  points_ : List (DataPoint α D)
  root_ : TreeNode α D

/-- The `size()` of a `Kdtree`: the number of points it holds. -/
def Kdtree.size {α : Type} {D : Nat} (t : Kdtree α D) : Nat := t.points_.length

/-- The kernel capability consumed by the evaluator: `normalization()` and
`unnormalized_eval(p, q, abw)`. -/
structure Kernel (α : Type) (D : Nat) where
  normalization : α
  unnormalized_eval : Point α D → Point α D → α → α

/-- The class `KernelDensity`: kernel, reference tree, cumulative weights. -/
structure KernelDensity (α : Type) (D : Nat) where
  kernel_ : Kernel α D
  data_tree_ : Kdtree α D
  cum_weights_ : List α

/-- The points of `points_` with index in the inclusive range `[s, e]`, in
order: what a loop `for (i = s; i <= e; ++i) points_[i]` visits. -/
def index_range {β : Type} (pts : List β) (s e : Nat) : List β :=
  (pts.drop s).take (e + 1 - s)

/-- Apply `f` to the entries with index in the inclusive range `[s, e]`: the
effect of a loop `for (i = s; i <= e; ++i)` that rewrites `points_[i]` from
its own former value. -/
def map_index_range {β : Type} (f : β → β) : Nat → Nat → List β → List β
  | _, _, [] => []
  | 0, 0, x :: xs => f x :: xs
  | 0, e + 1, x :: xs => f x :: map_index_range f 0 e xs
  | _ + 1, 0, x :: xs => x :: xs
  | s + 1, e + 1, x :: xs => x :: map_index_range f s e xs

section Geometry

variable {α : Type} [LinearOrderedField α] {D : Nat}

/-- Modelled from the spec: `Interval::contains(v)`. -/
def Interval.contains (I : Interval α) (v : α) : Bool :=
  decide (I.lower ≤ v) && decide (v ≤ I.upper)

/-- Per-axis distances from an edge of a rectangle to the matching component of
a geometric object: the overloads `Interval::min_dist` / `Interval::max_dist`
that the templates of `Rectangle.h` call with `g[i]`. -/
class AxisDist (α : Type) (G : Type) where
  min_dist : Interval α → G → α
  max_dist : Interval α → G → α

/-- Modelled from the spec: distance from an interval to a value,
`min_dist(v) = max(0, max(lo - v, v - hi))`, `max_dist(v) = max(|v - lo|, |v - hi|)`. -/
instance instAxisDistValue : AxisDist α α where
  min_dist I v := max 0 (max (I.lower - v) (v - I.upper))
  max_dist I v := max |v - I.lower| |v - I.upper|

/-- Modelled from the spec: distance from an interval to an interval, the
separation of the two (0 if they overlap) and the largest distance between a
point of one and a point of the other. -/
instance instAxisDistInterval : AxisDist α (Interval α) where
  min_dist I J := max 0 (max (I.lower - J.upper) (J.lower - I.upper))
  max_dist I J := max |J.upper - I.lower| |I.upper - J.lower|

/-- The overload `Rectangle::min_dist(size_t i, const GT &g)`. -/
def Rectangle.min_dist_axis {G : Type} [AxisDist α G] (r : Rectangle α D) (i : Fin D)
    (g : Fin D → G) : α :=
  AxisDist.min_dist (r i) (g i)

/-- The overload `Rectangle::max_dist(size_t i, const GT &g)`. -/
def Rectangle.max_dist_axis {G : Type} [AxisDist α G] (r : Rectangle α D) (i : Fin D)
    (g : Fin D → G) : α :=
  AxisDist.max_dist (r i) (g i)

/-- The accumulation of `Rectangle::min_dist(const GT &g)` before the final
`std::sqrt`: the sum over the axes of the squared per-axis minimum distance. -/
def Rectangle.min_dist_sq {G : Type} [AxisDist α G] (r : Rectangle α D)
    (g : Fin D → G) : α :=
  (List.finRange D).foldl (fun total i =>
    total + AxisDist.min_dist (r i) (g i) * AxisDist.min_dist (r i) (g i)) 0

/-- The function `Rectangle::contains` for a point. -/
def Rectangle.contains (r : Rectangle α D) (p : Point α D) : Bool :=
  (List.finRange D).all (fun i => (r i).contains (p i))

end Geometry

section Evaluator

variable {α : Type} [LinearOrderedField α] {D : Nat}

/-- The scalar `tighten_bounds`; the result is the pair `(upper, lower)` that the
C++ code leaves in its two reference arguments. -/
def tighten_bounds (D_node : TreeNode α D) (du_new dl_new du dl upper lower : α) : α × α :=
  let lower := lower + D_node.attr_.mass * (dl_new - dl)
  let upper := upper + D_node.attr_.mass * (du_new - du)
  if lower > upper then (lower, lower) else (upper, lower)

/-- The scalar `can_approximate`. `upper` and `lower` are passed by value. -/
def can_approximate (kd : KernelDensity α D) (D_node : TreeNode α D)
    (du_new dl_new du dl upper lower rel_err abs_err : α) : Bool :=
  let abs_tol := 2 * abs_err / (kd.data_tree_.size : α)
  if |du_new| ≤ abs_tol then true
  else if |du_new - dl_new| ≤ abs_tol then true
  else
    let ul := tighten_bounds D_node du_new dl_new du dl upper lower
    if |ul.1 - ul.2| ≤ abs_err ∨ |ul.1 - ul.2| ≤ |ul.2| * rel_err then true
    else false

/-- The function `estimate_contributions`: the pair `(du, dl)`. -/
def estimate_contributions {G : Type} [AxisDist α G] (D_node : TreeNode α D)
    (obj : Fin D → G) (kernel : Kernel α D) : α × α :=
  let origin : Point α D := fun _ => 0
  let du := kernel.unnormalized_eval (fun i => D_node.bbox_.min_dist_axis i obj) origin
    D_node.attr_.upper_abw
  let dl := kernel.unnormalized_eval (fun i => D_node.bbox_.max_dist_axis i obj) origin
    D_node.attr_.lower_abw
  (du, dl)

/-- The function `apply_closer_heuristic`: the pair `(closer, further)`.
`min_dist` is the square root of `min_dist_sq`, and the square root is strictly
increasing on non-negative numbers, so the comparison of the two distances is
the comparison of their squares. -/
def apply_closer_heuristic {G : Type} [AxisDist α G] (closer further : TreeNode α D)
    (obj : Fin D → G) : TreeNode α D × TreeNode α D :=
  if closer.bbox_.min_dist_sq obj > further.bbox_.min_dist_sq obj then (further, closer)
  else (closer, further)

/-- The function `single_tree_base`: the pair `(upper, lower)`. -/
def single_tree_base (kd : KernelDensity α D) (D_node : TreeNode α D) (p : Point α D)
    (kernel : Kernel α D) (du dl upper lower : α) : α × α :=
  let ul := (index_range kd.data_tree_.points_ D_node.start_idx_ D_node.end_idx_).foldl
    (fun (ul : α × α) datum =>
      let delta := kernel.unnormalized_eval p datum.point datum.attributes.abw
      let delta := delta * datum.attributes.mass
      (ul.1 + delta, ul.2 + delta)) (upper, lower)
  let upper := ul.1 - D_node.attr_.mass * du
  let lower := ul.2 - D_node.attr_.mass * dl
  if lower > upper then (lower, lower) else (upper, lower)

/-- The function `single_tree`: the pair `(upper, lower)`. -/
def single_tree (kd : KernelDensity α D) (D_node : TreeNode α D) (p : Point α D)
    (kernel : Kernel α D) (upper lower du dl rel_err abs_err : α) : α × α :=
  let est := estimate_contributions D_node p kernel
  let du_new := est.1
  let dl_new := est.2
  if can_approximate kd D_node du_new dl_new du dl upper lower rel_err abs_err then
    tighten_bounds D_node du_new dl_new du dl upper lower
  else
    match D_node with
    | .leaf _ _ _ _ => single_tree_base kd D_node p kernel du dl upper lower
    | .node _ _ _ _ left_ right_ =>
      let ul := tighten_bounds D_node du_new dl_new du dl upper lower
      let cf := apply_closer_heuristic left_ right_ p
      let ul := single_tree kd cf.1 p kernel ul.1 ul.2 du_new dl_new rel_err abs_err
      single_tree kd cf.2 p kernel ul.1 ul.2 du_new dl_new rel_err abs_err
termination_by D_node.size
decreasing_by
  all_goals simp_wf
  all_goals simp only [apply_closer_heuristic]
  all_goals split
  all_goals simp only [TreeNode.size]
  all_goals omega

/-- The single-point `eval(const GeomPointType &p, const KernT &kernel, rel_err, abs_err)`. -/
def eval (kd : KernelDensity α D) (p : Point α D) (kernel : Kernel α D)
    (rel_err abs_err : α) : α :=
  let upper := kd.data_tree_.root_.attr_.mass
  let lower := (0 : α)
  let du := (1 : α)
  let dl := (0 : α)
  let normalization := kernel.normalization
  let ul := single_tree kd kd.data_tree_.root_ p kernel upper lower du dl rel_err
    (abs_err / normalization)
  normalization * (ul.2 + (ul.1 - ul.2) / 2)

/-- The node overload `tighten_bounds(D_node, Q_node, du_new, dl_new, du, dl)`:
the query node with its aggregate bounds tightened. -/
def tighten_bounds_node (D_node Q_node : TreeNode α D) (du_new dl_new du dl : α) :
    TreeNode α D :=
  let ul := tighten_bounds D_node du_new dl_new du dl Q_node.attr_.upper Q_node.attr_.lower
  Q_node.set_attr { Q_node.attr_ with upper := ul.1, lower := ul.2 }

/-- The node overload `can_approximate(D_node, Q_node, ...)`. -/
def can_approximate_node (kd : KernelDensity α D) (D_node Q_node : TreeNode α D)
    (du_new dl_new du dl rel_err abs_err : α) : Bool :=
  can_approximate kd D_node du_new dl_new du dl Q_node.attr_.upper Q_node.attr_.lower
    rel_err abs_err

/-- Write the bounds `(upper, lower)` into a query point
(`attributes().set_upper`, `attributes().set_lower`). -/
def DataPoint.set_bounds (q : DataPoint α D) (ul : α × α) : DataPoint α D :=
  { q with attributes := { q.attributes with upper := ul.1, lower := ul.2 } }

/-- The function `dual_tree_base` (CPU branch): the query node with its new
aggregate bounds and the query points. `flt_max` and `flt_min` stand for
`std::numeric_limits<FloatType>::max()` and `std::numeric_limits<FloatType>::min()`,
the seeds of the running minimum and maximum. -/
def dual_tree_base (kd : KernelDensity α D) (flt_max flt_min : α)
    (D_node Q_node : TreeNode α D) (kernel : Kernel α D)
    (query_points : List (DataPoint α D)) : TreeNode α D × List (DataPoint α D) :=
  let query_points := map_index_range
    (fun q => q.set_bounds
      (single_tree_base kd D_node q.point kernel 1 0 q.attributes.upper q.attributes.lower))
    Q_node.start_idx_ Q_node.end_idx_ query_points
  let mm := (index_range query_points Q_node.start_idx_ Q_node.end_idx_).foldl
    (fun (mm : α × α) q => (min q.attributes.lower mm.1, max q.attributes.upper mm.2))
    (flt_max, flt_min)
  (Q_node.set_attr { Q_node.attr_ with lower := mm.1, upper := mm.2 }, query_points)

/-- The recursion `dual_tree` (CPU branch): the query node with the aggregate
bounds of its subtree updated, and the query points. The first argument bounds
the depth of the recursion; `none` means that the bound was too small. The
number of nodes of the two trees is always enough (`dual_tree_pointwise`). -/
def dual_tree (kd : KernelDensity α D) (flt_max flt_min : α) :
    Nat → TreeNode α D → TreeNode α D → Kernel α D → α → α → α → α →
    List (DataPoint α D) → Option (TreeNode α D × List (DataPoint α D))
  | 0, _, _, _, _, _, _, _, _ => none
  | fuel + 1, D_node, Q_node, kernel, du, dl, rel_err, abs_err, query_points =>
    let est := estimate_contributions D_node Q_node.bbox_ kernel
    let du_new := est.1
    let dl_new := est.2
    if can_approximate_node kd D_node Q_node du_new dl_new du dl rel_err abs_err then
      some (tighten_bounds_node D_node Q_node du_new dl_new du dl,
        map_index_range
          (fun q => q.set_bounds
            (tighten_bounds D_node du_new dl_new 1 0 q.attributes.upper q.attributes.lower))
          Q_node.start_idx_ Q_node.end_idx_ query_points)
    else
      match Q_node, D_node with
      | .leaf _ _ _ _, .leaf _ _ _ _ =>
        some (dual_tree_base kd flt_max flt_min D_node Q_node kernel query_points)
      | .leaf _ _ _ _, .node _ _ _ _ dleft dright =>
        let Q1 := tighten_bounds_node D_node Q_node du_new dl_new du dl
        let cf := apply_closer_heuristic dleft dright Q1.bbox_
        (dual_tree kd flt_max flt_min fuel cf.1 Q1 kernel du_new dl_new rel_err abs_err
          query_points).bind fun r1 =>
        dual_tree kd flt_max flt_min fuel cf.2 r1.1 kernel du_new dl_new rel_err abs_err r1.2
      | .node qb qs qe qa qleft qright, .leaf _ _ _ _ =>
        let ql := tighten_bounds_node D_node qleft du_new dl_new du dl
        let qr := tighten_bounds_node D_node qright du_new dl_new du dl
        (dual_tree kd flt_max flt_min fuel D_node ql kernel du_new dl_new rel_err abs_err
          query_points).bind fun r1 =>
        (dual_tree kd flt_max flt_min fuel D_node qr kernel du_new dl_new rel_err abs_err
          r1.2).bind fun r2 =>
        some (.node qb qs qe
          { qa with lower := min r1.1.attr_.lower r2.1.attr_.lower,
                    upper := max r1.1.attr_.upper r2.1.attr_.upper }
          r1.1 r2.1, r2.2)
      | .node qb qs qe qa qleft qright, .node _ _ _ _ dleft dright =>
        let ql := tighten_bounds_node D_node qleft du_new dl_new du dl
        let qr := tighten_bounds_node D_node qright du_new dl_new du dl
        let cf := apply_closer_heuristic dleft dright ql.bbox_
        (dual_tree kd flt_max flt_min fuel cf.1 ql kernel du_new dl_new rel_err abs_err
          query_points).bind fun r1 =>
        (dual_tree kd flt_max flt_min fuel cf.2 r1.1 kernel du_new dl_new rel_err abs_err
          r1.2).bind fun r2 =>
        let cf := apply_closer_heuristic dleft dright qr.bbox_
        (dual_tree kd flt_max flt_min fuel cf.1 qr kernel du_new dl_new rel_err abs_err
          r2.2).bind fun r3 =>
        (dual_tree kd flt_max flt_min fuel cf.2 r3.1 kernel du_new dl_new rel_err abs_err
          r3.2).bind fun r4 =>
        some (.node qb qs qe
          { qa with lower := min r2.1.attr_.lower r4.1.attr_.lower,
                    upper := max r2.1.attr_.upper r4.1.attr_.upper }
          r2.1 r4.1, r4.2)

/-- Modelled from the spec: `Kdtree::refresh_node_attributes` (Kdtree.h is not
part of the sources). Bottom-up, every node recomputes mass, lower, upper,
lower_abw and upper_abw: at a leaf from the points of its index range, at an
internal node from its two children. -/
def refresh_node_attributes (points_ : List (DataPoint α D)) : TreeNode α D → TreeNode α D
  | .leaf b s e a =>
    match index_range points_ s e with
    | [] => .leaf b s e a
    | p :: ps =>
      .leaf b s e (ps.foldl
        (fun acc q =>
          { acc with
            mass := acc.mass + q.attributes.mass
            lower := min acc.lower q.attributes.lower
            upper := max acc.upper q.attributes.upper
            lower_abw := min acc.lower_abw q.attributes.abw
            upper_abw := max acc.upper_abw q.attributes.abw })
        { a with
          mass := p.attributes.mass
          lower := p.attributes.lower
          upper := p.attributes.upper
          lower_abw := p.attributes.abw
          upper_abw := p.attributes.abw })
  | .node b s e a l r =>
    let l := refresh_node_attributes points_ l
    let r := refresh_node_attributes points_ r
    .node b s e
      { a with
        mass := l.attr_.mass + r.attr_.mass
        lower := min l.attr_.lower r.attr_.lower
        upper := max l.attr_.upper r.attr_.upper
        lower_abw := min l.attr_.lower_abw r.attr_.lower_abw
        upper_abw := max l.attr_.upper_abw r.attr_.upper_abw }
      l r

/-- The tree overload `eval(KdtreeType &query_tree, const KernT &kernel, rel_err,
abs_err)` (CPU branch): the query tree as the call leaves it; `none` only if
the recursion bound handed to `dual_tree` were too small. -/
def eval_tree (kd : KernelDensity α D) (flt_max flt_min : α) (query_tree : Kdtree α D)
    (kernel : Kernel α D) (rel_err abs_err : α) : Option (Kdtree α D) :=
  let points_ := query_tree.points_.map fun q =>
    { q with attributes :=
        { q.attributes with lower := 0, upper := kd.data_tree_.root_.attr_.mass } }
  let root_ := refresh_node_attributes points_ query_tree.root_
  let du := (1 : α)
  let dl := (0 : α)
  let normalization := kernel.normalization
  (dual_tree kd flt_max flt_min (kd.data_tree_.root_.size + root_.size)
    kd.data_tree_.root_ root_ kernel du dl rel_err (abs_err / normalization) points_).bind
  fun r =>
    some { points_ := r.2.map fun q =>
             { q with attributes :=
                 { q.attributes with lower := q.attributes.lower * normalization,
                                     upper := q.attributes.upper * normalization } }
           root_ := r.1 }

/-- The arbitrary-kernel overload of `direct_eval` for one point. -/
def direct_eval (kd : KernelDensity α D) (p : Point α D) (kernel : Kernel α D) : α :=
  let total := kd.data_tree_.points_.foldl (fun total datum =>
    total + datum.attributes.mass *
      kernel.unnormalized_eval p datum.point datum.attributes.abw) 0
  total * kernel.normalization

/-- The wrapper `direct_eval(DataPointType &p)`: the returned value and the
updated point. -/
def direct_eval_point (kd : KernelDensity α D) (p : DataPoint α D) : α × DataPoint α D :=
  let result := direct_eval kd p.point kd.kernel_
  (result, { p with attributes := { p.attributes with upper := result, lower := result } })

/-- The function `normalize_weights`. -/
def normalize_weights (pts : List (DataPoint α D)) : List (DataPoint α D) :=
  let weight_total := pts.foldl (fun total p => total + p.attributes.weight) 0
  pts.map fun p =>
    { p with attributes := { p.attributes with weight := p.attributes.weight / weight_total } }

/-- The function `initialize_attributes`: normalised weights, then
`mass = weight * pow(abw, -D)`. -/
def initialize_attributes (pts : List (DataPoint α D)) : List (DataPoint α D) :=
  (normalize_weights pts).map fun p =>
    { p with attributes :=
        { p.attributes with mass := p.attributes.weight * p.attributes.abw ^ (-(D : ℤ)) } }

/-- The function `initialize_cum_weights`: the running sums of the weights in
tree order, the last entry overwritten with 1. -/
def initialize_cum_weights (data_tree_ : Kdtree α D) : List α :=
  let cum_weights_ := (data_tree_.points_.foldl
    (fun (acc : α × List α) p =>
      let cum_sum := acc.1 + p.attributes.weight
      (cum_sum, acc.2 ++ [cum_sum])) (0, [])).2
  if data_tree_.size ≠ 0 then cum_weights_.set (data_tree_.size - 1) 1 else cum_weights_

/-- Modelled from the spec: the kd-tree that `Kdtree(points, leaf_max)` builds
over exactly one point (Kdtree.h is not part of the sources): a single leaf over
the index range `[0, 0]` whose bounding box tightly encloses the point and whose
aggregate attributes are refreshed from it. -/
def Kdtree.single (p : DataPoint α D) : Kdtree α D :=
  { points_ := [p]
    root_ := refresh_node_attributes [p]
      (.leaf (fun i => { lower := p.point i, upper := p.point i }) 0 0 p.attributes) }

/-- The constructor `KernelDensity(pts, leaf_max)` on a sequence of exactly one
point: `initialize_attributes`, the kd-tree, `initialize_cum_weights`. The
kernel is default-constructed and configured by the caller afterwards; it is an
argument here. -/
def KernelDensity.construct_single (kernel : Kernel α D) (p : DataPoint α D) :
    KernelDensity α D :=
  let ref_pts := initialize_attributes [p]
  let data_tree_ := Kdtree.single (ref_pts.headD p)
  { kernel_ := kernel
    data_tree_ := data_tree_
    cum_weights_ := initialize_cum_weights data_tree_ }

/-! ## Adaptation, construction, simulation and halfspaces -/

/-- Modelled from the spec: `value()` of the attributes, the point estimate
`(lower + upper) / 2` (the attribute class is not part of the sources). -/
def Attributes.value (a : Attributes α) : α := (a.lower + a.upper) / 2

/-- The functions `std::log`, `std::exp` and `std::pow` of `<cmath>` that
`adapt_density` calls. They are arguments of the model, so that it stays
executable; over the reals they are `Real.log`, `Real.exp` and `Real.rpow`. -/
structure Cmath (α : Type) where
  log : α → α
  exp : α → α
  pow : α → α → α

/-- The exceptions thrown by the sources: `std::invalid_argument` (in
`adapt_density`) and `std::length_error` (in the halfspace splits of
`Rectangle`). -/
inductive Failure where
  | invalid_argument : Failure
  | length_error : Failure

/-- The function `unadapt_density`. -/
def unadapt_density (kd : KernelDensity α D) : KernelDensity α D :=
  let points_ := kd.data_tree_.points_.map fun p =>
    { p with attributes :=
        { p.attributes with lower_abw := 1, upper_abw := 1, mass := p.attributes.weight } }
  { kd with
    data_tree_ :=
      { points_ := points_
        root_ := refresh_node_attributes points_ kd.data_tree_.root_ } }

/-- The three setters `set_lower_abw(bw)`, `set_upper_abw(bw)` and
`set_mass(weight * pow(bw, -D))` that `adapt_density` applies to a reference point. -/
def DataPoint.set_abw (p : DataPoint α D) (bw : α) : DataPoint α D :=
  { p with attributes :=
      { p.attributes with
        lower_abw := bw, upper_abw := bw
        mass := p.attributes.weight * bw ^ (-(D : ℤ)) } }

/-- The second half of `adapt_density`, after the pilot estimate `query_tree` of
the self-evaluation: the local bandwidth corrections are computed from the pilot
values and written, with the masses, into the reference points; the node
aggregates are refreshed. -/
def adapt_density_update (cmath : Cmath α) (kd : KernelDensity α D) (query_tree : Kdtree α D)
    (alpha : α) : KernelDensity α D :=
  let local_bw := query_tree.points_.map fun q => q.attributes.value
  let g := (List.zip kd.data_tree_.points_ local_bw).foldl
    (fun g pb => g + pb.1.attributes.weight * cmath.log pb.2) 0
  let g := cmath.exp g
  let local_bw := local_bw.map fun bw => cmath.pow (bw / g) (-alpha)
  let points_ := List.zipWith DataPoint.set_abw kd.data_tree_.points_ local_bw
  { kd with
    data_tree_ :=
      { points_ := points_
        root_ := refresh_node_attributes points_ kd.data_tree_.root_ } }

/-- The function `adapt_density` (CPU branch): what the call does (returns
normally or throws) and the state of the `KernelDensity` afterwards. The outer
`Option` is that of `eval`: `none` means that its recursion bound was too small,
which never happens (`eval_tree_total`). -/
def adapt_density (cmath : Cmath α) (flt_max flt_min : α) (kd : KernelDensity α D)
    (alpha rel_err abs_err : α) : Option (Except Failure Unit × KernelDensity α D) :=
  if alpha < 0 ∨ alpha > 1 then some (.error .invalid_argument, kd)
  else
    let kd := unadapt_density kd
    if alpha = 0 then some (.ok (), kd)
    else
      (eval_tree kd flt_max flt_min kd.data_tree_ kd.kernel_ rel_err abs_err).bind
      fun query_tree => some (.ok (), adapt_density_update cmath kd query_tree alpha)

/-- Modelled from the spec: what the constructor `KernelDensity(pts, leaf_max)`
establishes. `initialize_attributes` runs on the input, the kd-tree construction
(Kdtree.h is not part of the sources) permutes the point array, and
`initialize_cum_weights` runs on the tree-ordered points. -/
def KernelDensity.ConstructedFrom (kd : KernelDensity α D) (pts : List (DataPoint α D)) :
    Prop :=
  kd.data_tree_.points_.Perm (initialize_attributes pts) ∧
  kd.cum_weights_ = initialize_cum_weights kd.data_tree_

/-- The loop of `std::upper_bound` as the standard library writes it: `first`
and `len` delimit the part still searched. -/
def upper_bound_loop (l : List α) (val : α) (first len : Nat) : Nat :=
  if 0 < len then
    let half := len / 2
    let middle := first + half
    if val < l.getD middle 0 then upper_bound_loop l val first half
    else upper_bound_loop l val (middle + 1) (len - half - 1)
  else first
termination_by len
decreasing_by
  all_goals simp_wf
  all_goals omega

/-- The call `std::upper_bound(l.begin(), l.end(), val)`, as an index: `l.length`
stands for `l.end()`. -/
def upper_bound (l : List α) (val : α) : Nat := upper_bound_loop l val 0 l.length

/-- The function `simulate(e, p)`: `u` is the draw `d(e)` from the uniform
distribution on `[0, 1)` and `kernel_simulate abw` the displacement that
`kernel_.simulate(e, q, abw)` writes into `q`. The result is `none` when the
assertion `it != cum_weights_.end()` fails. -/
def simulate (kd : KernelDensity α D) (u : α) (kernel_simulate : α → Point α D) :
    Option (Point α D) :=
  let it := upper_bound kd.cum_weights_ u
  if it = kd.cum_weights_.length then none
  else
    (kd.data_tree_.points_[it]?).map fun ref_pt =>
      let q := kernel_simulate ref_pt.attributes.abw
      fun i => ref_pt.point i + q i

/-- The method `Rectangle::resize(d, e)`. -/
def Rectangle.resize (r : Rectangle α D) (d : Fin D) (e : Interval α) : Rectangle α D :=
  fun i => if i = d then e else r i

/-- The method `Rectangle::lower_halfspace(d, v)`: the returned rectangle or the
exception thrown, and the rectangle the method was called on afterwards. -/
def Rectangle.lower_halfspace (self : Rectangle α D) (d : Fin D) (v : α) :
    Except Failure (Rectangle α D) × Rectangle α D :=
  if !(self d).contains v then (.error .length_error, self)
  else
    let r := self
    let r := r.resize d { lower := (self d).lower, upper := v }
    (.ok r, self)

/-- The method `Rectangle::upper_halfspace(d, v)`: the returned rectangle or the
exception thrown, and the rectangle the method was called on afterwards. -/
def Rectangle.upper_halfspace (self : Rectangle α D) (d : Fin D) (v : α) :
    Except Failure (Rectangle α D) × Rectangle α D :=
  if !(self d).contains v then (.error .length_error, self)
  else
    let r := self
    let r := r.resize d { lower := v, upper := (self d).upper }
    (.ok r, self)

/-- The accumulation of `Rectangle::max_dist(const GT &g)` before the final
`std::sqrt`: the sum over the axes of the squared per-axis maximum distance. -/
def Rectangle.max_dist_sq {G : Type} [AxisDist α G] (r : Rectangle α D)
    (g : Fin D → G) : α :=
  (List.finRange D).foldl (fun total i =>
    total + AxisDist.max_dist (r i) (g i) * AxisDist.max_dist (r i) (g i)) 0

/-- The method `Rectangle::min_dist(const GT &g)`; the argument `sqrt` stands for
`std::sqrt`. -/
def Rectangle.min_dist {G : Type} [AxisDist α G] (sqrt : α → α) (r : Rectangle α D)
    (g : Fin D → G) : α :=
  sqrt (r.min_dist_sq g)

/-- The method `Rectangle::max_dist(const GT &g)`; the argument `sqrt` stands for
`std::sqrt`. -/
def Rectangle.max_dist {G : Type} [AxisDist α G] (sqrt : α → α) (r : Rectangle α D)
    (g : Fin D → G) : α :=
  sqrt (r.max_dist_sq g)

/-- The function `std::minmax(a, b)`: the pair `(b, a)` when `b < a`, the pair
`(a, b)` otherwise. -/
def minmax (a b : α) : α × α := if b < a then (b, a) else (a, b)

/-- The constructor `Rectangle(p1, p2)`: the edge of dimension `i` is built from
`std::minmax(p1[i], p2[i])`. -/
def Rectangle.of_points (p1 p2 : Point α D) : Rectangle α D :=
  fun i =>
    let p := minmax (p1 i) (p2 i)
    { lower := p.1, upper := p.2 }

/-- The method `Rectangle::resize(p1, p2)`: every edge is overwritten. -/
def Rectangle.resize_points (_self : Rectangle α D) (p1 p2 : Point α D) : Rectangle α D :=
  fun i =>
    let p := minmax (p1 i) (p2 i)
    { lower := p.1, upper := p.2 }

/-- The function `almost_equal` of `FloatUtils.h`; `flt_min` and `epsilon` stand for
`std::numeric_limits<T>::min()` and `std::numeric_limits<T>::epsilon()`. -/
def almost_equal (flt_min epsilon : α) (lhs rhs : α) : Bool :=
  let diff := |lhs - rhs|
  if diff ≤ flt_min then true
  else decide (diff ≤ epsilon * max |lhs| |rhs|)

/-- Modelled from the spec: the indexed access `p[i]` of a point (Point.h is not part
of the sources). A read outside `0 .. dim() - 1` has no value. -/
def Point.read (p : Point α D) (i : Nat) : Option α :=
  if h : i < D then some (p ⟨i, h⟩) else none

/-- The loop `while (i < lhs.dim() && lhs[i] == rhs[i]) { ++i; }` of `LexCompare`,
entered with the index `i`: the index at which it stops, or `none` if it reads a
coordinate that does not exist. The coordinates are read only when `i < lhs.dim()`. -/
def LexCompare_loop (lhs rhs : Point α D) (i : Nat) : Option Nat :=
  if i < D then
    match lhs.read i, rhs.read i with
    | some a, some b => if a = b then LexCompare_loop lhs rhs (i + 1) else some i
    | _, _ => none
  else some i
termination_by D - i

/-- The function `LexCompare` of `FloatUtils.h`: `none` if it reads a coordinate that
does not exist. The coordinates are read only when `i != lhs.dim()`. -/
def LexCompare (lhs rhs : Point α D) : Option Bool :=
  (LexCompare_loop lhs rhs 0).bind fun i =>
    if i ≠ D then
      match lhs.read i, rhs.read i with
      | some a, some b => some (decide (a < b))
      | _, _ => none
    else some false

/-- The function `likelihood_cross_validate` (CPU branch): the returned score and the
`KernelDensity` afterwards (the method is `const`). The query tree is a copy of the
reference tree and `eval` keeps its points in place, so the loop over the index `i` visits
the pairs `(query_tree.points_[i], data_tree_.points_[i])` of `zip`. The outer `Option` is
that of `eval`: `none` means that its recursion bound was too small, which never happens
(`eval_tree_total`). -/
def likelihood_cross_validate (cmath : Cmath α) (flt_max flt_min : α) (kd : KernelDensity α D)
    (rel_err abs_err : α) : Option (α × KernelDensity α D) :=
  let query_tree := kd.data_tree_
  (eval_tree kd flt_max flt_min query_tree kd.kernel_ rel_err abs_err).bind fun query_tree =>
    let cv := (List.zip query_tree.points_ kd.data_tree_.points_).foldl
      (fun cv qp =>
        let cv_i := qp.1.attributes.value
        let cv_i := cv_i - qp.2.attributes.mass * kd.kernel_.normalization
        cv + qp.2.attributes.weight * cmath.log cv_i) 0
    some (cv, kd)

/-- The grid of `lsq_numint_cross_validate`: the two nested loops
`for (j = 0; j < steps_y; ++j) for (i = 0; i < steps_x; ++i) q_grid.push_back(...)`.
A grid point is constructed from its two coordinates alone; `default_attributes` stands for
the attributes that this construction gives it (the attribute class is not part of the
sources). -/
def lsq_numint_grid (default_attributes : Attributes α) (start_x delta_x : α) (steps_x : Int)
    (start_y delta_y : α) (steps_y : Int) : List (DataPoint α 2) :=
  (List.range steps_y.toNat).foldl
    (fun q_grid j =>
      (List.range steps_x.toNat).foldl
        (fun q_grid i =>
          q_grid ++ [{ point := ![start_x + (i : α) * delta_x, start_y + (j : α) * delta_y]
                       attributes := default_attributes }])
        q_grid)
    []

/-- The function `lsq_numint_cross_validate` (CPU branch). The argument `kdtree_build`
stands for the constructor `Kdtree(points, leaf_max)` (Kdtree.h is not part of the sources),
which returns a tree or throws. The result holds what the call does (returns the score or
throws), the list of the query trees on which it has called `kde.eval`, in order, and the
`KernelDensity` afterwards (it is passed by `const` reference). The outer `Option` is that
of `eval`. -/
def lsq_numint_cross_validate
    (kdtree_build : List (DataPoint α 2) → Int → Except Failure (Kdtree α 2))
    (default_attributes : Attributes α) (flt_max flt_min : α) (kde : KernelDensity α 2)
    (start_x end_x : α) (steps_x : Int) (start_y end_y : α) (steps_y : Int)
    (rel_err abs_err : α) (qtree_leaf_nmax : Int) :
    Option (Except Failure α × List (Kdtree α 2) × KernelDensity α 2) :=
  let rtree := kde.data_tree_
  (eval_tree kde flt_max flt_min rtree kde.kernel_ rel_err abs_err).bind fun rtree_out =>
    let llo_cv := (List.zip rtree_out.points_ kde.data_tree_.points_).foldl
      (fun llo_cv qp =>
        let val := qp.1.attributes.value
        let val := val - qp.2.attributes.mass * kde.kernel_.normalization
        llo_cv + qp.2.attributes.weight * val) 0
    let delta_x := (end_x - start_x) / (steps_x : α)
    let delta_y := (end_y - start_y) / (steps_y : α)
    let q_grid := lsq_numint_grid default_attributes start_x delta_x steps_x start_y delta_y
      steps_y
    match kdtree_build q_grid qtree_leaf_nmax with
    | .error e => some (.error e, [rtree], kde)
    | .ok qtree =>
      (eval_tree kde flt_max flt_min qtree kde.kernel_ rel_err abs_err).bind fun qtree_out =>
        let self_cv := qtree_out.points_.foldl
          (fun self_cv p =>
            let val := p.attributes.value
            self_cv + val * val * delta_x * delta_y) 0
        some (.ok (self_cv - 2 * llo_cv), [rtree, qtree], kde)

/-- Modelled from the spec: the constructor `Kdtree(points, leaf_max)` on a sequence that
fits into one leaf (Kdtree.h is not part of the sources): it fails with an invalid-argument
error when `leaf_max <= 0` or when there is no point, and otherwise builds a single leaf
over all points, with the tight bounding box and refreshed aggregate attributes. -/
def Kdtree.build_leaf (pts : List (DataPoint α D)) (leaf_max : Int) :
    Except Failure (Kdtree α D) :=
  if leaf_max ≤ 0 then .error .invalid_argument
  else
    match pts with
    | [] => .error .invalid_argument
    | p :: ps =>
      .ok { points_ := p :: ps
            root_ := refresh_node_attributes (p :: ps)
              (.leaf (fun i => { lower := ps.foldl (fun m q => min m (q.point i)) (p.point i)
                                 upper := ps.foldl (fun m q => max m (q.point i)) (p.point i) })
                0 ps.length p.attributes) }

/-- The arguments of one call of `single_tree` that vary along the recursion: the
reference node, the bounds `upper` and `lower` on entry, and the contribution estimates
`du` and `dl` handed down by the caller. -/
structure SingleTreeCall (α : Type) (D : Nat) where
  D_node : TreeNode α D
  upper : α
  lower : α
  du : α
  dl : α

/-- The recursive calls that the call `c` of `single_tree` makes itself, in order: none
when the node is approximated or is a leaf, otherwise the call on the closer child with
the tightened bounds and the call on the further child with the bounds that the first call
returned, both with the estimates `(du_new, dl_new)` of the node of `c`. -/
def single_tree_calls (kd : KernelDensity α D) (p : Point α D) (kernel : Kernel α D)
    (rel_err abs_err : α) (c : SingleTreeCall α D) : List (SingleTreeCall α D) :=
  let est := estimate_contributions c.D_node p kernel
  let du_new := est.1
  let dl_new := est.2
  if can_approximate kd c.D_node du_new dl_new c.du c.dl c.upper c.lower rel_err abs_err then
    []
  else
    match c.D_node with
    | .leaf _ _ _ _ => []
    | .node _ _ _ _ left_ right_ =>
      let ul := tighten_bounds c.D_node du_new dl_new c.du c.dl c.upper c.lower
      let cf := apply_closer_heuristic left_ right_ p
      let ul1 := single_tree kd cf.1 p kernel ul.1 ul.2 du_new dl_new rel_err abs_err
      [{ D_node := cf.1, upper := ul.1, lower := ul.2, du := du_new, dl := dl_new },
       { D_node := cf.2, upper := ul1.1, lower := ul1.2, du := du_new, dl := dl_new }]

/-- The call of `single_tree` that the single-point `eval` makes: on the root, with
`upper` the mass of the root, `lower = 0`, `du = 1` and `dl = 0`. -/
def eval_root_call (kd : KernelDensity α D) : SingleTreeCall α D :=
  { D_node := kd.data_tree_.root_, upper := kd.data_tree_.root_.attr_.mass, lower := 0,
    du := 1, dl := 0 }

/-- What `report_error` writes to its stream: the relative form, with the query point, the
bounds, the absolute gap `|upper - lower|` and the relative gap `|upper - lower| / lower`,
or the absolute form, without the relative gap. -/
inductive Diagnostic (α : Type) (D : Nat) where
  | relative_loss (p : Point α D) (lower upper abs_gap rel_gap : α) : Diagnostic α D
  | absolute_loss (p : Point α D) (lower upper abs_gap : α) : Diagnostic α D

/-- The function `report_error`: the diagnostic that it writes, if any. The test
`if (lower)` of a floating-point number is the test `lower != 0`. -/
def report_error (p : Point α D) (upper lower rel_err abs_err : α) :
    Option (Diagnostic α D) :=
  if |upper - lower| > abs_err then
    if lower ≠ 0 then
      if |(upper - lower) / lower| > rel_err then
        some (.relative_loss p lower upper |upper - lower| (|upper - lower| / lower))
      else none
    else some (.absolute_loss p lower upper |upper - lower|)
  else none

/-- The single-point `eval(const GeomPointType &p, const KernT &kernel, rel_err, abs_err)`
with its call of `report_error(std::cerr, ...)`: the returned value and the diagnostic
written to `std::cerr`, if any. -/
def eval_reporting (kd : KernelDensity α D) (p : Point α D) (kernel : Kernel α D)
    (rel_err abs_err : α) : α × Option (Diagnostic α D) :=
  let upper := kd.data_tree_.root_.attr_.mass
  let lower := (0 : α)
  let du := (1 : α)
  let dl := (0 : α)
  let normalization := kernel.normalization
  let ul := single_tree kd kd.data_tree_.root_ p kernel upper lower du dl rel_err
    (abs_err / normalization)
  let result := normalization * (ul.2 + (ul.1 - ul.2) / 2)
  (result, report_error p (normalization * ul.1) (normalization * ul.2) rel_err abs_err)

/-- The function `apply_closer_heuristic` with the Euclidean distance `min_dist` of the
source; `sqrt` stands for `std::sqrt`. For a strictly increasing square root it is
`apply_closer_heuristic`, which compares the squares (`apply_closer_heuristic_spec`). -/
def apply_closer_heuristic_sqrt {G : Type} [AxisDist α G] (sqrt : α → α)
    (closer further : TreeNode α D) (obj : Fin D → G) : TreeNode α D × TreeNode α D :=
  if closer.bbox_.min_dist sqrt obj > further.bbox_.min_dist sqrt obj then (further, closer)
  else (closer, further)

/-- The function `swap(KernelDensity &lhs, KernelDensity &rhs)`: the two objects after the
call. It swaps `kernel_` and `data_tree_`. -/
def KernelDensity.swap (lhs rhs : KernelDensity α D) : KernelDensity α D × KernelDensity α D :=
  let kernels := (rhs.kernel_, lhs.kernel_)
  let trees := (rhs.data_tree_, lhs.data_tree_)
  ({ lhs with kernel_ := kernels.1, data_tree_ := trees.1 },
   { rhs with kernel_ := kernels.2, data_tree_ := trees.2 })

/-- The node pairs `(D_node, Q_node)` at which the recursion `dual_tree` stops, in the order
in which it reaches them: a call stops when `can_approximate` passes or when both nodes are
leaves (`dual_tree_base`); otherwise its stops are those of its recursive calls. The
recursive calls, their order and the states between them are those of `dual_tree`. The
first argument bounds the depth of the recursion, as in `dual_tree`. -/
def dual_tree_stops (kd : KernelDensity α D) (flt_max flt_min : α) :
    Nat → TreeNode α D → TreeNode α D → Kernel α D → α → α → α → α →
    List (DataPoint α D) → Option (List (TreeNode α D × TreeNode α D))
  | 0, _, _, _, _, _, _, _, _ => none
  | fuel + 1, D_node, Q_node, kernel, du, dl, rel_err, abs_err, query_points =>
    let est := estimate_contributions D_node Q_node.bbox_ kernel
    let du_new := est.1
    let dl_new := est.2
    if can_approximate_node kd D_node Q_node du_new dl_new du dl rel_err abs_err then
      some [(D_node, Q_node)]
    else
      match Q_node, D_node with
      | .leaf _ _ _ _, .leaf _ _ _ _ => some [(D_node, Q_node)]
      | .leaf _ _ _ _, .node _ _ _ _ dleft dright =>
        let Q1 := tighten_bounds_node D_node Q_node du_new dl_new du dl
        let cf := apply_closer_heuristic dleft dright Q1.bbox_
        (dual_tree_stops kd flt_max flt_min fuel cf.1 Q1 kernel du_new dl_new rel_err abs_err
          query_points).bind fun s1 =>
        (dual_tree kd flt_max flt_min fuel cf.1 Q1 kernel du_new dl_new rel_err abs_err
          query_points).bind fun r1 =>
        (dual_tree_stops kd flt_max flt_min fuel cf.2 r1.1 kernel du_new dl_new rel_err abs_err
          r1.2).bind fun s2 =>
        some (s1 ++ s2)
      | .node _ _ _ _ qleft qright, .leaf _ _ _ _ =>
        let ql := tighten_bounds_node D_node qleft du_new dl_new du dl
        let qr := tighten_bounds_node D_node qright du_new dl_new du dl
        (dual_tree_stops kd flt_max flt_min fuel D_node ql kernel du_new dl_new rel_err abs_err
          query_points).bind fun s1 =>
        (dual_tree kd flt_max flt_min fuel D_node ql kernel du_new dl_new rel_err abs_err
          query_points).bind fun r1 =>
        (dual_tree_stops kd flt_max flt_min fuel D_node qr kernel du_new dl_new rel_err abs_err
          r1.2).bind fun s2 =>
        some (s1 ++ s2)
      | .node _ _ _ _ qleft qright, .node _ _ _ _ dleft dright =>
        let ql := tighten_bounds_node D_node qleft du_new dl_new du dl
        let qr := tighten_bounds_node D_node qright du_new dl_new du dl
        let cf := apply_closer_heuristic dleft dright ql.bbox_
        (dual_tree_stops kd flt_max flt_min fuel cf.1 ql kernel du_new dl_new rel_err abs_err
          query_points).bind fun s1 =>
        (dual_tree kd flt_max flt_min fuel cf.1 ql kernel du_new dl_new rel_err abs_err
          query_points).bind fun r1 =>
        (dual_tree_stops kd flt_max flt_min fuel cf.2 r1.1 kernel du_new dl_new rel_err abs_err
          r1.2).bind fun s2 =>
        (dual_tree kd flt_max flt_min fuel cf.2 r1.1 kernel du_new dl_new rel_err abs_err
          r1.2).bind fun r2 =>
        let cf := apply_closer_heuristic dleft dright qr.bbox_
        (dual_tree_stops kd flt_max flt_min fuel cf.1 qr kernel du_new dl_new rel_err abs_err
          r2.2).bind fun s3 =>
        (dual_tree kd flt_max flt_min fuel cf.1 qr kernel du_new dl_new rel_err abs_err
          r2.2).bind fun r3 =>
        (dual_tree_stops kd flt_max flt_min fuel cf.2 r3.1 kernel du_new dl_new rel_err abs_err
          r3.2).bind fun s4 =>
        some (s1 ++ s2 ++ s3 ++ s4)

/-- The pair of a reference index `i` and a query index `j` lies in the index ranges of the
node pair `st`. -/
def stop_covers (i j : Nat) (st : TreeNode α D × TreeNode α D) : Bool :=
  decide (st.1.start_idx_ ≤ i ∧ i ≤ st.1.end_idx_ ∧ st.2.start_idx_ ≤ j ∧ j ≤ st.2.end_idx_)

/-- The number (0 or 1) of times that the index range of a node holds the index `i`. -/
def range_count (n : TreeNode α D) (i : Nat) : Nat :=
  if n.start_idx_ ≤ i ∧ i ≤ n.end_idx_ then 1 else 0

end Evaluator

/-! ## Invariants of the data model -/

section Invariants

variable {α : Type} [LinearOrderedField α] {D : Nat}

/-- A property of nodes holds at every node of a subtree. -/
def TreeNode.All (P : TreeNode α D → Prop) : TreeNode α D → Prop
  | .leaf b s e a => P (.leaf b s e a)
  | .node b s e a l r => P (.node b s e a l r) ∧ TreeNode.All P l ∧ TreeNode.All P r

/-- Index structure of a node over an array of `len` points: a leaf holds a
non-empty range inside the array; the two children of an internal node split
its range into two adjacent parts. -/
def IndexInv (len : Nat) : TreeNode α D → Prop
  | .leaf _ s e _ => s ≤ e ∧ e < len
  | .node _ s e _ l r => l.start_idx_ = s ∧ l.end_idx_ + 1 = r.start_idx_ ∧ r.end_idx_ = e

/-- Node invariant: `attr.mass` is the sum of the masses of the points of the
node's index range. -/
def MassInv (pts : List (DataPoint α D)) (n : TreeNode α D) : Prop :=
  n.attr_.mass = ((index_range pts n.start_idx_ n.end_idx_).map fun p => p.attributes.mass).sum

/-- Node invariant: `bbox` contains every point of the node's index range. -/
def BoxInv (pts : List (DataPoint α D)) (n : TreeNode α D) : Prop :=
  ∀ p ∈ index_range pts n.start_idx_ n.end_idx_, n.bbox_.contains p.point = true

/-- Node invariant: `lower_abw` and `upper_abw` bracket the (positive) local
bandwidth correction of every point of the node's index range. -/
def AbwInv (pts : List (DataPoint α D)) (n : TreeNode α D) : Prop :=
  0 < n.attr_.lower_abw ∧
  ∀ p ∈ index_range pts n.start_idx_ n.end_idx_,
    n.attr_.lower_abw ≤ p.attributes.abw ∧ p.attributes.abw ≤ n.attr_.upper_abw

/-- The edge `J` lies inside the edge `I`. -/
def Interval.Within (J I : Interval α) : Prop :=
  I.lower ≤ J.lower ∧ J.lower ≤ J.upper ∧ J.upper ≤ I.upper

/-- Boxes of the children lie inside the box of their parent (a consequence of
every box being the tight bounding box of its points). -/
def BoxNested : TreeNode α D → Prop
  | .leaf _ _ _ _ => True
  | .node b _ _ _ l r =>
    (∀ i, (l.bbox_ i).Within (b i)) ∧ (∀ i, (r.bbox_ i).Within (b i))

/-- The bandwidth ranges of the children lie inside the range of their parent
(a consequence of `lower_abw` / `upper_abw` being the minimum / maximum over the
points of the subtree). -/
def AbwNested : TreeNode α D → Prop
  | .leaf _ _ _ _ => True
  | .node _ _ _ a l r =>
    a.lower_abw ≤ l.attr_.lower_abw ∧ l.attr_.upper_abw ≤ a.upper_abw ∧
    a.lower_abw ≤ r.attr_.lower_abw ∧ r.attr_.upper_abw ≤ a.upper_abw

/-- Index structure of a kd-tree: the root covers the whole point array and the
index ranges of the nodes nest. -/
structure Kdtree.Indexed (t : Kdtree α D) : Prop where
  root_start : t.root_.start_idx_ = 0
  root_end : t.root_.end_idx_ + 1 = t.points_.length
  index : t.root_.All (IndexInv t.points_.length)

/-- The reference tree of a `KernelDensity` in the sense of the data model: the
index ranges nest, every node satisfies the node invariants (mass, bounding
box, bandwidth range), boxes and bandwidth ranges nest, and point masses are
non-negative. -/
structure KernelDensity.Valid (kd : KernelDensity α D) : Prop where
  indexed : kd.data_tree_.Indexed
  mass : kd.data_tree_.root_.All (MassInv kd.data_tree_.points_)
  box : kd.data_tree_.root_.All (BoxInv kd.data_tree_.points_)
  abw : kd.data_tree_.root_.All (AbwInv kd.data_tree_.points_)
  box_nested : kd.data_tree_.root_.All BoxNested
  abw_nested : kd.data_tree_.root_.All AbwNested
  mass_nonneg : ∀ p ∈ kd.data_tree_.points_, 0 ≤ p.attributes.mass

/-- The kernel capability: the unnormalised value lies in `[0, 1]`, depends only
on the per-axis absolute differences of its two points, does not increase when
these grow and does not decrease when the (positive) bandwidth correction
grows. A kernel that is a non-increasing function of the Euclidean distance
divided by `abw` is of this kind. -/
structure KernelCapability (kernel : Kernel α D) : Prop where
  nonneg : ∀ p q a, 0 ≤ kernel.unnormalized_eval p q a
  le_one : ∀ p q a, kernel.unnormalized_eval p q a ≤ 1
  mono : ∀ p q p' q' a a', (∀ i, |p i - q i| ≤ |p' i - q' i|) → 0 < a' → a' ≤ a →
    kernel.unnormalized_eval p' q' a' ≤ kernel.unnormalized_eval p q a

/-- The exact kernel sum of a list of reference points at `q`, before
normalisation: the sum of `mass * unnormalized_eval(q, x, abw)`. -/
def kernel_sum (kernel : Kernel α D) (q : Point α D) (pts : List (DataPoint α D)) : α :=
  (pts.map fun d =>
    d.attributes.mass * kernel.unnormalized_eval q d.point d.attributes.abw).sum

/-- Outcome of one call of `single_tree` on a node of mass `m` whose points
have exact kernel sum `S`, entered with bounds `(U, L)` and inherited
proportions `(du, dl)`, returning `r = (upper, lower)`. -/
structure SingleTreePost (tol abs_err rel_err m S U L du dl : α) (r : α × α) : Prop where
  lower_le : r.2 - L + dl * m ≤ S
  le_upper : S ≤ r.1 - U + du * m
  lower_mono : L ≤ r.2
  upper_mono : r.1 ≤ U
  acc : (r.1 - r.2 ≤ abs_err ∨ r.1 - r.2 ≤ r.2 * rel_err) ∨
    (r.1 - U + du * m) - (r.2 - L + dl * m) ≤ tol * m

/-- The kernel value depends only on the per-axis absolute differences. -/
def AbsDiffOnly (kernel : Kernel α D) : Prop :=
  ∀ p q p' q' a, (∀ i, |p i - q i| = |p' i - q' i|) →
    kernel.unnormalized_eval p q a = kernel.unnormalized_eval p' q' a

/-- The bounds of a node are attained -/
def TightInv (pts : List (DataPoint α D)) (n : TreeNode α D) : Prop :=
  (∀ i, ∃ p ∈ index_range pts n.start_idx_ n.end_idx_, (n.bbox_ i).lower = p.point i) ∧
  (∀ i, ∃ p ∈ index_range pts n.start_idx_ n.end_idx_, (n.bbox_ i).upper = p.point i) ∧
  (∃ p ∈ index_range pts n.start_idx_ n.end_idx_, n.attr_.lower_abw = p.attributes.abw) ∧
  (∃ p ∈ index_range pts n.start_idx_ n.end_idx_, n.attr_.upper_abw = p.attributes.abw)

/-- Two nodes differ at most in the aggregate attributes stored in their subtrees. -/
def SameShape : TreeNode α D → TreeNode α D → Prop
  | .leaf b s e _, .leaf b' s' e' _ => b = b' ∧ s = s' ∧ e = e'
  | .node b s e _ l r, .node b' s' e' _ l' r' =>
    b = b' ∧ s = s' ∧ e = e' ∧ SameShape l l' ∧ SameShape r r'
  | _, _ => False

/-- Every entry of `l` with index in `[s, e]` satisfies `P`. -/
def HoldsOn {β : Type} (s e : Nat) (P : β → Prop) (l : List β) : Prop :=
  ∀ i q, s ≤ i → i ≤ e → l[i]? = some q → P q

/-- The list `l'` arises from `l` by replacing every entry `q` with index in
`[s, e]` by an entry related to it by `R`; all other entries are unchanged. -/
def UpdatedOn {β : Type} (s e : Nat) (R : β → β → Prop) (l l' : List β) : Prop :=
  l'.length = l.length ∧
  ∀ i q q', l[i]? = some q → l'[i]? = some q' →
    ((s ≤ i ∧ i ≤ e) → R q q') ∧ (¬ (s ≤ i ∧ i ≤ e) → q' = q)

/-- The query-side invariant of a node: a property of the node's box and a query
point holds for every query point of the node's index range. -/
def QueryInv (QP : Rectangle α D → DataPoint α D → Prop) (qpts : List (DataPoint α D))
    (n : TreeNode α D) : Prop :=
  HoldsOn n.start_idx_ n.end_idx_ (QP n.bbox_) qpts

/-- A per-query-point account of the dual-tree recursion: `Rel Dn q q'` describes
what processing the reference node `Dn` does to a query point, `Pre Dn q` what
it needs before, `DOK` the invariants of reference nodes and `QP` those relating
a query point to the box of a query node that holds it. -/
structure PointwiseSpec (kd : KernelDensity α D) (kernel : Kernel α D)
    (DOK : TreeNode α D → Prop) (QP : Rectangle α D → DataPoint α D → Prop)
    (Pre : TreeNode α D → DataPoint α D → Prop)
    (Rel : TreeNode α D → DataPoint α D → DataPoint α D → Prop) : Prop where
  children : ∀ b s e a l r, DOK (.node b s e a l r) → DOK l ∧ DOK r
  prune : ∀ Dn box q, DOK Dn → QP box q → Pre Dn q →
    Rel Dn q (q.set_bounds (tighten_bounds Dn (estimate_contributions Dn box kernel).1
      (estimate_contributions Dn box kernel).2 1 0 q.attributes.upper q.attributes.lower))
  base : ∀ Dn q, DOK Dn → Pre Dn q →
    Rel Dn q (q.set_bounds
      (single_tree_base kd Dn q.point kernel 1 0 q.attributes.upper q.attributes.lower))
  split : ∀ b s e a l r q, DOK (.node b s e a l r) → Pre (.node b s e a l r) q →
    Pre l q ∧ Pre r q ∧ (∀ q', Rel l q q' → Pre r q') ∧ (∀ q', Rel r q q' → Pre l q')
  comp : ∀ b s e a l r q q' q'', DOK (.node b s e a l r) →
    (Rel l q q' → Rel r q' q'' → Rel (.node b s e a l r) q q'') ∧
    (Rel r q q' → Rel l q' q'' → Rel (.node b s e a l r) q q'')
  preserved : ∀ Dn box q q', Rel Dn q q' → QP box q → QP box q'

/-- What one call of `dual_tree` does, per query point. -/
def DualTreeReturns (kd : KernelDensity α D) (kernel : Kernel α D) (flt_max flt_min : α)
    (Rel : TreeNode α D → DataPoint α D → DataPoint α D → Prop)
    (fuel : Nat) (Dn Qn : TreeNode α D) (du dl rel_err abs_err : α)
    (qpts : List (DataPoint α D)) : Prop :=
  ∃ r, dual_tree kd flt_max flt_min fuel Dn Qn kernel du dl rel_err abs_err qpts = some r ∧
    SameShape r.1 Qn ∧ UpdatedOn Qn.start_idx_ Qn.end_idx_ (Rel Dn) qpts r.2

/-- Invariants of a reference node used by the bound invariants: index
structure and masses. -/
def MassOK (pts : List (DataPoint α D)) (n : TreeNode α D) : Prop :=
  n.All (IndexInv pts.length) ∧ n.All (MassInv pts)

/-- Effect of processing a reference node of mass `m` on the bounds of a
query point, whatever the estimates were. -/
def BoundStep (m : α) (q q' : DataPoint α D) : Prop :=
  q'.point = q.point ∧ q.attributes.lower ≤ q'.attributes.lower ∧
  q'.attributes.lower ≤ q.attributes.lower + m ∧
  q'.attributes.lower ≤ q'.attributes.upper ∧
  q'.attributes.upper ≤ max q.attributes.upper q'.attributes.lower

/-- Invariants of a reference node used by the validity of the bounds. -/
def NodeOK (pts : List (DataPoint α D)) (n : TreeNode α D) : Prop :=
  n.All (IndexInv pts.length) ∧ n.All (MassInv pts) ∧ n.All (BoxInv pts) ∧ n.All (AbwInv pts)

/-- Effect of processing a reference node of mass `m` on the bounds of a query
point, when the node contributes exactly `S` to the kernel sum at that point:
the lower bound gains at most `S`, the upper bound gives up at most `m - S`. -/
def ValidStep (m : α) (S : Point α D → α) (q q' : DataPoint α D) : Prop :=
  q'.point = q.point ∧ q.attributes.lower ≤ q'.attributes.lower ∧
  q'.attributes.lower ≤ q.attributes.lower + S q.point ∧
  q.attributes.upper - m + S q.point ≤ q'.attributes.upper ∧
  q'.attributes.upper ≤ q.attributes.upper

/-- Initial bounds of a query point in `eval`: lower 0, upper the root mass. -/
def DataPoint.init_bounds (m : α) (q : DataPoint α D) : DataPoint α D :=
  { q with attributes := { q.attributes with lower := 0, upper := m } }

/-- The final normalisation of the bounds of a query point in `eval`. -/
def DataPoint.normalize_bounds (c : α) (q : DataPoint α D) : DataPoint α D :=
  { q with attributes :=
      { q.attributes with lower := q.attributes.lower * c, upper := q.attributes.upper * c } }

/-- A query tree in the sense of the data model: index ranges nest and every
box contains the query points of its index range. -/
structure Kdtree.Boxed (t : Kdtree α D) : Prop where
  indexed : t.Indexed
  box : t.root_.All (BoxInv t.points_)

/-- Two data points agree in everything but the bounds `lower`, `upper`. -/
def SameButBounds (q q' : DataPoint α D) : Prop :=
  q'.point = q.point ∧ q'.attributes.weight = q.attributes.weight ∧
  q'.attributes.mass = q.attributes.mass ∧
  q'.attributes.lower_abw = q.attributes.lower_abw ∧
  q'.attributes.upper_abw = q.attributes.upper_abw

/-- The entries of a list do not decrease with the index. -/
def NonDecreasing (l : List α) : Prop :=
  ∀ (i j : Nat) (a b : α), i ≤ j → l[i]? = some a → l[j]? = some b → a ≤ b

/-- The geometric-mean pilot in the words of the spec, `g = exp(sum_i weight_i * log f_i)`,
for the list of the weights and the list of the pilot values. -/
def geometric_mean_pilot (cmath : Cmath α) (weights pilot : List α) : α :=
  cmath.exp (List.zipWith (fun w f => w * cmath.log f) weights pilot).sum

end Invariants

/-! ## Concrete data -/

/-- A triangular kernel on the line: normalisation `c`, bandwidth `h`. -/
def tri_kernel (c h : ℚ) : Kernel ℚ 1 :=
  { normalization := c
    unnormalized_eval := fun p q abw => max 0 (1 - |p 0 - q 0| / (h * |abw|)) }

/-- A reference point on the line with the given attributes. -/
def line_point (x weight mass abw : ℚ) : DataPoint ℚ 1 :=
  { point := fun _ => x
    attributes := { weight := weight, mass := mass, lower := 0, upper := 0,
                    lower_abw := abw, upper_abw := abw } }

/-- A kd-tree on the line that is a single leaf over all of its points. -/
def line_leaf_tree (pts : List (DataPoint ℚ 1)) (lo hi mass abw : ℚ) : Kdtree ℚ 1 :=
  { points_ := pts
    root_ := .leaf (fun _ => { lower := lo, upper := hi }) 0 (pts.length - 1)
      { weight := 1, mass := mass, lower := 0, upper := 0, lower_abw := abw, upper_abw := abw } }

/-- Two input points, at `0` with weight `3` and at `1` with weight `1`, both with local
bandwidth correction `1/8`. -/
def heavy_input : List (DataPoint ℚ 1) := [line_point 0 3 0 (1 / 8), line_point 1 1 0 (1 / 8)]

/-- The density built from `heavy_input`: the weights are normalised to `3/4` and `1/4`, the
masses are `6` and `2`, so the total mass `8` exceeds the number of points. -/
def heavy_kd : KernelDensity ℚ 1 :=
  { kernel_ := tri_kernel 1 80
    data_tree_ := line_leaf_tree (initialize_attributes heavy_input) 0 1 8 (1 / 8)
    cum_weights_ := [3 / 4, 1] }

/-- A density over the points `0` and `1` with unit bandwidth corrections. -/
def unit_kd : KernelDensity ℚ 1 :=
  { kernel_ := tri_kernel 1 10
    data_tree_ := line_leaf_tree [line_point 0 (3 / 4) (3 / 4) 1, line_point 1 (1 / 4) (1 / 4) 1]
      0 1 1 1
    cum_weights_ := [3 / 4, 1] }

/-- Two input copies of the point `0`, with weights `3` and `1`. -/
def twin_input : List (DataPoint ℚ 1) := [line_point 0 3 0 1, line_point 0 1 0 1]

/-- The density built from `twin_input`. -/
def twin_kd : KernelDensity ℚ 1 :=
  { kernel_ := tri_kernel 1 10
    data_tree_ := line_leaf_tree (initialize_attributes twin_input) 0 0 1 1
    cum_weights_ := [3 / 4, 1] }

/-- A query tree holding the single point `x`. -/
def query_at (x : ℚ) : Kdtree ℚ 1 := line_leaf_tree [line_point x 1 1 1] x x 1 1

/-- The seed of the running minimum in `dual_tree_base`, the largest `float`. -/
def flt_max_value : ℚ := 340282346638528859811704183484516925440

/-- The seed of the running maximum in `dual_tree_base`, the smallest positive
normalised `float`. -/
def flt_min_value : ℚ := 1 / 85070591730234615865843651857942052864

/-- A triangular kernel on the line over any ordered field: normalisation `c`,
bandwidth `h`. -/
def hat_kernel {α : Type} [LinearOrderedField α] (c h : α) : Kernel α 1 :=
  { normalization := c
    unnormalized_eval := fun p q abw => max 0 (1 - |p 0 - q 0| / (h * |abw|)) }

/-- The reference point `0` on the line with weight `1`, in the non-adaptive state. -/
def one_point {α : Type} [LinearOrderedField α] : DataPoint α 1 :=
  { point := fun _ => 0
    attributes := { weight := 1, mass := 0, lower := 0, upper := 0,
                    lower_abw := 1, upper_abw := 1 } }

/-- The density constructed from the single reference point `one_point`, with the
triangular kernel of normalisation `c` and bandwidth `1`. -/
def one_point_kd {α : Type} [LinearOrderedField α] (c : α) : KernelDensity α 1 :=
  KernelDensity.construct_single (hat_kernel c 1) one_point

/-- A kernel on the plane over any ordered field, a cone over the sum of the per-axis
distances: normalisation `c`, bandwidth `h`. -/
def cone_kernel {α : Type} [LinearOrderedField α] (c h : α) : Kernel α 2 :=
  { normalization := c
    unnormalized_eval := fun p q abw => max 0 (1 - (|p 0 - q 0| + |p 1 - q 1|) / (h * |abw|)) }

/-- The reference point `(0, 0)` of the plane with weight `1`, in the non-adaptive state. -/
def plane_point {α : Type} [LinearOrderedField α] : DataPoint α 2 :=
  { point := fun _ => 0
    attributes := { weight := 1, mass := 0, lower := 0, upper := 0,
                    lower_abw := 1, upper_abw := 1 } }

/-- The density on the plane constructed from the single reference point `plane_point`. -/
def plane_kd : KernelDensity ℚ 2 :=
  KernelDensity.construct_single (cone_kernel 1 1) plane_point

/-- A kd-tree over the points `0` and `1` of the line with two leaves of one point each,
and the density over it. -/
def split_kd : KernelDensity ℚ 1 :=
  { kernel_ := tri_kernel 1 10
    data_tree_ :=
      { points_ := [line_point 0 (3 / 4) (3 / 4) 1, line_point 1 (1 / 4) (1 / 4) 1]
        root_ := .node (fun _ => { lower := 0, upper := 1 }) 0 1
          { weight := 1, mass := 1, lower := 0, upper := 0, lower_abw := 1, upper_abw := 1 }
          (.leaf (fun _ => { lower := 0, upper := 0 }) 0 0
            { weight := 3 / 4, mass := 3 / 4, lower := 0, upper := 0,
              lower_abw := 1, upper_abw := 1 })
          (.leaf (fun _ => { lower := 1, upper := 1 }) 1 1
            { weight := 1 / 4, mass := 1 / 4, lower := 0, upper := 0,
              lower_abw := 1, upper_abw := 1 }) }
    cum_weights_ := [3 / 4, 1] }

/-- The unit square of the plane, over any ordered field. -/
def unit_square {α : Type} [LinearOrderedField α] : Rectangle α 2 :=
  Rectangle.of_points (fun _ => 0) (fun _ => 1)

/-- The square `[1/4, 3/4] x [1/4, 3/4]` inside the unit square. -/
def inner_square {α : Type} [LinearOrderedField α] : Rectangle α 2 :=
  Rectangle.of_points (fun _ => 1 / 4) (fun _ => 3 / 4)

/-- The machine epsilon of `float`, `2^-23`. -/
def flt_epsilon_value : ℚ := 1 / 8388608

/-! ## Lists, index ranges and folds -/

section Lemmas

variable {α : Type} [LinearOrderedField α] {D : Nat}

theorem index_range_split {β : Type} (pts : List β) (s m e : Nat) (h1 : s ≤ m) (h2 : m ≤ e) :
    index_range pts s e = index_range pts s m ++ index_range pts (m + 1) e := by
  unfold index_range
  have h3 : e + 1 - s = (m + 1 - s) + (e + 1 - (m + 1)) := by omega
  have h4 : m + 1 = s + (m + 1 - s) := by omega
  rw [h3, List.take_add, List.drop_drop]
  congr 3
  omega

theorem index_range_all {β : Type} (pts : List β) (e : Nat) (h : e + 1 = pts.length) :
    index_range pts 0 e = pts := by
  unfold index_range
  simp [h]

theorem TreeNode.All.self {P : TreeNode α D → Prop} {n : TreeNode α D} (h : n.All P) : P n := by
  cases n with
  | leaf => exact h
  | node => exact h.1

theorem TreeNode.start_le_end {len : Nat} {n : TreeNode α D} (h : n.All (IndexInv len)) :
    n.start_idx_ ≤ n.end_idx_ ∧ n.end_idx_ < len := by
  induction n with
  | leaf b s e a => exact h
  | node b s e a l r ihl ihr =>
    obtain ⟨⟨h1, h2, h3⟩, hl, hr⟩ := h
    have := ihl hl
    have := ihr hr
    simp only [TreeNode.start_idx_, TreeNode.end_idx_]
    omega

theorem foldl_add_sum {β : Type} (f : β → α) (l : List β) (init : α) :
    l.foldl (fun total x => total + f x) init = init + (l.map f).sum := by
  induction l generalizing init with
  | nil => simp
  | cons x xs ih => simp [ih, add_assoc]

theorem direct_eval_eq_kernel_sum (kd : KernelDensity α D) (p : Point α D)
    (kernel : Kernel α D) :
    direct_eval kd p kernel = kernel_sum kernel p kd.data_tree_.points_ * kernel.normalization := by
  unfold direct_eval kernel_sum
  simp only [foldl_add_sum, zero_add]

theorem single_tree_base_fold (kernel : Kernel α D) (p : Point α D) (l : List (DataPoint α D))
    (upper lower : α) :
    l.foldl (fun (ul : α × α) datum =>
      (ul.1 + kernel.unnormalized_eval p datum.point datum.attributes.abw * datum.attributes.mass,
       ul.2 + kernel.unnormalized_eval p datum.point datum.attributes.abw * datum.attributes.mass))
      (upper, lower) = (upper + kernel_sum kernel p l, lower + kernel_sum kernel p l) := by
  induction l generalizing upper lower with
  | nil => simp [kernel_sum]
  | cons x xs ih =>
    simp only [List.foldl_cons, ih, kernel_sum, List.map_cons, List.sum_cons]
    rw [mul_comm (kernel.unnormalized_eval p x.point x.attributes.abw)]
    simp only [add_assoc]

theorem single_tree_base_eq (kd : KernelDensity α D) (D_node : TreeNode α D) (p : Point α D)
    (kernel : Kernel α D) (du dl upper lower : α) :
    single_tree_base kd D_node p kernel du dl upper lower =
      let S := kernel_sum kernel p
        (index_range kd.data_tree_.points_ D_node.start_idx_ D_node.end_idx_)
      if lower + S - D_node.attr_.mass * dl > upper + S - D_node.attr_.mass * du then
        (lower + S - D_node.attr_.mass * dl, lower + S - D_node.attr_.mass * dl)
      else (upper + S - D_node.attr_.mass * du, lower + S - D_node.attr_.mass * dl) := by
  unfold single_tree_base
  simp only [single_tree_base_fold]

theorem kernel_sum_append (kernel : Kernel α D) (q : Point α D) (l1 l2 : List (DataPoint α D)) :
    kernel_sum kernel q (l1 ++ l2) = kernel_sum kernel q l1 + kernel_sum kernel q l2 := by
  simp [kernel_sum]

/-- Bounds on the kernel sum of a list from per-point bounds on the kernel. -/
theorem kernel_sum_bounds (kernel : Kernel α D) (q : Point α D) (l : List (DataPoint α D))
    (lo hi : α) (hm : ∀ d ∈ l, 0 ≤ d.attributes.mass)
    (hb : ∀ d ∈ l, lo ≤ kernel.unnormalized_eval q d.point d.attributes.abw ∧
      kernel.unnormalized_eval q d.point d.attributes.abw ≤ hi) :
    (l.map fun d => d.attributes.mass).sum * lo ≤ kernel_sum kernel q l ∧
    kernel_sum kernel q l ≤ (l.map fun d => d.attributes.mass).sum * hi := by
  induction l with
  | nil => simp [kernel_sum]
  | cons x xs ih =>
    have hx := hb x (List.mem_cons_self _ _)
    have hmx := hm x (List.mem_cons_self _ _)
    have ih' := ih (fun d hd => hm d (List.mem_cons_of_mem _ hd))
      (fun d hd => hb d (List.mem_cons_of_mem _ hd))
    simp only [kernel_sum, List.map_cons, List.sum_cons] at ih' ⊢
    have h1 := mul_le_mul_of_nonneg_left hx.1 hmx
    have h2 := mul_le_mul_of_nonneg_left hx.2 hmx
    constructor <;> nlinarith [ih'.1, ih'.2]

theorem mass_sum_nonneg (l : List (DataPoint α D)) (hm : ∀ d ∈ l, 0 ≤ d.attributes.mass) :
    0 ≤ (l.map fun d => d.attributes.mass).sum :=
  List.sum_nonneg (by
    intro x hx
    obtain ⟨d, hd, rfl⟩ := List.mem_map.mp hx
    exact hm d hd)

theorem mem_of_mem_index_range {β : Type} {pts : List β} {s e : Nat} {x : β}
    (h : x ∈ index_range pts s e) : x ∈ pts :=
  List.mem_of_mem_drop (List.mem_of_mem_take h)

theorem Rectangle.contains_iff (r : Rectangle α D) (p : Point α D) :
    r.contains p = true ↔ ∀ i, (r i).lower ≤ p i ∧ p i ≤ (r i).upper := by
  unfold Rectangle.contains Interval.contains
  simp [List.all_eq_true]

theorem min_dist_value_nonneg (I : Interval α) (v : α) :
    0 ≤ (AxisDist.min_dist I v : α) := le_max_left _ _

theorem max_dist_value_nonneg (I : Interval α) (v : α) :
    0 ≤ (AxisDist.max_dist I v : α) := le_trans (abs_nonneg _) (le_max_left _ _)

theorem min_dist_value_le (I : Interval α) (v x : α) (h1 : I.lower ≤ x) (h2 : x ≤ I.upper) :
    (AxisDist.min_dist I v : α) ≤ |v - x| := by
  show max 0 (max (I.lower - v) (v - I.upper)) ≤ |v - x|
  refine max_le (abs_nonneg _) (max_le ?_ ?_)
  · rw [abs_sub_comm]; exact le_trans (by linarith) (le_abs_self _)
  · exact le_trans (by linarith) (le_abs_self _)

theorem le_max_dist_value (I : Interval α) (v x : α) (h1 : I.lower ≤ x) (h2 : x ≤ I.upper) :
    |v - x| ≤ (AxisDist.max_dist I v : α) := by
  show |v - x| ≤ max |v - I.lower| |v - I.upper|
  rcases le_total 0 (v - x) with h | h
  · rw [abs_of_nonneg h]
    exact le_trans (le_trans (by linarith) (le_abs_self (v - I.lower))) (le_max_left _ _)
  · rw [abs_of_nonpos h]
    exact le_trans (le_trans (by linarith) (neg_le_abs (v - I.upper))) (le_max_right _ _)

theorem min_dist_value_mono (I J : Interval α) (v : α) (h : J.Within I) :
    (AxisDist.min_dist I v : α) ≤ AxisDist.min_dist J v := by
  show max 0 (max (I.lower - v) (v - I.upper)) ≤ max 0 (max (J.lower - v) (v - J.upper))
  obtain ⟨h1, h2, h3⟩ := h
  refine max_le (le_max_left _ _) (max_le ?_ ?_)
  · exact le_trans (le_trans (by linarith) (le_max_left (J.lower - v) _)) (le_max_right _ _)
  · exact le_trans (le_trans (by linarith) (le_max_right _ (v - J.upper))) (le_max_right _ _)

theorem max_dist_value_mono (I J : Interval α) (v : α) (h : J.Within I) :
    (AxisDist.max_dist J v : α) ≤ AxisDist.max_dist I v := by
  obtain ⟨h1, h2, h3⟩ := h
  show max |v - J.lower| |v - J.upper| ≤ AxisDist.max_dist I v
  exact max_le (le_max_dist_value I v J.lower h1 (by linarith))
    (le_max_dist_value I v J.upper (by linarith) h3)

/-- The contribution estimates of a node bracket the kernel value of every
point of the node. -/
theorem estimate_contributions_valid (pts : List (DataPoint α D)) (n : TreeNode α D)
    (kernel : Kernel α D) (hk : KernelCapability kernel) (q : Point α D)
    (hbox : BoxInv pts n) (habw : AbwInv pts n)
    (d : DataPoint α D) (hd : d ∈ index_range pts n.start_idx_ n.end_idx_) :
    (estimate_contributions n q kernel).2 ≤
      kernel.unnormalized_eval q d.point d.attributes.abw ∧
    kernel.unnormalized_eval q d.point d.attributes.abw ≤
      (estimate_contributions n q kernel).1 := by
  have hc := (Rectangle.contains_iff _ _).mp (hbox d hd)
  obtain ⟨hpos, hb⟩ := habw
  have hb := hb d hd
  unfold estimate_contributions
  simp only [Rectangle.min_dist_axis, Rectangle.max_dist_axis]
  constructor
  · apply hk.mono _ _ _ _ _ _ _ hpos hb.1
    intro i
    rw [sub_zero, abs_of_nonneg (max_dist_value_nonneg (n.bbox_ i) (q i))]
    exact le_max_dist_value _ _ _ (hc i).1 (hc i).2
  · apply hk.mono _ _ _ _ _ _ _ (lt_of_lt_of_le hpos hb.1) hb.2
    intro i
    rw [sub_zero, abs_of_nonneg (min_dist_value_nonneg (n.bbox_ i) (q i))]
    exact min_dist_value_le _ _ _ (hc i).1 (hc i).2

/-- The contribution estimates of a child lie between those of its parent. -/
theorem estimate_contributions_nested (parent child : TreeNode α D)
    (kernel : Kernel α D) (hk : KernelCapability kernel) (q : Point α D)
    (hbox : ∀ i, (child.bbox_ i).Within (parent.bbox_ i))
    (hpos : 0 < parent.attr_.lower_abw)
    (hlo : parent.attr_.lower_abw ≤ child.attr_.lower_abw)
    (hcu : 0 < child.attr_.upper_abw)
    (hup : child.attr_.upper_abw ≤ parent.attr_.upper_abw) :
    (estimate_contributions parent q kernel).2 ≤ (estimate_contributions child q kernel).2 ∧
    (estimate_contributions child q kernel).1 ≤ (estimate_contributions parent q kernel).1 := by
  unfold estimate_contributions
  simp only [Rectangle.min_dist_axis, Rectangle.max_dist_axis]
  constructor
  · apply hk.mono _ _ _ _ _ _ _ hpos hlo
    intro i
    rw [sub_zero, sub_zero, abs_of_nonneg (max_dist_value_nonneg (child.bbox_ i) (q i)),
      abs_of_nonneg (max_dist_value_nonneg (parent.bbox_ i) (q i))]
    exact max_dist_value_mono _ _ _ (hbox i)
  · apply hk.mono _ _ _ _ _ _ _ hcu hup
    intro i
    rw [sub_zero, sub_zero, abs_of_nonneg (min_dist_value_nonneg (child.bbox_ i) (q i)),
      abs_of_nonneg (min_dist_value_nonneg (parent.bbox_ i) (q i))]
    exact min_dist_value_mono _ _ _ (hbox i)


theorem index_range_ne_nil {β : Type} (pts : List β) (s e : Nat) (h1 : s ≤ e)
    (h2 : e < pts.length) : ∃ x, x ∈ index_range pts s e := by
  unfold index_range
  have hlen : 0 < ((pts.drop s).take (e + 1 - s)).length := by
    simp only [List.length_take, List.length_drop]
    omega
  obtain ⟨x, hx⟩ := List.exists_mem_of_length_pos hlen
  exact ⟨x, hx⟩

theorem tighten_bounds_eq_of_le (D_node : TreeNode α D) (du_new dl_new du dl upper lower : α)
    (h : lower + D_node.attr_.mass * (dl_new - dl) ≤ upper + D_node.attr_.mass * (du_new - du)) :
    tighten_bounds D_node du_new dl_new du dl upper lower =
      (upper + D_node.attr_.mass * (du_new - du), lower + D_node.attr_.mass * (dl_new - dl)) := by
  unfold tighten_bounds
  simp only [gt_iff_lt, not_lt.mpr h, if_false]

theorem can_approximate_true_iff (kd : KernelDensity α D) (D_node : TreeNode α D)
    (du_new dl_new du dl upper lower rel_err abs_err : α) :
    can_approximate kd D_node du_new dl_new du dl upper lower rel_err abs_err = true ↔
      (|du_new| ≤ 2 * abs_err / (kd.data_tree_.points_.length : α) ∨
       |du_new - dl_new| ≤ 2 * abs_err / (kd.data_tree_.points_.length : α) ∨
       |(tighten_bounds D_node du_new dl_new du dl upper lower).1 -
          (tighten_bounds D_node du_new dl_new du dl upper lower).2| ≤ abs_err ∨
       |(tighten_bounds D_node du_new dl_new du dl upper lower).1 -
          (tighten_bounds D_node du_new dl_new du dl upper lower).2| ≤
         |(tighten_bounds D_node du_new dl_new du dl upper lower).2| * rel_err) := by
  unfold can_approximate Kdtree.size
  simp only []
  split_ifs with h1 h2 h3 <;> simp_all

/-- The prune step of `single_tree` establishes the outcome. -/
theorem SingleTreePost.of_prune (kd : KernelDensity α D) (n : TreeNode α D)
    (du_new dl_new du dl upper lower rel_err abs_err tol S : α)
    (htol : 2 * abs_err / (kd.data_tree_.points_.length : α) ≤ tol)
    (hm : 0 ≤ n.attr_.mass) (h0 : 0 ≤ dl_new) (h1 : dl ≤ dl_new) (h2 : dl_new ≤ du_new)
    (h3 : du_new ≤ du) (hS1 : n.attr_.mass * dl_new ≤ S) (hS2 : S ≤ n.attr_.mass * du_new)
    (hL : 0 ≤ lower) (hslack : lower - dl * n.attr_.mass ≤ upper - du * n.attr_.mass)
    (hc : can_approximate kd n du_new dl_new du dl upper lower rel_err abs_err = true) :
    SingleTreePost tol abs_err rel_err n.attr_.mass S upper lower du dl
      (tighten_bounds n du_new dl_new du dl upper lower) := by
  have hp1 := mul_nonneg hm (sub_nonneg.mpr h1)
  have hp2 := mul_nonneg hm (sub_nonneg.mpr h2)
  have hp3 := mul_nonneg hm (sub_nonneg.mpr h3)
  have hle : lower + n.attr_.mass * (dl_new - dl) ≤ upper + n.attr_.mass * (du_new - du) := by
    linarith
  have heq := tighten_bounds_eq_of_le n du_new dl_new du dl upper lower hle
  rw [can_approximate_true_iff, heq] at hc
  rw [heq]
  refine ⟨by simp only; linarith, by simp only; linarith, by simp only; linarith,
    by simp only; linarith, ?_⟩
  simp only at hc ⊢
  rcases hc with hc | hc | hc | hc
  · right
    have : du_new - dl_new ≤ tol := by
      have := le_abs_self du_new
      linarith
    have := mul_le_mul_of_nonneg_right this hm
    linarith
  · right
    have : du_new - dl_new ≤ tol := by
      have := le_abs_self (du_new - dl_new)
      linarith
    have := mul_le_mul_of_nonneg_right this hm
    linarith
  · left; left
    exact le_trans (le_abs_self _) hc
  · left; right
    have hnn : 0 ≤ lower + n.attr_.mass * (dl_new - dl) := by linarith
    rw [abs_of_nonneg hnn] at hc
    exact le_trans (le_abs_self _) hc

/-- The leaf step of `single_tree` establishes the outcome. -/
theorem SingleTreePost.of_base (kd : KernelDensity α D) (n : TreeNode α D) (p : Point α D)
    (kernel : Kernel α D) (du dl upper lower rel_err abs_err tol : α)
    (htol0 : 0 ≤ tol) (hm : 0 ≤ n.attr_.mass)
    (hS1 : n.attr_.mass * dl ≤
      kernel_sum kernel p (index_range kd.data_tree_.points_ n.start_idx_ n.end_idx_))
    (hS2 : kernel_sum kernel p (index_range kd.data_tree_.points_ n.start_idx_ n.end_idx_) ≤
      n.attr_.mass * du)
    (hslack : lower - dl * n.attr_.mass ≤ upper - du * n.attr_.mass) :
    SingleTreePost tol abs_err rel_err n.attr_.mass
      (kernel_sum kernel p (index_range kd.data_tree_.points_ n.start_idx_ n.end_idx_))
      upper lower du dl (single_tree_base kd n p kernel du dl upper lower) := by
  rw [single_tree_base_eq]
  simp only
  rw [if_neg (by rw [gt_iff_lt, not_lt]; linarith)]
  have := mul_nonneg htol0 hm
  refine ⟨by simp only; linarith, by simp only; linarith, by simp only; linarith,
    by simp only; linarith, Or.inr (by simp only; linarith)⟩

/-- The outcomes of the two recursive calls of `single_tree` on the children
give the outcome for their parent. -/
theorem SingleTreePost.of_children (tol abs_err rel_err m m1 m2 S S1 S2 U L du dl : α)
    (du_new dl_new : α) (r1 r2 : α × α)
    (hrel : 0 ≤ rel_err) (hm : m = m1 + m2) (hS : S = S1 + S2)
    (hm1 : 0 ≤ m1) (hm2 : 0 ≤ m2)
    (h1 : dl ≤ dl_new) (h3 : du_new ≤ du) (hL : 0 ≤ L)
    (p1 : SingleTreePost tol abs_err rel_err m1 S1 (U + m * (du_new - du))
      (L + m * (dl_new - dl)) du_new dl_new r1)
    (p2 : SingleTreePost tol abs_err rel_err m2 S2 r1.1 r1.2 du_new dl_new r2) :
    SingleTreePost tol abs_err rel_err m S U L du dl r2 := by
  obtain ⟨a1, a2, a3, a4, a5⟩ := p1
  obtain ⟨b1, b2, b3, b4, b5⟩ := p2
  subst hm hS
  have hp1 := mul_nonneg (add_nonneg hm1 hm2) (sub_nonneg.mpr h1)
  have hp3 := mul_nonneg (add_nonneg hm1 hm2) (sub_nonneg.mpr h3)
  refine ⟨by linarith, by linarith, by linarith, by linarith, ?_⟩
  rcases b5 with b5 | b5
  · exact Or.inl b5
  · rcases a5 with a5 | a5
    · left
      have hr1 : 0 ≤ r1.2 := by linarith
      rcases a5 with a5 | a5
      · left; linarith
      · right
        have := mul_le_mul_of_nonneg_right b3 hrel
        linarith
    · right; linarith

/-- What the node invariants give at one node for a query point `q`. -/
theorem node_facts (kd : KernelDensity α D) (kernel : Kernel α D)
    (hk : KernelCapability kernel) (q : Point α D)
    (hmn : ∀ p ∈ kd.data_tree_.points_, 0 ≤ p.attributes.mass)
    (n : TreeNode α D)
    (hidx : n.All (IndexInv kd.data_tree_.points_.length))
    (hmass : MassInv kd.data_tree_.points_ n)
    (hbox : BoxInv kd.data_tree_.points_ n)
    (habw : AbwInv kd.data_tree_.points_ n) :
    0 ≤ n.attr_.mass ∧ 0 < n.attr_.upper_abw ∧
    (estimate_contributions n q kernel).2 ≤ (estimate_contributions n q kernel).1 ∧
    n.attr_.mass * (estimate_contributions n q kernel).2 ≤
      kernel_sum kernel q (index_range kd.data_tree_.points_ n.start_idx_ n.end_idx_) ∧
    kernel_sum kernel q (index_range kd.data_tree_.points_ n.start_idx_ n.end_idx_) ≤
      n.attr_.mass * (estimate_contributions n q kernel).1 := by
  have hrm : ∀ d ∈ index_range kd.data_tree_.points_ n.start_idx_ n.end_idx_,
      0 ≤ d.attributes.mass := fun d hd => hmn d (mem_of_mem_index_range hd)
  have hv := estimate_contributions_valid kd.data_tree_.points_ n kernel hk q hbox habw
  obtain ⟨hse, hel⟩ := TreeNode.start_le_end hidx
  obtain ⟨d, hd⟩ := index_range_ne_nil kd.data_tree_.points_ _ _ hse hel
  have hb := kernel_sum_bounds kernel q _ _ _ hrm hv
  rw [← hmass] at hb
  refine ⟨?_, ?_, le_trans (hv d hd).1 (hv d hd).2, hb.1, hb.2⟩
  · rw [hmass]; exact mass_sum_nonneg _ hrm
  · exact lt_of_lt_of_le habw.1 (le_trans (habw.2 d hd).1 (habw.2 d hd).2)

theorem single_tree_post (kd : KernelDensity α D) (kernel : Kernel α D)
    (hk : KernelCapability kernel) (q : Point α D) (rel_err abs_err tol : α)
    (hrel : 0 ≤ rel_err) (htol0 : 0 ≤ tol)
    (htol : 2 * abs_err / (kd.data_tree_.points_.length : α) ≤ tol)
    (hmn : ∀ p ∈ kd.data_tree_.points_, 0 ≤ p.attributes.mass)
    (n : TreeNode α D)
    (hidx : n.All (IndexInv kd.data_tree_.points_.length))
    (hmass : n.All (MassInv kd.data_tree_.points_))
    (hbox : n.All (BoxInv kd.data_tree_.points_))
    (habw : n.All (AbwInv kd.data_tree_.points_))
    (hbn : n.All BoxNested) (han : n.All AbwNested)
    (upper lower du dl : α)
    (hvalid : ∀ d ∈ index_range kd.data_tree_.points_ n.start_idx_ n.end_idx_,
      dl ≤ kernel.unnormalized_eval q d.point d.attributes.abw ∧
      kernel.unnormalized_eval q d.point d.attributes.abw ≤ du)
    (hnest : dl ≤ (estimate_contributions n q kernel).2 ∧
      (estimate_contributions n q kernel).1 ≤ du)
    (hL : 0 ≤ lower)
    (hslack : lower - dl * n.attr_.mass ≤ upper - du * n.attr_.mass) :
    SingleTreePost tol abs_err rel_err n.attr_.mass
      (kernel_sum kernel q (index_range kd.data_tree_.points_ n.start_idx_ n.end_idx_))
      upper lower du dl
      (single_tree kd n q kernel upper lower du dl rel_err abs_err) := by
  induction n generalizing upper lower du dl with
  | leaf b s e a =>
    obtain ⟨hm, -, h2, hS1, hS2⟩ :=
      node_facts kd kernel hk q hmn _ hidx hmass.self hbox.self habw.self
    have hrm : ∀ d ∈ index_range kd.data_tree_.points_ (TreeNode.leaf b s e a).start_idx_
        (TreeNode.leaf b s e a).end_idx_, 0 ≤ d.attributes.mass :=
      fun d hd => hmn d (mem_of_mem_index_range hd)
    have hb := kernel_sum_bounds kernel q _ _ _ hrm hvalid
    rw [← hmass.self] at hb
    rw [single_tree]
    split_ifs with hc
    · exact SingleTreePost.of_prune kd _ _ _ _ _ _ _ _ _ _ _ htol hm (hk.nonneg _ _ _)
        hnest.1 h2 hnest.2 hS1 hS2 hL hslack hc
    · exact SingleTreePost.of_base kd _ q kernel _ _ _ _ _ _ _ htol0 hm hb.1 hb.2 hslack
  | node b s e a l r ihl ihr =>
    obtain ⟨hm, -, h2, hS1, hS2⟩ :=
      node_facts kd kernel hk q hmn _ hidx hmass.self hbox.self habw.self
    rw [single_tree]
    split_ifs with hc
    · exact SingleTreePost.of_prune kd _ _ _ _ _ _ _ _ _ _ _ htol hm (hk.nonneg _ _ _)
        hnest.1 h2 hnest.2 hS1 hS2 hL hslack hc
    · obtain ⟨⟨hi1, hi2, hi3⟩, hidl, hidr⟩ := hidx
      obtain ⟨hmp, hml, hmr⟩ := hmass
      obtain ⟨hbp, hbl, hbr⟩ := hbox
      obtain ⟨hap, hal, har⟩ := habw
      obtain ⟨⟨hbnl, hbnr⟩, hbnl', hbnr'⟩ := hbn
      obtain ⟨⟨hanl1, hanl2, hanr1, hanr2⟩, hanl', hanr'⟩ := han
      obtain ⟨hlse, hlel⟩ := TreeNode.start_le_end hidl
      obtain ⟨hrse, hrel'⟩ := TreeNode.start_le_end hidr
      have hsplit : index_range kd.data_tree_.points_ s e =
          index_range kd.data_tree_.points_ l.start_idx_ l.end_idx_ ++
          index_range kd.data_tree_.points_ r.start_idx_ r.end_idx_ := by
        rw [← hi1, ← hi3, ← hi2]
        exact index_range_split _ _ _ _ hlse (by omega)
      obtain ⟨hm1, hlu, -, -, -⟩ :=
        node_facts kd kernel hk q hmn l hidl hml.self hbl.self hal.self
      obtain ⟨hm2, hru, -, -, -⟩ :=
        node_facts kd kernel hk q hmn r hidr hmr.self hbr.self har.self
      have hv := estimate_contributions_valid kd.data_tree_.points_ _ kernel hk q hbp hap
      simp only [TreeNode.start_idx_, TreeNode.end_idx_] at hv hvalid hS1 hS2 ⊢
      have hmeq : (TreeNode.node b s e a l r).attr_.mass = l.attr_.mass + r.attr_.mass := by
        have h := hmp
        unfold MassInv at h
        simp only [TreeNode.start_idx_, TreeNode.end_idx_] at h
        rw [h, hsplit, List.map_append, List.sum_append, ← hml.self, ← hmr.self]
      have hSeq := kernel_sum_append kernel q
        (index_range kd.data_tree_.points_ l.start_idx_ l.end_idx_)
        (index_range kd.data_tree_.points_ r.start_idx_ r.end_idx_)
      rw [← hsplit] at hSeq
      have hvl : ∀ d ∈ index_range kd.data_tree_.points_ l.start_idx_ l.end_idx_,
          (estimate_contributions (TreeNode.node b s e a l r) q kernel).2 ≤
            kernel.unnormalized_eval q d.point d.attributes.abw ∧
          kernel.unnormalized_eval q d.point d.attributes.abw ≤
            (estimate_contributions (TreeNode.node b s e a l r) q kernel).1 :=
        fun d hd => hv d (by rw [hsplit]; exact List.mem_append_left _ hd)
      have hvr : ∀ d ∈ index_range kd.data_tree_.points_ r.start_idx_ r.end_idx_,
          (estimate_contributions (TreeNode.node b s e a l r) q kernel).2 ≤
            kernel.unnormalized_eval q d.point d.attributes.abw ∧
          kernel.unnormalized_eval q d.point d.attributes.abw ≤
            (estimate_contributions (TreeNode.node b s e a l r) q kernel).1 :=
        fun d hd => hv d (by rw [hsplit]; exact List.mem_append_right _ hd)
      have hnl := estimate_contributions_nested (TreeNode.node b s e a l r) l kernel hk q
        hbnl hap.1 hanl1 hlu hanl2
      have hnr := estimate_contributions_nested (TreeNode.node b s e a l r) r kernel hk q
        hbnr hap.1 hanr1 hru hanr2
      have hp1 := mul_nonneg hm (sub_nonneg.mpr hnest.1)
      have hp2 := mul_nonneg hm (sub_nonneg.mpr h2)
      have hp3 := mul_nonneg hm (sub_nonneg.mpr hnest.2)
      have hq1 := mul_nonneg hm1 (sub_nonneg.mpr h2)
      have hq2 := mul_nonneg hm2 (sub_nonneg.mpr h2)
      have hle : lower + (TreeNode.node b s e a l r).attr_.mass *
            ((estimate_contributions (TreeNode.node b s e a l r) q kernel).2 - dl) ≤
          upper + (TreeNode.node b s e a l r).attr_.mass *
            ((estimate_contributions (TreeNode.node b s e a l r) q kernel).1 - du) := by
        linarith
      rw [tighten_bounds_eq_of_le _ _ _ _ _ _ _ hle]
      dsimp only
      unfold apply_closer_heuristic
      split_ifs with hcl
      · have p1 := ihr hidr hmr hbr har hbnr' hanr'
          (upper + (TreeNode.node b s e a l r).attr_.mass *
            ((estimate_contributions (TreeNode.node b s e a l r) q kernel).1 - du))
          (lower + (TreeNode.node b s e a l r).attr_.mass *
            ((estimate_contributions (TreeNode.node b s e a l r) q kernel).2 - dl)) _ _ hvr hnr
          (by linarith) (by rw [hmeq] at hslack hp2 ⊢; linarith)
        generalize single_tree kd r q kernel _ _ _ _ rel_err abs_err = r1 at p1 ⊢
        have p2 := ihl hidl hml hbl hal hbnl' hanl' r1.1 r1.2 _ _ hvl hnl
          (le_trans (by linarith) p1.lower_mono)
          (by
            have a1 := p1.lower_le
            have a2 := p1.le_upper
            rw [hmeq] at hslack a1 a2
            linarith)
        exact SingleTreePost.of_children tol abs_err rel_err _ _ _ _ _ _ upper lower du dl _ _ _ _
          hrel (by rw [hmeq, add_comm]) (by rw [hSeq, add_comm]) hm2 hm1 hnest.1 hnest.2 hL p1 p2
      · have p1 := ihl hidl hml hbl hal hbnl' hanl'
          (upper + (TreeNode.node b s e a l r).attr_.mass *
            ((estimate_contributions (TreeNode.node b s e a l r) q kernel).1 - du))
          (lower + (TreeNode.node b s e a l r).attr_.mass *
            ((estimate_contributions (TreeNode.node b s e a l r) q kernel).2 - dl)) _ _ hvl hnl
          (by linarith) (by rw [hmeq] at hslack hp2 ⊢; linarith)
        generalize single_tree kd l q kernel _ _ _ _ rel_err abs_err = r1 at p1 ⊢
        have p2 := ihr hidr hmr hbr har hbnr' hanr' r1.1 r1.2 _ _ hvr hnr
          (le_trans (by linarith) p1.lower_mono)
          (by
            have a1 := p1.lower_le
            have a2 := p1.le_upper
            rw [hmeq] at hslack a1 a2
            linarith)
        exact SingleTreePost.of_children tol abs_err rel_err _ _ _ _ _ _ upper lower du dl _ _ _ _
          hrel hmeq hSeq hm1 hm2 hnest.1 hnest.2 hL p1 p2

/-- From bounds `lo ≤ T ≤ hi` whose gap meets one of the three stopping
criteria, the normalised midpoint is within the tolerances of the normalised
exact value. -/
theorem midpoint_error (c lo hi T abs_err rel_err tol M N : α)
    (habs : 0 ≤ abs_err) (hrel : 0 ≤ rel_err) (hlo : 0 ≤ lo) (h1 : lo ≤ T) (h2 : T ≤ hi)
    (hN : 0 < N) (hMN : M ≤ N)
    (htol : tol = max (2 * (abs_err / c) / N) 0)
    (hacc : (hi - lo ≤ abs_err / c ∨ hi - lo ≤ lo * rel_err) ∨ hi - lo ≤ tol * M) :
    |c * (lo + (hi - lo) / 2) - T * c| ≤ max abs_err (rel_err * |T * c|) := by
  have hG : 0 ≤ hi - lo := by linarith
  have hmid : |lo + (hi - lo) / 2 - T| ≤ (hi - lo) / 2 := by
    rw [abs_le]; constructor <;> linarith
  have hT : 0 ≤ T := le_trans hlo h1
  have heq : c * (lo + (hi - lo) / 2) - T * c = c * (lo + (hi - lo) / 2 - T) := by ring
  rw [heq, abs_mul, abs_mul, abs_of_nonneg hT]
  have hc0 : 0 ≤ |c| := abs_nonneg c
  have hstep : |c| * |lo + (hi - lo) / 2 - T| ≤ |c| * ((hi - lo) / 2) :=
    mul_le_mul_of_nonneg_left hmid hc0
  have hrelcase : hi - lo ≤ lo * rel_err →
      |c| * ((hi - lo) / 2) ≤ rel_err * (T * |c|) := by
    intro h
    have e1 : lo * rel_err ≤ T * rel_err := mul_le_mul_of_nonneg_right h1 hrel
    have e2 : (hi - lo) / 2 ≤ T * rel_err := by
      have : 0 ≤ T * rel_err := mul_nonneg hT hrel
      linarith
    calc |c| * ((hi - lo) / 2) ≤ |c| * (T * rel_err) := mul_le_mul_of_nonneg_left e2 hc0
      _ = rel_err * (T * |c|) := by ring
  rcases lt_trichotomy c 0 with hc | hc | hc
  · -- negative normalisation: only exact or relative stops are possible
    have habs' : abs_err / c ≤ 0 := div_nonpos_of_nonneg_of_nonpos habs (le_of_lt hc)
    have htol' : tol = 0 := by
      rw [htol]
      apply max_eq_right
      exact div_nonpos_of_nonpos_of_nonneg (by linarith) (le_of_lt hN)
    rcases hacc with (h | h) | h
    · have hz : hi - lo = 0 := le_antisymm (le_trans h habs') hG
      have hz' : |c| * ((hi - lo) / 2) = 0 := by rw [hz]; simp
      rw [hz'] at hstep
      exact le_trans hstep (le_max_of_le_left habs)
    · exact le_trans hstep (le_max_of_le_right (hrelcase h))
    · rw [htol', zero_mul] at h
      have hz : hi - lo = 0 := le_antisymm h hG
      have hz' : |c| * ((hi - lo) / 2) = 0 := by rw [hz]; simp
      rw [hz'] at hstep
      exact le_trans hstep (le_max_of_le_left habs)
  · subst hc
    simp only [abs_zero, zero_mul, mul_zero]
    exact le_max_of_le_left habs
  · rw [abs_of_pos hc] at hstep hrelcase ⊢
    have habs' : 0 ≤ abs_err / c := div_nonneg habs (le_of_lt hc)
    have hca : c * (abs_err / c) = abs_err := by field_simp
    rcases hacc with (h | h) | h
    · refine le_trans hstep (le_max_of_le_left ?_)
      have := mul_le_mul_of_nonneg_left h (le_of_lt hc)
      rw [hca] at this
      linarith
    · exact le_trans hstep (le_max_of_le_right (hrelcase h))
    · refine le_trans hstep (le_max_of_le_left ?_)
      have htol' : tol = 2 * (abs_err / c) / N := by
        rw [htol]
        exact max_eq_left (div_nonneg (by linarith) (le_of_lt hN))
      have ht0 : 0 ≤ tol := by rw [htol']; exact div_nonneg (by linarith) (le_of_lt hN)
      have e1 : tol * M ≤ tol * N := mul_le_mul_of_nonneg_left hMN ht0
      have e2 : tol * N = 2 * (abs_err / c) := by
        rw [htol']
        exact div_mul_cancel₀ _ (ne_of_gt hN)
      have e3 : hi - lo ≤ 2 * (abs_err / c) := by linarith
      have := mul_le_mul_of_nonneg_left e3 (le_of_lt hc)
      have e4 : c * (2 * (abs_err / c)) = 2 * abs_err := by
        rw [mul_left_comm, hca]
      rw [e4] at this
      linarith

/-- Error guarantee of the single-tree evaluation when the total mass does not
exceed the number of reference points. -/
theorem eval_error_of_mass_le (kd : KernelDensity α D) (hv : kd.Valid) (kernel : Kernel α D)
    (hk : KernelCapability kernel)
    (hM : kd.data_tree_.root_.attr_.mass ≤ (kd.data_tree_.points_.length : α))
    (q : Point α D) (rel_err abs_err : α) (hrel : 0 ≤ rel_err) (habs : 0 ≤ abs_err) :
    |eval kd q kernel rel_err abs_err - direct_eval kd q kernel| ≤
      max abs_err (rel_err * |direct_eval kd q kernel|) := by
  have hrange := index_range_all kd.data_tree_.points_ _ hv.indexed.root_end
  rw [← hv.indexed.root_start] at hrange
  have hpost := single_tree_post kd kernel hk q rel_err (abs_err / kernel.normalization)
    (max (2 * (abs_err / kernel.normalization) / (kd.data_tree_.points_.length : α)) 0)
    hrel (le_max_right _ _) (le_max_left _ _) hv.mass_nonneg kd.data_tree_.root_
    hv.indexed.index hv.mass hv.box hv.abw hv.box_nested hv.abw_nested
    kd.data_tree_.root_.attr_.mass 0 1 0
    (fun d _ => ⟨hk.nonneg _ _ _, hk.le_one _ _ _⟩)
    ⟨hk.nonneg _ _ _, hk.le_one _ _ _⟩ (le_refl _) (by simp)
  rw [hrange] at hpost
  obtain ⟨a1, a2, a3, a4, a5⟩ := hpost
  have hN : (0 : α) < (kd.data_tree_.points_.length : α) := by
    have := hv.indexed.root_end
    exact_mod_cast (by omega : 0 < kd.data_tree_.points_.length)
  rw [direct_eval_eq_kernel_sum]
  unfold eval
  simp only
  apply midpoint_error kernel.normalization _ _ _ abs_err rel_err _
    kd.data_tree_.root_.attr_.mass (kd.data_tree_.points_.length : α) habs hrel a3
    (by linarith) (by linarith) hN hM rfl
  rcases a5 with a5 | a5
  · exact Or.inl a5
  · right; linarith

theorem min_dist_value_point (x v : α) :
    (AxisDist.min_dist ({ lower := x, upper := x } : Interval α) v : α) = |v - x| := by
  show max 0 (max (x - v) (v - x)) = |v - x|
  rw [max_comm (x - v), ← neg_sub v x]
  exact max_eq_right (abs_nonneg (v - x))

theorem max_dist_value_point (x v : α) :
    (AxisDist.max_dist ({ lower := x, upper := x } : Interval α) v : α) = |v - x| := by
  show max |v - x| |v - x| = |v - x|
  exact max_self _

/-- At a node whose box is the single point `x` and whose bandwidth range is the
single value `abw`, both contribution estimates are the kernel value at `x`. -/
theorem estimate_contributions_point (kernel : Kernel α D)
    (n : TreeNode α D) (x q : Point α D) (abw : α)
    (hk : ∀ p q p' q', (∀ i, |p i - q i| = |p' i - q' i|) →
      kernel.unnormalized_eval p q abw = kernel.unnormalized_eval p' q' abw)
    (hb : ∀ i, n.bbox_ i = { lower := x i, upper := x i })
    (hl : n.attr_.lower_abw = abw) (hu : n.attr_.upper_abw = abw) :
    estimate_contributions n q kernel =
      (kernel.unnormalized_eval q x abw, kernel.unnormalized_eval q x abw) := by
  unfold estimate_contributions
  simp only [Rectangle.min_dist_axis, Rectangle.max_dist_axis, hb, hl, hu,
    min_dist_value_point, max_dist_value_point]
  have h : kernel.unnormalized_eval (fun i => |q i - x i|) (fun _ => 0) abw =
      kernel.unnormalized_eval q x abw := by
    apply hk
    intro i
    simp
  rw [h]

/-- When the two contribution estimates coincide and the inherited proportions
are `(1, 0)`, tightening `(mass, 0)` gives the exact value twice. -/
theorem tighten_bounds_exact (n : TreeNode α D) (k : α) :
    tighten_bounds n k k 1 0 n.attr_.mass 0 = (n.attr_.mass * k, n.attr_.mass * k) := by
  unfold tighten_bounds
  have h : (0 : α) + n.attr_.mass * (k - 0) = n.attr_.mass + n.attr_.mass * (k - 1) := by ring
  simp only [gt_iff_lt, h, lt_irrefl, if_false]
  congr 1 <;> ring

theorem can_approximate_exact (kd : KernelDensity α D) (n : TreeNode α D) (k rel_err abs_err : α)
    (hrel : 0 ≤ rel_err) :
    can_approximate kd n k k 1 0 n.attr_.mass 0 rel_err abs_err = true := by
  rw [can_approximate_true_iff, tighten_bounds_exact]
  right; right; right
  simp only [sub_self, abs_zero]
  exact mul_nonneg (abs_nonneg _) hrel

theorem kernel_sum_const (kernel : Kernel α D) (q x : Point α D) (abw : α)
    (l : List (DataPoint α D))
    (h : ∀ p ∈ l, p.point = x ∧ p.attributes.abw = abw) :
    kernel_sum kernel q l =
      (l.map fun p => p.attributes.mass).sum * kernel.unnormalized_eval q x abw := by
  induction l with
  | nil => simp [kernel_sum]
  | cons y ys ih =>
    have hy := h y (List.mem_cons_self _ _)
    have ih' := ih (fun p hp => h p (List.mem_cons_of_mem _ hp))
    simp only [kernel_sum, List.map_cons, List.sum_cons] at ih' ⊢
    rw [ih', hy.1, hy.2]
    ring

theorem single_tree_of_can_approximate (kd : KernelDensity α D) (n : TreeNode α D)
    (p : Point α D) (kernel : Kernel α D) (upper lower du dl rel_err abs_err : α)
    (h : can_approximate kd n (estimate_contributions n p kernel).1
      (estimate_contributions n p kernel).2 du dl upper lower rel_err abs_err = true) :
    single_tree kd n p kernel upper lower du dl rel_err abs_err =
      tighten_bounds n (estimate_contributions n p kernel).1
        (estimate_contributions n p kernel).2 du dl upper lower := by
  cases n <;> rw [single_tree] <;> simp only [h, if_true]

theorem KernelCapability.abs_diff_only {kernel : Kernel α D} (hk : KernelCapability kernel)
    (a : α) (ha : 0 < a) (p q p' q' : Point α D) (h : ∀ i, |p i - q i| = |p' i - q' i|) :
    kernel.unnormalized_eval p q a = kernel.unnormalized_eval p' q' a :=
  le_antisymm (hk.mono _ _ _ _ a a (fun i => le_of_eq (h i).symm) ha (le_refl _))
    (hk.mono _ _ _ _ a a (fun i => le_of_eq (h i)) ha (le_refl _))

theorem SameShape.refl (n : TreeNode α D) : SameShape n n := by
  induction n with
  | leaf b s e a => exact ⟨rfl, rfl, rfl⟩
  | node b s e a l r ihl ihr => exact ⟨rfl, rfl, rfl, ihl, ihr⟩

theorem SameShape.trans {a b c : TreeNode α D} (h1 : SameShape a b) (h2 : SameShape b c) :
    SameShape a c := by
  induction a generalizing b c with
  | leaf ba sa ea aa =>
    cases b with
    | leaf bb sb eb ab =>
      cases c with
      | leaf bc sc ec ac =>
        obtain ⟨x1, x2, x3⟩ := h1
        obtain ⟨y1, y2, y3⟩ := h2
        exact ⟨x1.trans y1, x2.trans y2, x3.trans y3⟩
      | node => exact h2.elim
    | node => exact h1.elim
  | node ba sa ea aa la ra ihl ihr =>
    cases b with
    | leaf => exact h1.elim
    | node bb sb eb ab lb rb =>
      cases c with
      | leaf => exact h2.elim
      | node bc sc ec ac lc rc =>
        obtain ⟨x1, x2, x3, x4, x5⟩ := h1
        obtain ⟨y1, y2, y3, y4, y5⟩ := h2
        exact ⟨x1.trans y1, x2.trans y2, x3.trans y3, ihl x4 y4, ihr x5 y5⟩

theorem SameShape.set_attr (a : Attributes α) (n : TreeNode α D) :
    SameShape (n.set_attr a) n := by
  cases n with
  | leaf b s e a' => exact ⟨rfl, rfl, rfl⟩
  | node b s e a' l r => exact ⟨rfl, rfl, rfl, SameShape.refl l, SameShape.refl r⟩

theorem SameShape.facts {a b : TreeNode α D} (h : SameShape a b) :
    a.size = b.size ∧ a.start_idx_ = b.start_idx_ ∧ a.end_idx_ = b.end_idx_ ∧
    a.bbox_ = b.bbox_ := by
  induction a generalizing b with
  | leaf ba sa ea aa =>
    cases b with
    | leaf bb sb eb ab =>
      obtain ⟨x1, x2, x3⟩ := h
      exact ⟨rfl, x2, x3, x1⟩
    | node => exact h.elim
  | node ba sa ea aa la ra ihl ihr =>
    cases b with
    | leaf => exact h.elim
    | node bb sb eb ab lb rb =>
      obtain ⟨x1, x2, x3, x4, x5⟩ := h
      refine ⟨?_, x2, x3, x1⟩
      simp only [TreeNode.size, (ihl x4).1, (ihr x5).1]

theorem SameShape.index {len : Nat} {a b : TreeNode α D} (h : SameShape a b)
    (ha : a.All (IndexInv len)) : b.All (IndexInv len) := by
  induction a generalizing b with
  | leaf ba sa ea aa =>
    cases b with
    | leaf bb sb eb ab =>
      obtain ⟨x1, x2, x3⟩ := h
      subst x2 x3
      exact ha
    | node => exact h.elim
  | node ba sa ea aa la ra ihl ihr =>
    cases b with
    | leaf => exact h.elim
    | node bb sb eb ab lb rb =>
      obtain ⟨x1, x2, x3, x4, x5⟩ := h
      obtain ⟨⟨h1, h2, h3⟩, hl, hr⟩ := ha
      subst x2 x3
      refine ⟨⟨?_, ?_, ?_⟩, ihl x4 hl, ihr x5 hr⟩
      · rw [← x4.facts.2.1]; exact h1
      · rw [← x4.facts.2.2.1, ← x5.facts.2.1]; exact h2
      · rw [← x5.facts.2.2.1]; exact h3

theorem map_index_range_length {β : Type} (f : β → β) (s e : Nat) (l : List β) :
    (map_index_range f s e l).length = l.length := by
  induction l generalizing s e with
  | nil => cases s <;> cases e <;> simp [map_index_range]
  | cons x xs ih =>
    cases s <;> cases e <;> simp [map_index_range, ih]

theorem map_index_range_getElem? {β : Type} (f : β → β) (s e : Nat) (l : List β) (i : Nat) :
    (map_index_range f s e l)[i]? = if s ≤ i ∧ i ≤ e then l[i]?.map f else l[i]? := by
  induction l generalizing s e i with
  | nil => cases s <;> cases e <;> simp [map_index_range]
  | cons x xs ih =>
    cases s with
    | zero =>
      cases e with
      | zero =>
        cases i with
        | zero => simp [map_index_range]
        | succ j => simp [map_index_range]
      | succ e' =>
        cases i with
        | zero => simp [map_index_range]
        | succ j => simp [map_index_range, ih]
    | succ s' =>
      cases e with
      | zero =>
        cases i with
        | zero => simp [map_index_range]
        | succ j => simp [map_index_range]
      | succ e' =>
        cases i with
        | zero => simp [map_index_range]
        | succ j => simp [map_index_range, ih]

theorem UpdatedOn.map_index_range {β : Type} (f : β → β) (s e : Nat) (l : List β)
    (P : β → Prop) (R : β → β → Prop) (hP : HoldsOn s e P l) (hR : ∀ q, P q → R q (f q)) :
    UpdatedOn s e R l (bbrcit.map_index_range f s e l) := by
  refine ⟨map_index_range_length f s e l, ?_⟩
  intro i q q' hq hq'
  rw [map_index_range_getElem?] at hq'
  constructor
  · intro hi
    rw [if_pos hi, hq] at hq'
    simp only [Option.map_some', Option.some.injEq] at hq'
    rw [← hq']
    exact hR q (hP i q hi.1 hi.2 hq)
  · intro hi
    rw [if_neg hi, hq] at hq'
    exact (Option.some.inj hq').symm

theorem index_range_getElem? {β : Type} (l : List β) (s e i : Nat) :
    (index_range l s e)[i]? = if i < e + 1 - s then l[s + i]? else none := by
  unfold index_range
  rw [List.getElem?_take]
  split_ifs with h
  · rw [List.getElem?_drop]
  · rfl

theorem mem_index_range_iff {β : Type} (l : List β) (s e : Nat) (x : β) :
    x ∈ index_range l s e ↔ ∃ i, s ≤ i ∧ i ≤ e ∧ l[i]? = some x := by
  rw [List.mem_iff_getElem?]
  constructor
  · rintro ⟨j, hj⟩
    rw [index_range_getElem?] at hj
    split_ifs at hj with h
    exact ⟨s + j, by omega, by omega, hj⟩
  · rintro ⟨i, h1, h2, h3⟩
    refine ⟨i - s, ?_⟩
    rw [index_range_getElem?, if_pos (by omega)]
    rw [← h3]
    congr 1
    omega


theorem TreeNode.size_pos (n : TreeNode α D) : 0 < n.size := by
  cases n <;> simp [TreeNode.size]

theorem UpdatedOn.getElem?_some {β : Type} {s e : Nat} {R : β → β → Prop} {l l' : List β}
    (h : UpdatedOn s e R l l') {i : Nat} {q' : β} (hq' : l'[i]? = some q') :
    ∃ q, l[i]? = some q := by
  have hi : i < l'.length := by
    by_contra hcon
    rw [List.getElem?_eq_none (not_lt.mp hcon)] at hq'
    exact Option.noConfusion hq'
  rw [h.1] at hi
  exact ⟨l[i], List.getElem?_eq_getElem hi⟩

theorem UpdatedOn.getElem?_some' {β : Type} {s e : Nat} {R : β → β → Prop} {l l' : List β}
    (h : UpdatedOn s e R l l') {i : Nat} {q : β} (hq : l[i]? = some q) :
    ∃ q', l'[i]? = some q' := by
  have hi : i < l.length := by
    by_contra hcon
    rw [List.getElem?_eq_none (not_lt.mp hcon)] at hq
    exact Option.noConfusion hq
  rw [← h.1] at hi
  exact ⟨l'[i], List.getElem?_eq_getElem hi⟩

/-- Two successive updates of the same range compose. -/
theorem UpdatedOn.comp {β : Type} {s e : Nat} {R1 R2 R3 : β → β → Prop} {l l' l'' : List β}
    (h1 : UpdatedOn s e R1 l l') (h2 : UpdatedOn s e R2 l' l'')
    (h : ∀ q q' q'', R1 q q' → R2 q' q'' → R3 q q'') : UpdatedOn s e R3 l l'' := by
  refine ⟨h2.1.trans h1.1, ?_⟩
  intro i q q'' hq hq''
  obtain ⟨q', hq'⟩ := h1.getElem?_some' hq
  constructor
  · intro hi
    exact h q q' q'' ((h1.2 i q q' hq hq').1 hi) ((h2.2 i q' q'' hq' hq'').1 hi)
  · intro hi
    rw [(h2.2 i q' q'' hq' hq'').2 hi, (h1.2 i q q' hq hq').2 hi]

/-- Updates of two adjacent ranges give an update of their union. -/
theorem UpdatedOn.union {β : Type} {s m e : Nat} {R : β → β → Prop} {l l' l'' : List β}
    (h1 : UpdatedOn s m R l l') (h2 : UpdatedOn (m + 1) e R l' l'')
    (hsm : s ≤ m) (hme : m ≤ e) : UpdatedOn s e R l l'' := by
  refine ⟨h2.1.trans h1.1, ?_⟩
  intro i q q'' hq hq''
  obtain ⟨q', hq'⟩ := h1.getElem?_some' hq
  have a := h1.2 i q q' hq hq'
  have b := h2.2 i q' q'' hq' hq''
  constructor
  · intro hi
    by_cases him : i ≤ m
    · rw [b.2 (by omega)]
      exact a.1 ⟨hi.1, him⟩
    · have := a.2 (by omega)
      rw [this] at b
      exact b.1 ⟨by omega, hi.2⟩
  · intro hi
    rw [b.2 (by omega), a.2 (by omega)]

/-- A property of the entries of a range survives an update of a disjoint range. -/
theorem HoldsOn.of_disjoint {β : Type} {s e s' e' : Nat} {P : β → Prop} {R : β → β → Prop}
    {l l' : List β} (hP : HoldsOn s e P l) (h : UpdatedOn s' e' R l l')
    (hd : e' < s ∨ e < s') : HoldsOn s e P l' := by
  intro i q' h1 h2 hq'
  obtain ⟨q, hq⟩ := h.getElem?_some hq'
  rw [(h.2 i q q' hq hq').2 (by omega)]
  exact hP i q h1 h2 hq

/-- A property of the entries of a range after an update of that range. -/
theorem HoldsOn.of_updated {β : Type} {s e : Nat} {P P' : β → Prop} {R : β → β → Prop}
    {l l' : List β} (hP : HoldsOn s e P l) (h : UpdatedOn s e R l l')
    (hR : ∀ q q', P q → R q q' → P' q') : HoldsOn s e P' l' := by
  intro i q' h1 h2 hq'
  obtain ⟨q, hq⟩ := h.getElem?_some hq'
  exact hR q q' (hP i q h1 h2 hq) ((h.2 i q q' hq hq').1 ⟨h1, h2⟩)

/-- A property that every update step preserves survives an update, on any range. -/
theorem HoldsOn.of_preserved {β : Type} {s e s' e' : Nat} {P : β → Prop} {R : β → β → Prop}
    {l l' : List β} (hP : HoldsOn s e P l) (h : UpdatedOn s' e' R l l')
    (hR : ∀ q q', R q q' → P q → P q') : HoldsOn s e P l' := by
  intro i q' h1 h2 hq'
  obtain ⟨q, hq⟩ := h.getElem?_some hq'
  by_cases hi : s' ≤ i ∧ i ≤ e'
  · exact hR q q' ((h.2 i q q' hq hq').1 hi) (hP i q h1 h2 hq)
  · rw [(h.2 i q q' hq hq').2 hi]
    exact hP i q h1 h2 hq

theorem HoldsOn.subrange {β : Type} {s e s' e' : Nat} {P : β → Prop} {l : List β}
    (hP : HoldsOn s e P l) (h1 : s ≤ s') (h2 : e' ≤ e) : HoldsOn s' e' P l :=
  fun i q a b hq => hP i q (by omega) (by omega) hq

theorem HoldsOn.and {β : Type} {s e : Nat} {P Q : β → Prop} {l : List β}
    (hP : HoldsOn s e P l) (hQ : HoldsOn s e Q l) : HoldsOn s e (fun q => P q ∧ Q q) l :=
  fun i q a b hq => ⟨hP i q a b hq, hQ i q a b hq⟩

theorem SameShape.query_inv {QP : Rectangle α D → DataPoint α D → Prop}
    {qpts : List (DataPoint α D)} {a b : TreeNode α D} (h : SameShape a b)
    (ha : a.All (QueryInv QP qpts)) : b.All (QueryInv QP qpts) := by
  induction a generalizing b with
  | leaf ba sa ea aa =>
    cases b with
    | leaf bb sb eb ab =>
      obtain ⟨x1, x2, x3⟩ := h
      subst x1 x2 x3
      exact ha
    | node => exact h.elim
  | node ba sa ea aa la ra ihl ihr =>
    cases b with
    | leaf => exact h.elim
    | node bb sb eb ab lb rb =>
      obtain ⟨x1, x2, x3, x4, x5⟩ := h
      obtain ⟨h1, hl, hr⟩ := ha
      subst x1 x2 x3
      exact ⟨h1, ihl x4 hl, ihr x5 hr⟩

theorem SameShape.symm {a b : TreeNode α D} (h : SameShape a b) : SameShape b a := by
  induction a generalizing b with
  | leaf ba sa ea aa =>
    cases b with
    | leaf bb sb eb ab =>
      obtain ⟨x1, x2, x3⟩ := h
      exact ⟨x1.symm, x2.symm, x3.symm⟩
    | node => exact h.elim
  | node ba sa ea aa la ra ihl ihr =>
    cases b with
    | leaf => exact h.elim
    | node bb sb eb ab lb rb =>
      obtain ⟨x1, x2, x3, x4, x5⟩ := h
      exact ⟨x1.symm, x2.symm, x3.symm, ihl x4, ihr x5⟩

theorem TreeNode.All.imp {P Q : TreeNode α D → Prop} (h : ∀ n, P n → Q n) {n : TreeNode α D}
    (hn : n.All P) : n.All Q := by
  induction n with
  | leaf b s e a => exact h _ hn
  | node b s e a l r ihl ihr => exact ⟨h _ hn.1, ihl hn.2.1, ihr hn.2.2⟩

/-- The query-side invariant survives an update whose steps preserve the property. -/
theorem QueryInv.of_updated_points {QP : Rectangle α D → DataPoint α D → Prop}
    {qpts qpts' : List (DataPoint α D)} {s e : Nat} {R : DataPoint α D → DataPoint α D → Prop}
    {n : TreeNode α D} (hn : n.All (QueryInv QP qpts)) (h : UpdatedOn s e R qpts qpts')
    (hR : ∀ box q q', R q q' → QP box q → QP box q') : n.All (QueryInv QP qpts') :=
  TreeNode.All.imp (fun _ hm => HoldsOn.of_preserved hm h (hR _)) hn


theorem SameShape.node (b : Rectangle α D) (s e : Nat) (a a' : Attributes α)
    {l l' r r' : TreeNode α D} (hl : SameShape l l') (hr : SameShape r r') :
    SameShape (TreeNode.node b s e a l r) (TreeNode.node b s e a' l' r') :=
  ⟨rfl, rfl, rfl, hl, hr⟩

theorem tighten_bounds_node_shape (Dn Qn : TreeNode α D) (du_new dl_new du dl : α) :
    SameShape (tighten_bounds_node Dn Qn du_new dl_new du dl) Qn :=
  SameShape.set_attr _ _

/-- The two calls on the children of a reference node, for one query node. -/
theorem dual_tree_pair {kd : KernelDensity α D} {kernel : Kernel α D}
    {DOK : TreeNode α D → Prop} {QP : Rectangle α D → DataPoint α D → Prop}
    {Pre : TreeNode α D → DataPoint α D → Prop}
    {Rel : TreeNode α D → DataPoint α D → DataPoint α D → Prop}
    (spec : PointwiseSpec kd kernel DOK QP Pre Rel) (flt_max flt_min : α) (fuel : Nat)
    (ih : ∀ (Dn Qn : TreeNode α D) (du dl rel_err abs_err : α) (qpts : List (DataPoint α D)),
      Dn.size + Qn.size ≤ fuel → DOK Dn → Qn.All (IndexInv qpts.length) →
      Qn.All (QueryInv QP qpts) → HoldsOn Qn.start_idx_ Qn.end_idx_ (Pre Dn) qpts →
      DualTreeReturns kd kernel flt_max flt_min Rel fuel Dn Qn du dl rel_err abs_err qpts)
    (b : Rectangle α D) (s e : Nat) (a : Attributes α) (l r : TreeNode α D)
    (hD : DOK (.node b s e a l r)) (obj : Fin D → Interval α)
    (Qn : TreeNode α D) (du dl rel_err abs_err : α) (qpts : List (DataPoint α D))
    (hsize : (TreeNode.node b s e a l r).size + Qn.size ≤ fuel + 1)
    (hidx : Qn.All (IndexInv qpts.length)) (hq : Qn.All (QueryInv QP qpts))
    (hpre : HoldsOn Qn.start_idx_ Qn.end_idx_ (Pre (.node b s e a l r)) qpts) :
    ∃ r1 r2,
      dual_tree kd flt_max flt_min fuel (apply_closer_heuristic l r obj).1 Qn kernel du dl
        rel_err abs_err qpts = some r1 ∧
      dual_tree kd flt_max flt_min fuel (apply_closer_heuristic l r obj).2 r1.1 kernel du dl
        rel_err abs_err r1.2 = some r2 ∧
      SameShape r2.1 Qn ∧
      UpdatedOn Qn.start_idx_ Qn.end_idx_ (Rel (.node b s e a l r)) qpts r2.2 := by
  obtain ⟨hDl, hDr⟩ := spec.children b s e a l r hD
  have hsplit := fun q hq => spec.split b s e a l r q hD hq
  simp only [TreeNode.size] at hsize
  have key : ∀ c1 c2 : TreeNode α D, DOK c1 → DOK c2 → c1.size + Qn.size ≤ fuel →
      c2.size + Qn.size ≤ fuel →
      (∀ q, Pre (.node b s e a l r) q → Pre c1 q ∧ ∀ q', Rel c1 q q' → Pre c2 q') →
      (∀ q q' q'', Rel c1 q q' → Rel c2 q' q'' → Rel (.node b s e a l r) q q'') →
      ∃ r1 r2,
        dual_tree kd flt_max flt_min fuel c1 Qn kernel du dl rel_err abs_err qpts = some r1 ∧
        dual_tree kd flt_max flt_min fuel c2 r1.1 kernel du dl rel_err abs_err r1.2 = some r2 ∧
        SameShape r2.1 Qn ∧
        UpdatedOn Qn.start_idx_ Qn.end_idx_ (Rel (.node b s e a l r)) qpts r2.2 := by
    intro c1 c2 h1 h2 hs1 hs2 hp hc
    obtain ⟨r1, e1, sh1, u1⟩ := ih c1 Qn du dl rel_err abs_err qpts hs1 h1 hidx hq
      (fun i q x y z => (hp q (hpre i q x y z)).1)
    have f1 := sh1.facts
    have hidx1 : r1.1.All (IndexInv r1.2.length) := by
      rw [u1.1]; exact sh1.symm.index hidx
    have hq1 : r1.1.All (QueryInv QP r1.2) :=
      sh1.symm.query_inv (QueryInv.of_updated_points hq u1 (fun box q q' => spec.preserved c1 box q q'))
    have hpre1 : HoldsOn r1.1.start_idx_ r1.1.end_idx_ (Pre c2) r1.2 := by
      rw [f1.2.1, f1.2.2.1]
      exact HoldsOn.of_updated hpre u1 (fun q q' hP hR => (hp q hP).2 q' hR)
    obtain ⟨r2, e2, sh2, u2⟩ := ih c2 r1.1 du dl rel_err abs_err r1.2
      (by rw [f1.1]; exact hs2) h2 hidx1 hq1 hpre1
    rw [f1.2.1, f1.2.2.1] at u2
    exact ⟨r1, r2, e1, e2, sh2.trans sh1, u1.comp u2 hc⟩
  unfold apply_closer_heuristic
  split_ifs with hcl
  · exact key r l hDr hDl (by omega) (by omega)
      (fun q hq => ⟨(hsplit q hq).2.1, (hsplit q hq).2.2.2⟩)
      (fun q q' q'' => (spec.comp b s e a l r q q' q'' hD).2)
  · exact key l r hDl hDr (by omega) (by omega)
      (fun q hq => ⟨(hsplit q hq).1, (hsplit q hq).2.2.1⟩)
      (fun q q' q'' => (spec.comp b s e a l r q q' q'' hD).1)

/-- Per-query-point account of `dual_tree`: with at least as much recursion
depth as the two trees have nodes, the call returns, the query node keeps its
shape, and every query point of its index range is updated as `Rel` says while
all other query points are untouched. -/
theorem dual_tree_pointwise {kd : KernelDensity α D} {kernel : Kernel α D}
    {DOK : TreeNode α D → Prop} {QP : Rectangle α D → DataPoint α D → Prop}
    {Pre : TreeNode α D → DataPoint α D → Prop}
    {Rel : TreeNode α D → DataPoint α D → DataPoint α D → Prop}
    (spec : PointwiseSpec kd kernel DOK QP Pre Rel) (flt_max flt_min : α) (fuel : Nat) :
    ∀ (Dn Qn : TreeNode α D) (du dl rel_err abs_err : α) (qpts : List (DataPoint α D)),
      Dn.size + Qn.size ≤ fuel → DOK Dn → Qn.All (IndexInv qpts.length) →
      Qn.All (QueryInv QP qpts) → HoldsOn Qn.start_idx_ Qn.end_idx_ (Pre Dn) qpts →
      DualTreeReturns kd kernel flt_max flt_min Rel fuel Dn Qn du dl rel_err abs_err qpts := by
  induction fuel with
  | zero =>
    intro Dn Qn du dl rel_err abs_err qpts hsize
    have := Dn.size_pos
    omega
  | succ fuel ih =>
    intro Dn Qn du dl rel_err abs_err qpts hsize hD hidx hq hpre
    have hprune : ∀ du_new dl_new : α,
        du_new = (estimate_contributions Dn Qn.bbox_ kernel).1 →
        dl_new = (estimate_contributions Dn Qn.bbox_ kernel).2 →
        UpdatedOn Qn.start_idx_ Qn.end_idx_ (Rel Dn) qpts
          (map_index_range (fun q => q.set_bounds
            (tighten_bounds Dn du_new dl_new 1 0 q.attributes.upper q.attributes.lower))
            Qn.start_idx_ Qn.end_idx_ qpts) := by
      intro du_new dl_new h1 h2
      subst h1 h2
      exact UpdatedOn.map_index_range _ _ _ _ _ _ (hpre.and hq.self)
        (fun q hP => spec.prune Dn Qn.bbox_ q hD hP.2 hP.1)
    unfold DualTreeReturns
    cases Qn with
    | leaf qb qs qe qa =>
      cases Dn with
      | leaf db ds de da =>
        rw [dual_tree]
        split_ifs with hc
        · refine ⟨_, rfl, ?_, ?_⟩
          · dsimp only
            exact tighten_bounds_node_shape _ _ _ _ _ _
          · exact hprune _ _ rfl rfl
        · refine ⟨_, rfl, ?_, ?_⟩
          · exact SameShape.set_attr _ (TreeNode.leaf qb qs qe qa)
          · exact UpdatedOn.map_index_range _ _ _ _ _ _ hpre
              (fun q hP => spec.base _ q hD hP)
      | node db ds de da dleft dright =>
        rw [dual_tree]
        split_ifs with hc
        · refine ⟨_, rfl, ?_, ?_⟩
          · dsimp only
            exact tighten_bounds_node_shape _ _ _ _ _ _
          · exact hprune _ _ rfl rfl
        · simp only
          generalize (estimate_contributions (TreeNode.node db ds de da dleft dright)
            (TreeNode.leaf qb qs qe qa).bbox_ kernel).1 = du_new
          generalize (estimate_contributions (TreeNode.node db ds de da dleft dright)
            (TreeNode.leaf qb qs qe qa).bbox_ kernel).2 = dl_new
          have sh := tighten_bounds_node_shape (TreeNode.node db ds de da dleft dright)
            (TreeNode.leaf qb qs qe qa) du_new dl_new du dl
          have f := sh.facts
          obtain ⟨r1, r2, e1, e2, sh2, u2⟩ := dual_tree_pair spec flt_max flt_min fuel ih
            db ds de da dleft dright hD
            (tighten_bounds_node (TreeNode.node db ds de da dleft dright)
              (TreeNode.leaf qb qs qe qa) du_new dl_new du dl).bbox_
            (tighten_bounds_node (TreeNode.node db ds de da dleft dright)
              (TreeNode.leaf qb qs qe qa) du_new dl_new du dl)
            du_new dl_new rel_err abs_err qpts (by rw [f.1]; exact hsize)
            (sh.symm.index hidx) (sh.symm.query_inv hq) (by rw [f.2.1, f.2.2.1]; exact hpre)
          rw [f.2.1, f.2.2.1] at u2
          refine ⟨r2, ?_, sh2.trans sh, u2⟩
          rw [e1, Option.some_bind, e2]
    | node qb qs qe qa qleft qright =>
      obtain ⟨⟨hi1, hi2, hi3⟩, hidl, hidr⟩ := hidx
      obtain ⟨hqp, hql, hqr⟩ := hq
      obtain ⟨hlse, hlel⟩ := TreeNode.start_le_end hidl
      obtain ⟨hrse, hrel⟩ := TreeNode.start_le_end hidr
      simp only [TreeNode.start_idx_, TreeNode.end_idx_] at hpre ⊢
      have hprel : HoldsOn qleft.start_idx_ qleft.end_idx_ (Pre Dn) qpts :=
        hpre.subrange (by omega) (by omega)
      have hprer : HoldsOn qright.start_idx_ qright.end_idx_ (Pre Dn) qpts :=
        hpre.subrange (by omega) (by omega)
      simp only [TreeNode.size] at hsize
      cases Dn with
      | leaf db ds de da =>
        rw [dual_tree]
        split_ifs with hc
        · refine ⟨_, rfl, ?_, ?_⟩
          · dsimp only
            exact tighten_bounds_node_shape _ _ _ _ _ _
          · exact hprune _ _ rfl rfl
        · simp only
          generalize (estimate_contributions (TreeNode.leaf db ds de da)
            (TreeNode.node qb qs qe qa qleft qright).bbox_ kernel).1 = du_new
          generalize (estimate_contributions (TreeNode.leaf db ds de da)
            (TreeNode.node qb qs qe qa qleft qright).bbox_ kernel).2 = dl_new
          have shl := tighten_bounds_node_shape (TreeNode.leaf db ds de da) qleft
            du_new dl_new du dl
          have shr := tighten_bounds_node_shape (TreeNode.leaf db ds de da) qright
            du_new dl_new du dl
          have fl := shl.facts
          have fr := shr.facts
          obtain ⟨r1, e1, sh1, u1⟩ := ih (TreeNode.leaf db ds de da)
            (tighten_bounds_node (TreeNode.leaf db ds de da) qleft du_new dl_new du dl)
            du_new dl_new rel_err abs_err qpts (by rw [fl.1]; simp only [TreeNode.size] at *; omega)
            hD (shl.symm.index hidl) (shl.symm.query_inv hql)
            (by rw [fl.2.1, fl.2.2.1]; exact hprel)
          rw [fl.2.1, fl.2.2.1] at u1
          obtain ⟨r2, e2, sh2, u2⟩ := ih (TreeNode.leaf db ds de da)
            (tighten_bounds_node (TreeNode.leaf db ds de da) qright du_new dl_new du dl)
            du_new dl_new rel_err abs_err r1.2 (by rw [fr.1]; simp only [TreeNode.size] at *; omega)
            hD (by rw [u1.1]; exact shr.symm.index hidr)
            (shr.symm.query_inv (QueryInv.of_updated_points hqr u1
              (fun box q q' => spec.preserved _ box q q')))
            (by rw [fr.2.1, fr.2.2.1]; exact hprer.of_disjoint u1 (by omega))
          rw [fr.2.1, fr.2.2.1, ← hi2] at u2
          refine ⟨_, by rw [e1, Option.some_bind, e2, Option.some_bind],
            SameShape.node _ _ _ _ _ (sh1.trans shl) (sh2.trans shr), ?_⟩
          rw [← hi1, ← hi3]
          exact u1.union u2 hlse (by omega)
      | node db ds de da dleft dright =>
        rw [dual_tree]
        split_ifs with hc
        · refine ⟨_, rfl, ?_, ?_⟩
          · dsimp only
            exact tighten_bounds_node_shape _ _ _ _ _ _
          · exact hprune _ _ rfl rfl
        · simp only
          generalize (estimate_contributions (TreeNode.node db ds de da dleft dright)
            (TreeNode.node qb qs qe qa qleft qright).bbox_ kernel).1 = du_new
          generalize (estimate_contributions (TreeNode.node db ds de da dleft dright)
            (TreeNode.node qb qs qe qa qleft qright).bbox_ kernel).2 = dl_new
          have shl := tighten_bounds_node_shape (TreeNode.node db ds de da dleft dright) qleft
            du_new dl_new du dl
          have shr := tighten_bounds_node_shape (TreeNode.node db ds de da dleft dright) qright
            du_new dl_new du dl
          have fl := shl.facts
          have fr := shr.facts
          obtain ⟨r1, r2, e1, e2, sh2, u2⟩ := dual_tree_pair spec flt_max flt_min fuel ih
            db ds de da dleft dright hD
            (tighten_bounds_node (TreeNode.node db ds de da dleft dright) qleft
              du_new dl_new du dl).bbox_
            (tighten_bounds_node (TreeNode.node db ds de da dleft dright) qleft
              du_new dl_new du dl)
            du_new dl_new rel_err abs_err qpts
            (by rw [fl.1]; simp only [TreeNode.size] at *; omega)
            (shl.symm.index hidl) (shl.symm.query_inv hql)
            (by rw [fl.2.1, fl.2.2.1]; exact hprel)
          rw [fl.2.1, fl.2.2.1] at u2
          obtain ⟨r3, r4, e3, e4, sh4, u4⟩ := dual_tree_pair spec flt_max flt_min fuel ih
            db ds de da dleft dright hD
            (tighten_bounds_node (TreeNode.node db ds de da dleft dright) qright
              du_new dl_new du dl).bbox_
            (tighten_bounds_node (TreeNode.node db ds de da dleft dright) qright
              du_new dl_new du dl)
            du_new dl_new rel_err abs_err r2.2
            (by rw [fr.1]; simp only [TreeNode.size] at *; omega)
            (by rw [u2.1]; exact shr.symm.index hidr)
            (shr.symm.query_inv (QueryInv.of_updated_points hqr u2
              (fun box q q' => spec.preserved _ box q q')))
            (by rw [fr.2.1, fr.2.2.1]; exact hprer.of_disjoint u2 (by omega))
          rw [fr.2.1, fr.2.2.1, ← hi2] at u4
          refine ⟨_, by rw [e1, Option.some_bind, e2, Option.some_bind, e3, Option.some_bind,
            e4, Option.some_bind], SameShape.node _ _ _ _ _ (sh2.trans shl) (sh4.trans shr), ?_⟩
          rw [← hi1, ← hi3]
          exact u2.union u4 hlse (by omega)

theorem mass_children (pts : List (DataPoint α D)) (b : Rectangle α D) (s e : Nat)
    (a : Attributes α) (l r : TreeNode α D)
    (hidx : (TreeNode.node b s e a l r).All (IndexInv pts.length))
    (hmass : (TreeNode.node b s e a l r).All (MassInv pts)) :
    index_range pts s e = index_range pts l.start_idx_ l.end_idx_ ++
      index_range pts r.start_idx_ r.end_idx_ ∧
    (TreeNode.node b s e a l r).attr_.mass = l.attr_.mass + r.attr_.mass := by
  obtain ⟨⟨hi1, hi2, hi3⟩, hidl, hidr⟩ := hidx
  obtain ⟨hmp, hml, hmr⟩ := hmass
  obtain ⟨hlse, hlel⟩ := TreeNode.start_le_end hidl
  obtain ⟨hrse, hrel'⟩ := TreeNode.start_le_end hidr
  have hsplit : index_range pts s e = index_range pts l.start_idx_ l.end_idx_ ++
      index_range pts r.start_idx_ r.end_idx_ := by
    rw [← hi1, ← hi3, ← hi2]
    exact index_range_split _ _ _ _ hlse (by omega)
  refine ⟨hsplit, ?_⟩
  have h := hmp
  unfold MassInv at h
  simp only [TreeNode.start_idx_, TreeNode.end_idx_] at h
  rw [h, hsplit, List.map_append, List.sum_append, ← hml.self, ← hmr.self]

theorem mass_nonneg_of_inv (pts : List (DataPoint α D)) (n : TreeNode α D)
    (hmn : ∀ p ∈ pts, 0 ≤ p.attributes.mass) (hmass : MassInv pts n) : 0 ≤ n.attr_.mass := by
  rw [hmass]
  exact mass_sum_nonneg _ (fun d hd => hmn d (mem_of_mem_index_range hd))

theorem kernel_sum_range (kernel : Kernel α D)
    (hk : ∀ p q a, 0 ≤ kernel.unnormalized_eval p q a ∧ kernel.unnormalized_eval p q a ≤ 1)
    (pts : List (DataPoint α D)) (hmn : ∀ p ∈ pts, 0 ≤ p.attributes.mass)
    (n : TreeNode α D) (hmass : MassInv pts n) (q : Point α D) :
    0 ≤ kernel_sum kernel q (index_range pts n.start_idx_ n.end_idx_) ∧
    kernel_sum kernel q (index_range pts n.start_idx_ n.end_idx_) ≤ n.attr_.mass := by
  have h := kernel_sum_bounds kernel q (index_range pts n.start_idx_ n.end_idx_) 0 1
    (fun d hd => hmn d (mem_of_mem_index_range hd)) (fun d _ => hk _ _ _)
  rw [← hmass, mul_zero, mul_one] at h
  exact h

theorem tighten_bounds_eq_max (D_node : TreeNode α D) (du_new dl_new du dl upper lower : α) :
    tighten_bounds D_node du_new dl_new du dl upper lower =
      (max (upper + D_node.attr_.mass * (du_new - du)) (lower + D_node.attr_.mass * (dl_new - dl)),
       lower + D_node.attr_.mass * (dl_new - dl)) := by
  unfold tighten_bounds
  simp only
  split_ifs with h
  · rw [max_eq_right (le_of_lt h)]
  · rw [max_eq_left (not_lt.mp h)]

theorem single_tree_base_eq_max (kd : KernelDensity α D) (D_node : TreeNode α D) (p : Point α D)
    (kernel : Kernel α D) (du dl upper lower : α) :
    single_tree_base kd D_node p kernel du dl upper lower =
      (max (upper + kernel_sum kernel p
              (index_range kd.data_tree_.points_ D_node.start_idx_ D_node.end_idx_) -
            D_node.attr_.mass * du)
          (lower + kernel_sum kernel p
              (index_range kd.data_tree_.points_ D_node.start_idx_ D_node.end_idx_) -
            D_node.attr_.mass * dl),
       lower + kernel_sum kernel p
              (index_range kd.data_tree_.points_ D_node.start_idx_ D_node.end_idx_) -
            D_node.attr_.mass * dl) := by
  rw [single_tree_base_eq]
  simp only
  split_ifs with h
  · rw [max_eq_right (le_of_lt h)]
  · rw [max_eq_left (not_lt.mp h)]

theorem BoundStep.of_set_bounds (m : α) (q : DataPoint α D) (ul : α × α)
    (h1 : q.attributes.lower ≤ ul.2) (h2 : ul.2 ≤ q.attributes.lower + m)
    (h3 : ul.2 ≤ ul.1) (h4 : ul.1 ≤ max q.attributes.upper ul.2) :
    BoundStep m q (q.set_bounds ul) := ⟨rfl, h1, h2, h3, h4⟩

/-- The bound invariants as a per-query-point account of the recursion. -/
theorem bound_step_spec (kd : KernelDensity α D) (kernel : Kernel α D)
    (hk : ∀ p q a, 0 ≤ kernel.unnormalized_eval p q a ∧ kernel.unnormalized_eval p q a ≤ 1)
    (hmn : ∀ p ∈ kd.data_tree_.points_, 0 ≤ p.attributes.mass) :
    PointwiseSpec kd kernel (MassOK kd.data_tree_.points_) (fun _ _ => True) (fun _ _ => True)
      (fun Dn => BoundStep Dn.attr_.mass) where
  children := fun b s e a l r h => ⟨⟨h.1.2.1, h.2.2.1⟩, ⟨h.1.2.2, h.2.2.2⟩⟩
  prune := by
    intro Dn box q hD _ _
    have hm := mass_nonneg_of_inv _ Dn hmn hD.2.self
    have h1 := hk (fun i => Dn.bbox_.min_dist_axis i box) (fun _ => 0) Dn.attr_.upper_abw
    have h2 := hk (fun i => Dn.bbox_.max_dist_axis i box) (fun _ => 0) Dn.attr_.lower_abw
    have e1 := mul_nonneg hm h2.1
    have e2 := mul_le_mul_of_nonneg_left h2.2 hm
    have e3 := mul_le_mul_of_nonneg_left h1.2 hm
    rw [mul_one] at e2 e3
    rw [tighten_bounds_eq_max]
    unfold estimate_contributions
    simp only [sub_zero]
    apply BoundStep.of_set_bounds
    · simp only; linarith
    · simp only; linarith
    · exact le_max_right _ _
    · exact max_le_max (by rw [mul_sub, mul_one]; linarith) (le_refl _)
  base := by
    intro Dn q hD _
    have hm := mass_nonneg_of_inv _ Dn hmn hD.2.self
    have hS := kernel_sum_range kernel hk _ hmn Dn hD.2.self q.point
    rw [single_tree_base_eq_max]
    simp only [mul_zero, mul_one, sub_zero]
    apply BoundStep.of_set_bounds
    · simp only; linarith
    · simp only; linarith
    · exact le_max_right _ _
    · exact max_le_max (by linarith) (le_refl _)
  split := fun _ _ _ _ _ _ _ _ _ => ⟨trivial, trivial, fun _ _ => trivial, fun _ _ => trivial⟩
  comp := by
    intro b s e a l r q q' q'' hD
    obtain ⟨-, hmeq⟩ := mass_children _ b s e a l r hD.1 hD.2
    have key : ∀ (m1 m2 : α) (x y z : DataPoint α D), BoundStep m1 x y → BoundStep m2 y z →
        BoundStep (m1 + m2) x z := by
      intro m1 m2 x y z h1 h2
      obtain ⟨a1, a2, a3, a4, a5⟩ := h1
      obtain ⟨b1, b2, b3, b4, b5⟩ := h2
      refine ⟨b1.trans a1, by linarith, by linarith, b4, ?_⟩
      refine le_trans b5 (max_le (le_trans a5 (max_le (le_max_left _ _) ?_)) (le_max_right _ _))
      exact le_trans b2 (le_max_right _ _)
    rw [hmeq]
    exact ⟨key _ _ _ _ _, fun h1 h2 => by rw [add_comm]; exact key _ _ _ _ _ h1 h2⟩
  preserved := fun _ _ _ _ _ _ => trivial


theorem refresh_node_attributes_shape (pts : List (DataPoint α D)) (n : TreeNode α D) :
    SameShape (refresh_node_attributes pts n) n := by
  induction n with
  | leaf b s e a =>
    unfold refresh_node_attributes
    split
    · exact ⟨rfl, rfl, rfl⟩
    · exact ⟨rfl, rfl, rfl⟩
  | node b s e a l r ihl ihr =>
    unfold refresh_node_attributes
    exact SameShape.node _ _ _ _ _ ihl ihr

/-- Per-query-point account of the tree overload of `eval`. -/
theorem eval_tree_pointwise {kd : KernelDensity α D} {kernel : Kernel α D}
    {DOK : TreeNode α D → Prop} {QP : Rectangle α D → DataPoint α D → Prop}
    {Pre : TreeNode α D → DataPoint α D → Prop}
    {Rel : TreeNode α D → DataPoint α D → DataPoint α D → Prop}
    (spec : PointwiseSpec kd kernel DOK QP Pre Rel) (flt_max flt_min : α)
    (query_tree : Kdtree α D) (hQ : query_tree.Indexed) (rel_err abs_err : α)
    (hD : DOK kd.data_tree_.root_)
    (hQP : query_tree.root_.All (fun n =>
      ∀ q ∈ index_range query_tree.points_ n.start_idx_ n.end_idx_,
        QP n.bbox_ (q.init_bounds kd.data_tree_.root_.attr_.mass)))
    (hpre : ∀ q ∈ query_tree.points_,
      Pre kd.data_tree_.root_ (q.init_bounds kd.data_tree_.root_.attr_.mass)) :
    ∃ t, eval_tree kd flt_max flt_min query_tree kernel rel_err abs_err = some t ∧
      t.points_.length = query_tree.points_.length ∧
      ∀ (i : Nat) (q' : DataPoint α D), t.points_[i]? = some q' →
        ∃ q q1 : DataPoint α D, query_tree.points_[i]? = some q ∧
          Rel kd.data_tree_.root_ (q.init_bounds kd.data_tree_.root_.attr_.mass) q1 ∧
          q' = q1.normalize_bounds kernel.normalization := by
  have hlen0 : (query_tree.points_.map
      (DataPoint.init_bounds kd.data_tree_.root_.attr_.mass)).length =
      query_tree.points_.length := List.length_map _ _
  have hget0 : ∀ (i : Nat) (q0 : DataPoint α D), (query_tree.points_.map
      (DataPoint.init_bounds kd.data_tree_.root_.attr_.mass))[i]? = some q0 →
      ∃ q : DataPoint α D, query_tree.points_[i]? = some q ∧
        q0 = q.init_bounds kd.data_tree_.root_.attr_.mass := by
    intro i q0 h
    rw [List.getElem?_map] at h
    cases hq : query_tree.points_[i]? with
    | none => rw [hq] at h; exact Option.noConfusion h
    | some q =>
      rw [hq] at h
      exact ⟨q, rfl, (Option.some.inj h).symm⟩
  have sh := refresh_node_attributes_shape
    (query_tree.points_.map (DataPoint.init_bounds kd.data_tree_.root_.attr_.mass))
    query_tree.root_
  have f := sh.facts
  have hidx : (refresh_node_attributes
      (query_tree.points_.map (DataPoint.init_bounds kd.data_tree_.root_.attr_.mass))
      query_tree.root_).All (IndexInv (query_tree.points_.map
        (DataPoint.init_bounds kd.data_tree_.root_.attr_.mass)).length) := by
    rw [hlen0]; exact sh.symm.index hQ.index
  have hqi : (refresh_node_attributes
      (query_tree.points_.map (DataPoint.init_bounds kd.data_tree_.root_.attr_.mass))
      query_tree.root_).All (QueryInv QP (query_tree.points_.map
        (DataPoint.init_bounds kd.data_tree_.root_.attr_.mass))) := by
    apply sh.symm.query_inv
    refine TreeNode.All.imp ?_ hQP
    intro n hn i q0 h1 h2 hq0
    obtain ⟨q, hq, rfl⟩ := hget0 i q0 hq0
    exact hn q ((mem_index_range_iff _ _ _ _).mpr ⟨i, h1, h2, hq⟩)
  have hpre0 : HoldsOn (refresh_node_attributes
      (query_tree.points_.map (DataPoint.init_bounds kd.data_tree_.root_.attr_.mass))
      query_tree.root_).start_idx_ (refresh_node_attributes
      (query_tree.points_.map (DataPoint.init_bounds kd.data_tree_.root_.attr_.mass))
      query_tree.root_).end_idx_ (Pre kd.data_tree_.root_) (query_tree.points_.map
        (DataPoint.init_bounds kd.data_tree_.root_.attr_.mass)) := by
    intro i q0 _ _ hq0
    obtain ⟨q, hq, rfl⟩ := hget0 i q0 hq0
    exact hpre q (List.mem_iff_getElem?.mpr ⟨i, hq⟩)
  obtain ⟨r, er, shr, ur⟩ := dual_tree_pointwise spec flt_max flt_min
    (kd.data_tree_.root_.size + (refresh_node_attributes
      (query_tree.points_.map (DataPoint.init_bounds kd.data_tree_.root_.attr_.mass))
      query_tree.root_).size) kd.data_tree_.root_ _ 1 0 rel_err
    (abs_err / kernel.normalization) _ (le_refl _) hD hidx hqi hpre0
  rw [f.2.1, f.2.2.1, hQ.root_start] at ur
  refine ⟨{ points_ := r.2.map (DataPoint.normalize_bounds kernel.normalization),
             root_ := r.1 }, ?_, ?_, ?_⟩
  · unfold eval_tree
    simp only
    exact (congrArg (fun o => Option.bind o _) er).trans (Option.some_bind _ _)
  · simp only [List.length_map]
    rw [ur.1, hlen0]
  · intro i q' hq'
    simp only [List.getElem?_map] at hq'
    cases hq1 : r.2[i]? with
    | none => rw [hq1] at hq'; exact Option.noConfusion hq'
    | some q1 =>
      rw [hq1] at hq'
      obtain ⟨q0, hq0⟩ := ur.getElem?_some hq1
      obtain ⟨q, hq, rfl⟩ := hget0 i q0 hq0
      have hi : i < query_tree.points_.length := by
        by_contra hcon
        rw [List.getElem?_eq_none (not_lt.mp hcon)] at hq
        exact Option.noConfusion hq
      have hR := (ur.2 i _ q1 hq0 hq1).1 ⟨Nat.zero_le _, by have := hQ.root_end; omega⟩
      exact ⟨q, q1, hq, hR, (Option.some.inj hq').symm⟩

theorem min_dist_interval_nonneg (I J : Interval α) :
    0 ≤ (AxisDist.min_dist I J : α) := le_max_left _ _

theorem max_dist_interval_nonneg (I J : Interval α) :
    0 ≤ (AxisDist.max_dist I J : α) := le_trans (abs_nonneg _) (le_max_left _ _)

theorem min_dist_interval_le (I J : Interval α) (x y : α) (h1 : I.lower ≤ x) (h2 : x ≤ I.upper)
    (h3 : J.lower ≤ y) (h4 : y ≤ J.upper) : (AxisDist.min_dist I J : α) ≤ |y - x| := by
  show max 0 (max (I.lower - J.upper) (J.lower - I.upper)) ≤ |y - x|
  refine max_le (abs_nonneg _) (max_le ?_ ?_)
  · rw [abs_sub_comm]; exact le_trans (by linarith) (le_abs_self _)
  · exact le_trans (by linarith) (le_abs_self _)

theorem le_max_dist_interval (I J : Interval α) (x y : α) (h1 : I.lower ≤ x) (h2 : x ≤ I.upper)
    (h3 : J.lower ≤ y) (h4 : y ≤ J.upper) : |y - x| ≤ (AxisDist.max_dist I J : α) := by
  show |y - x| ≤ max |J.upper - I.lower| |I.upper - J.lower|
  rcases le_total 0 (y - x) with h | h
  · rw [abs_of_nonneg h]
    exact le_trans (le_trans (by linarith) (le_abs_self (J.upper - I.lower))) (le_max_left _ _)
  · rw [abs_of_nonpos h]
    exact le_trans (le_trans (by linarith) (le_abs_self (I.upper - J.lower))) (le_max_right _ _)

/-- The contribution estimates of a reference node against a query box bracket
the kernel value between every point of the node and every point of the box. -/
theorem estimate_contributions_box_valid (pts : List (DataPoint α D)) (n : TreeNode α D)
    (kernel : Kernel α D) (hk : KernelCapability kernel) (box : Rectangle α D) (q : Point α D)
    (hq : box.contains q = true) (hbox : BoxInv pts n) (habw : AbwInv pts n)
    (d : DataPoint α D) (hd : d ∈ index_range pts n.start_idx_ n.end_idx_) :
    (estimate_contributions n box kernel).2 ≤
      kernel.unnormalized_eval q d.point d.attributes.abw ∧
    kernel.unnormalized_eval q d.point d.attributes.abw ≤
      (estimate_contributions n box kernel).1 := by
  have hc := (Rectangle.contains_iff _ _).mp (hbox d hd)
  have hcq := (Rectangle.contains_iff _ _).mp hq
  obtain ⟨hpos, hb⟩ := habw
  have hb := hb d hd
  unfold estimate_contributions
  simp only [Rectangle.min_dist_axis, Rectangle.max_dist_axis]
  constructor
  · apply hk.mono _ _ _ _ _ _ _ hpos hb.1
    intro i
    rw [sub_zero, abs_of_nonneg (max_dist_interval_nonneg (n.bbox_ i) (box i))]
    exact le_max_dist_interval _ _ _ _ (hc i).1 (hc i).2 (hcq i).1 (hcq i).2
  · apply hk.mono _ _ _ _ _ _ _ (lt_of_lt_of_le hpos hb.1) hb.2
    intro i
    rw [sub_zero, abs_of_nonneg (min_dist_interval_nonneg (n.bbox_ i) (box i))]
    exact min_dist_interval_le _ _ _ _ (hc i).1 (hc i).2 (hcq i).1 (hcq i).2

theorem ValidStep.of_valid_bounds (m : α) (S : Point α D → α) (q : DataPoint α D) (ul : α × α)
    (h1 : q.attributes.lower ≤ ul.2) (h2 : ul.2 ≤ q.attributes.lower + S q.point)
    (h3 : q.attributes.upper - m + S q.point ≤ ul.1) (h4 : ul.1 ≤ q.attributes.upper) :
    ValidStep m S q (q.set_bounds ul) := ⟨rfl, h1, h2, h3, h4⟩

/-- The validity of the bounds as a per-query-point account of the recursion. -/
theorem valid_step_spec (kd : KernelDensity α D) (kernel : Kernel α D)
    (hk : KernelCapability kernel)
    (hmn : ∀ p ∈ kd.data_tree_.points_, 0 ≤ p.attributes.mass) :
    PointwiseSpec kd kernel (NodeOK kd.data_tree_.points_)
      (fun box q => box.contains q.point = true)
      (fun Dn q => q.attributes.lower + Dn.attr_.mass ≤ q.attributes.upper)
      (fun Dn => ValidStep Dn.attr_.mass (fun x => kernel_sum kernel x
        (index_range kd.data_tree_.points_ Dn.start_idx_ Dn.end_idx_))) where
  children := fun b s e a l r h =>
    ⟨⟨h.1.2.1, h.2.1.2.1, h.2.2.1.2.1, h.2.2.2.2.1⟩, ⟨h.1.2.2, h.2.1.2.2, h.2.2.1.2.2, h.2.2.2.2.2⟩⟩
  prune := by
    intro Dn box q hD hq hpre
    have hm := mass_nonneg_of_inv _ Dn hmn hD.2.1.self
    have hv := estimate_contributions_box_valid kd.data_tree_.points_ Dn kernel hk box q.point hq
      hD.2.2.1.self hD.2.2.2.self
    have hb := kernel_sum_bounds kernel q.point _ _ _
      (fun d hd => hmn d (mem_of_mem_index_range hd)) hv
    rw [← hD.2.1.self] at hb
    have h1 : (estimate_contributions Dn box kernel).1 ≤ 1 := hk.le_one _ _ _
    have h0 : 0 ≤ (estimate_contributions Dn box kernel).2 := hk.nonneg _ _ _
    have e0 := mul_nonneg hm h0
    have e1 := mul_le_mul_of_nonneg_left h1 hm
    rw [mul_one] at e1
    rw [tighten_bounds_eq_of_le _ _ _ _ _ _ _ (by linarith [hb.1, hb.2])]
    apply ValidStep.of_valid_bounds
    · simp only; linarith
    · simp only; linarith [hb.1]
    · simp only; linarith [hb.2]
    · simp only; linarith
  base := by
    intro Dn q hD hpre
    have hS := kernel_sum_range kernel (fun p q a => ⟨hk.nonneg p q a, hk.le_one p q a⟩) _ hmn Dn
      hD.2.1.self q.point
    rw [single_tree_base_eq]
    simp only [mul_zero, mul_one, sub_zero]
    rw [if_neg (by rw [gt_iff_lt, not_lt]; linarith)]
    apply ValidStep.of_valid_bounds
    · simp only; linarith [hS.1]
    · simp only; linarith
    · simp only; linarith
    · simp only; linarith [hS.2]
  split := by
    intro b s e a l r q hD hpre
    obtain ⟨-, hmeq⟩ := mass_children _ b s e a l r hD.1 hD.2.1
    have hml := mass_nonneg_of_inv _ l hmn hD.2.1.2.1.self
    have hmr := mass_nonneg_of_inv _ r hmn hD.2.1.2.2.self
    rw [hmeq] at hpre
    refine ⟨by linarith, by linarith, ?_, ?_⟩
    · rintro q' ⟨-, a2, a3, a4, a5⟩
      linarith
    · rintro q' ⟨-, a2, a3, a4, a5⟩
      linarith
  comp := by
    intro b s e a l r q q' q'' hD
    obtain ⟨hsplit, hmeq⟩ := mass_children _ b s e a l r hD.1 hD.2.1
    have hS : ∀ x, kernel_sum kernel x (index_range kd.data_tree_.points_ s e) =
        kernel_sum kernel x (index_range kd.data_tree_.points_ l.start_idx_ l.end_idx_) +
        kernel_sum kernel x (index_range kd.data_tree_.points_ r.start_idx_ r.end_idx_) := by
      intro x; rw [hsplit, kernel_sum_append]
    simp only [TreeNode.start_idx_, TreeNode.end_idx_, hS, hmeq]
    have key : ∀ (m1 m2 : α) (S1 S2 : Point α D → α) (x y z : DataPoint α D),
        ValidStep m1 S1 x y → ValidStep m2 S2 y z →
        ValidStep (m1 + m2) (fun p => S1 p + S2 p) x z := by
      intro m1 m2 S1 S2 x y z h1 h2
      obtain ⟨a1, a2, a3, a4, a5⟩ := h1
      obtain ⟨b1, b2, b3, b4, b5⟩ := h2
      rw [a1] at b3 b4
      exact ⟨b1.trans a1, by linarith, by simp only; linarith, by simp only; linarith,
        by linarith⟩
    refine ⟨key _ _ _ _ _ _ _, fun h1 h2 => ?_⟩
    have := key _ _ _ _ _ _ _ h1 h2
    rw [add_comm] at this
    simp only [add_comm] at this ⊢
    exact this
  preserved := by
    rintro Dn box q q' ⟨h, -⟩ hq
    rw [h]; exact hq

/-! ## Construction from identical points -/

theorem sum_map_div {β : Type} (f : β → α) (c : α) (l : List β) :
    (l.map fun p => f p / c).sum = (l.map f).sum / c := by
  induction l with
  | nil => simp
  | cons x xs ih => simp only [List.map_cons, List.sum_cons, ih, add_div]

/-- After `initialize_attributes` on copies of one point with unit bandwidth
corrections and non-zero total weight, the weights sum to one and every mass is
the weight. -/
theorem initialize_attributes_identical (input : List (DataPoint α D)) (x : Point α D)
    (hin : ∀ p ∈ input, p.point = x ∧ p.attributes.abw = 1)
    (hw : (input.map fun p => p.attributes.weight).sum ≠ 0) :
    (∀ p ∈ initialize_attributes (D := D) input,
      p.point = x ∧ p.attributes.abw = 1 ∧ p.attributes.mass = p.attributes.weight) ∧
    ((initialize_attributes input).map fun p => p.attributes.weight).sum = 1 := by
  constructor
  · intro p hp
    simp only [initialize_attributes, normalize_weights, List.map_map, List.mem_map,
      Function.comp] at hp
    obtain ⟨p0, hp0, rfl⟩ := hp
    have h := hin p0 hp0
    simp only [Attributes.abw] at h ⊢
    refine ⟨h.1, h.2, ?_⟩
    rw [h.2, one_zpow, mul_one]
  · simp only [initialize_attributes, normalize_weights, List.map_map, Function.comp,
      foldl_add_sum, zero_add]
    have h := sum_map_div (fun p : DataPoint α D => p.attributes.weight)
      (input.map fun p => p.attributes.weight).sum input
    rw [div_self hw] at h
    exact h

theorem Kdtree.single_root (p1 : DataPoint α D) :
    ∃ a : Attributes α,
      (Kdtree.single p1).root_ =
        TreeNode.leaf (fun i => { lower := p1.point i, upper := p1.point i }) 0 0 a ∧
      a.mass = p1.attributes.mass ∧ a.lower_abw = p1.attributes.abw ∧
      a.upper_abw = p1.attributes.abw :=
  ⟨_, rfl, rfl, rfl, rfl⟩

/-- Single-tree evaluation over the kd-tree of exactly one point is exact,
whatever the tolerances. -/
theorem eval_kdtree_single (kd : KernelDensity α D) (p1 : DataPoint α D)
    (hkd : kd.data_tree_ = Kdtree.single p1)
    (kernel : Kernel α D) (hk : AbsDiffOnly kernel) (q : Point α D) (rel_err abs_err : α) :
    eval kd q kernel rel_err abs_err =
      kernel.normalization *
        (p1.attributes.mass * kernel.unnormalized_eval q p1.point p1.attributes.abw) := by
  obtain ⟨a, hroot, hm, hl, hu⟩ := Kdtree.single_root p1
  have hest := estimate_contributions_point kernel
    (TreeNode.leaf (fun i => { lower := p1.point i, upper := p1.point i }) 0 0 a)
    p1.point q p1.attributes.abw (fun _ _ _ _ h => hk _ _ _ _ _ h) (fun _ => rfl) hl hu
  have hpts : kd.data_tree_.points_ = [p1] := by rw [hkd]; rfl
  unfold eval
  simp only [hkd, hroot]
  rw [single_tree, hest]
  simp only
  split_ifs with hc
  · rw [tighten_bounds_exact]
    simp only [TreeNode.attr_, hm]
    ring
  · rw [single_tree_base_eq]
    simp only [hpts, index_range, TreeNode.start_idx_, TreeNode.end_idx_,
      TreeNode.attr_, List.drop_zero, List.take_succ_cons, List.take_zero, kernel_sum,
      List.map_cons, List.map_nil, List.sum_cons, List.sum_nil, hm]
    rw [if_neg (by rw [gt_iff_lt, not_lt]; apply le_of_eq; ring)]
    simp only
    ring

/-! ## Termination of the dual-tree recursion -/

theorem SameButBounds.same_refl (q : DataPoint α D) : SameButBounds q q :=
  ⟨rfl, rfl, rfl, rfl, rfl⟩

theorem SameButBounds.same_trans {q q' q'' : DataPoint α D} (h1 : SameButBounds q q')
    (h2 : SameButBounds q' q'') : SameButBounds q q'' :=
  ⟨h2.1.trans h1.1, h2.2.1.trans h1.2.1, h2.2.2.1.trans h1.2.2.1,
    h2.2.2.2.1.trans h1.2.2.2.1, h2.2.2.2.2.trans h1.2.2.2.2⟩

theorem SameButBounds.of_bounds (q : DataPoint α D) (ul : α × α) :
    SameButBounds q (q.set_bounds ul) :=
  ⟨rfl, rfl, rfl, rfl, rfl⟩

theorem forall₂_refl_of {β : Type} (R : β → β → Prop) (hrefl : ∀ x, R x x) (l : List β) :
    List.Forall₂ R l l := by
  induction l with
  | nil => exact List.Forall₂.nil
  | cons x xs ih => exact List.Forall₂.cons (hrefl x) ih

theorem forall₂_map_index_range {β : Type} (R : β → β → Prop) (f : β → β)
    (hrefl : ∀ x, R x x) (hf : ∀ x, R x (f x)) (s e : Nat) (l : List β) :
    List.Forall₂ R l (map_index_range f s e l) := by
  induction l generalizing s e with
  | nil => cases s <;> cases e <;> simp [map_index_range]
  | cons x xs ih =>
    cases s <;> cases e <;> simp only [map_index_range]
    · exact List.Forall₂.cons (hf x) (forall₂_refl_of R hrefl xs)
    · exact List.Forall₂.cons (hf x) (ih _ _)
    · exact forall₂_refl_of R hrefl _
    · exact List.Forall₂.cons (hrefl x) (ih _ _)

theorem forall₂_trans_of {β : Type} (R : β → β → Prop)
    (htrans : ∀ x y z, R x y → R y z → R x z) :
    ∀ {l1 l2 l3 : List β}, List.Forall₂ R l1 l2 → List.Forall₂ R l2 l3 → List.Forall₂ R l1 l3
  | _, _, _, List.Forall₂.nil, List.Forall₂.nil => List.Forall₂.nil
  | _, _, _, List.Forall₂.cons h1 t1, List.Forall₂.cons h2 t2 =>
    List.Forall₂.cons (htrans _ _ _ h1 h2) (forall₂_trans_of R htrans t1 t2)

theorem same_but_bounds_trans {l1 l2 l3 : List (DataPoint α D)}
    (h1 : List.Forall₂ SameButBounds l1 l2) (h2 : List.Forall₂ SameButBounds l2 l3) :
    List.Forall₂ SameButBounds l1 l3 :=
  forall₂_trans_of SameButBounds (fun _ _ _ a b => a.same_trans b) h1 h2

theorem same_but_bounds_map_index_range (f : DataPoint α D → α × α) (s e : Nat)
    (l : List (DataPoint α D)) :
    List.Forall₂ SameButBounds l (map_index_range (fun q => q.set_bounds (f q)) s e l) :=
  forall₂_map_index_range SameButBounds _ SameButBounds.same_refl
    (fun q => SameButBounds.of_bounds q _) s e l

theorem apply_closer_heuristic_cases {G : Type} [AxisDist α G] (l r : TreeNode α D)
    (obj : Fin D → G) :
    apply_closer_heuristic l r obj = (l, r) ∨ apply_closer_heuristic l r obj = (r, l) := by
  unfold apply_closer_heuristic
  split_ifs
  · exact Or.inr rfl
  · exact Or.inl rfl

/-- The recursion bound of `dual_tree` is never reached when it is at least the
number of nodes of the two trees: the call returns, the query node keeps its
shape and the query points change in their bounds only. No invariant of the
trees is needed. -/
theorem dual_tree_total (kd : KernelDensity α D) (kernel : Kernel α D) (flt_max flt_min : α)
    (fuel : Nat) :
    ∀ (Dn Qn : TreeNode α D) (du dl rel_err abs_err : α) (qpts : List (DataPoint α D)),
      Dn.size + Qn.size ≤ fuel →
      ∃ r, dual_tree kd flt_max flt_min fuel Dn Qn kernel du dl rel_err abs_err qpts = some r ∧
        SameShape r.1 Qn ∧ List.Forall₂ SameButBounds qpts r.2 := by
  induction fuel with
  | zero =>
    intro Dn Qn du dl rel_err abs_err qpts hsize
    have := Dn.size_pos
    omega
  | succ fuel ih =>
    intro Dn Qn du dl rel_err abs_err qpts hsize
    have hpair : ∀ (b : Rectangle α D) (s e : Nat) (a : Attributes α) (l r : TreeNode α D)
        (obj : Fin D → Interval α) (Q : TreeNode α D) (du dl : α)
        (pts : List (DataPoint α D)),
        (TreeNode.node b s e a l r).size + Q.size ≤ fuel + 1 →
        ∃ r1 r2,
          dual_tree kd flt_max flt_min fuel (apply_closer_heuristic l r obj).1 Q kernel du dl
            rel_err abs_err pts = some r1 ∧
          dual_tree kd flt_max flt_min fuel (apply_closer_heuristic l r obj).2 r1.1 kernel du dl
            rel_err abs_err r1.2 = some r2 ∧
          SameShape r2.1 Q ∧ List.Forall₂ SameButBounds pts r2.2 := by
      intro b s e a l r obj Q du dl pts hs
      simp only [TreeNode.size] at hs
      have hl := l.size_pos
      have hr := r.size_pos
      rcases apply_closer_heuristic_cases l r obj with h | h
      · rw [h]
        obtain ⟨r1, e1, sh1, p1⟩ := ih l Q du dl rel_err abs_err pts (by omega)
        obtain ⟨r2, e2, sh2, p2⟩ := ih r r1.1 du dl rel_err abs_err r1.2
          (by rw [sh1.facts.1]; omega)
        exact ⟨r1, r2, e1, e2, sh2.trans sh1, same_but_bounds_trans p1 p2⟩
      · rw [h]
        obtain ⟨r1, e1, sh1, p1⟩ := ih r Q du dl rel_err abs_err pts (by omega)
        obtain ⟨r2, e2, sh2, p2⟩ := ih l r1.1 du dl rel_err abs_err r1.2
          (by rw [sh1.facts.1]; omega)
        exact ⟨r1, r2, e1, e2, sh2.trans sh1, same_but_bounds_trans p1 p2⟩
    cases Qn with
    | leaf qb qs qe qa =>
      cases Dn with
      | leaf db ds de da =>
        rw [dual_tree]
        split_ifs with hc
        · refine ⟨_, rfl, ?_, ?_⟩
          · dsimp only
            exact tighten_bounds_node_shape _ _ _ _ _ _
          · exact same_but_bounds_map_index_range _ _ _ _
        · refine ⟨_, rfl, ?_, ?_⟩
          · exact SameShape.set_attr _ (TreeNode.leaf qb qs qe qa)
          · exact same_but_bounds_map_index_range _ _ _ _
      | node db ds de da dleft dright =>
        rw [dual_tree]
        split_ifs with hc
        · refine ⟨_, rfl, ?_, ?_⟩
          · dsimp only
            exact tighten_bounds_node_shape _ _ _ _ _ _
          · exact same_but_bounds_map_index_range _ _ _ _
        · simp only
          generalize (estimate_contributions (TreeNode.node db ds de da dleft dright)
            (TreeNode.leaf qb qs qe qa).bbox_ kernel).1 = du_new
          generalize (estimate_contributions (TreeNode.node db ds de da dleft dright)
            (TreeNode.leaf qb qs qe qa).bbox_ kernel).2 = dl_new
          have sh := tighten_bounds_node_shape (TreeNode.node db ds de da dleft dright)
            (TreeNode.leaf qb qs qe qa) du_new dl_new du dl
          obtain ⟨r1, r2, e1, e2, sh2, p2⟩ := hpair db ds de da dleft dright
            (tighten_bounds_node (TreeNode.node db ds de da dleft dright)
              (TreeNode.leaf qb qs qe qa) du_new dl_new du dl).bbox_
            (tighten_bounds_node (TreeNode.node db ds de da dleft dright)
              (TreeNode.leaf qb qs qe qa) du_new dl_new du dl)
            du_new dl_new qpts (by rw [sh.facts.1]; exact hsize)
          refine ⟨r2, ?_, sh2.trans sh, p2⟩
          rw [e1, Option.some_bind, e2]
    | node qb qs qe qa qleft qright =>
      simp only [TreeNode.size] at hsize
      cases Dn with
      | leaf db ds de da =>
        rw [dual_tree]
        split_ifs with hc
        · refine ⟨_, rfl, ?_, ?_⟩
          · dsimp only
            exact tighten_bounds_node_shape _ _ _ _ _ _
          · exact same_but_bounds_map_index_range _ _ _ _
        · simp only
          generalize (estimate_contributions (TreeNode.leaf db ds de da)
            (TreeNode.node qb qs qe qa qleft qright).bbox_ kernel).1 = du_new
          generalize (estimate_contributions (TreeNode.leaf db ds de da)
            (TreeNode.node qb qs qe qa qleft qright).bbox_ kernel).2 = dl_new
          have shl := tighten_bounds_node_shape (TreeNode.leaf db ds de da) qleft
            du_new dl_new du dl
          have shr := tighten_bounds_node_shape (TreeNode.leaf db ds de da) qright
            du_new dl_new du dl
          obtain ⟨r1, e1, sh1, p1⟩ := ih (TreeNode.leaf db ds de da)
            (tighten_bounds_node (TreeNode.leaf db ds de da) qleft du_new dl_new du dl)
            du_new dl_new rel_err abs_err qpts
            (by rw [shl.facts.1]; simp only [TreeNode.size] at *; omega)
          obtain ⟨r2, e2, sh2, p2⟩ := ih (TreeNode.leaf db ds de da)
            (tighten_bounds_node (TreeNode.leaf db ds de da) qright du_new dl_new du dl)
            du_new dl_new rel_err abs_err r1.2
            (by rw [shr.facts.1]; simp only [TreeNode.size] at *; omega)
          refine ⟨_, by rw [e1, Option.some_bind, e2, Option.some_bind],
            SameShape.node _ _ _ _ _ (sh1.trans shl) (sh2.trans shr), ?_⟩
          exact same_but_bounds_trans p1 p2
      | node db ds de da dleft dright =>
        rw [dual_tree]
        split_ifs with hc
        · refine ⟨_, rfl, ?_, ?_⟩
          · dsimp only
            exact tighten_bounds_node_shape _ _ _ _ _ _
          · exact same_but_bounds_map_index_range _ _ _ _
        · simp only
          generalize (estimate_contributions (TreeNode.node db ds de da dleft dright)
            (TreeNode.node qb qs qe qa qleft qright).bbox_ kernel).1 = du_new
          generalize (estimate_contributions (TreeNode.node db ds de da dleft dright)
            (TreeNode.node qb qs qe qa qleft qright).bbox_ kernel).2 = dl_new
          have shl := tighten_bounds_node_shape (TreeNode.node db ds de da dleft dright) qleft
            du_new dl_new du dl
          have shr := tighten_bounds_node_shape (TreeNode.node db ds de da dleft dright) qright
            du_new dl_new du dl
          obtain ⟨r1, r2, e1, e2, sh2, p2⟩ := hpair db ds de da dleft dright
            (tighten_bounds_node (TreeNode.node db ds de da dleft dright) qleft
              du_new dl_new du dl).bbox_
            (tighten_bounds_node (TreeNode.node db ds de da dleft dright) qleft
              du_new dl_new du dl)
            du_new dl_new qpts (by rw [shl.facts.1]; simp only [TreeNode.size] at *; omega)
          obtain ⟨r3, r4, e3, e4, sh4, p4⟩ := hpair db ds de da dleft dright
            (tighten_bounds_node (TreeNode.node db ds de da dleft dright) qright
              du_new dl_new du dl).bbox_
            (tighten_bounds_node (TreeNode.node db ds de da dleft dright) qright
              du_new dl_new du dl)
            du_new dl_new r2.2 (by rw [shr.facts.1]; simp only [TreeNode.size] at *; omega)
          refine ⟨_, by rw [e1, Option.some_bind, e2, Option.some_bind, e3, Option.some_bind,
            e4, Option.some_bind], SameShape.node _ _ _ _ _ (sh2.trans shl) (sh4.trans shr), ?_⟩
          exact same_but_bounds_trans p2 p4

/-! ## The tree overload of `eval` returns -/

theorem forall₂_map_right_of {β : Type} (R : β → β → Prop) (f : β → β) (hf : ∀ x, R x (f x))
    (l : List β) : List.Forall₂ R l (l.map f) := by
  induction l with
  | nil => exact List.Forall₂.nil
  | cons x xs ih => exact List.Forall₂.cons (hf x) ih

/-- The tree overload of `eval` always returns; the query tree keeps its shape and
the query points change in their bounds only. -/
theorem eval_tree_total (kd : KernelDensity α D) (flt_max flt_min : α)
    (query_tree : Kdtree α D) (kernel : Kernel α D) (rel_err abs_err : α) :
    ∃ t, eval_tree kd flt_max flt_min query_tree kernel rel_err abs_err = some t ∧
      SameShape t.root_ query_tree.root_ ∧
      List.Forall₂ SameButBounds query_tree.points_ t.points_ := by
  obtain ⟨r, e, sh, p⟩ := dual_tree_total kd kernel flt_max flt_min
    (kd.data_tree_.root_.size + (refresh_node_attributes (query_tree.points_.map fun q =>
      { q with attributes :=
          { q.attributes with lower := 0, upper := kd.data_tree_.root_.attr_.mass } })
      query_tree.root_).size)
    kd.data_tree_.root_ (refresh_node_attributes (query_tree.points_.map fun q =>
      { q with attributes :=
          { q.attributes with lower := 0, upper := kd.data_tree_.root_.attr_.mass } })
      query_tree.root_) 1 0 rel_err (abs_err / kernel.normalization)
    (query_tree.points_.map fun q =>
      { q with attributes :=
          { q.attributes with lower := 0, upper := kd.data_tree_.root_.attr_.mass } })
    (le_refl _)
  refine ⟨_, by unfold eval_tree; simp only; rw [e, Option.some_bind],
    sh.trans (refresh_node_attributes_shape _ _), ?_⟩
  refine same_but_bounds_trans (same_but_bounds_trans ?_ p) ?_
  · exact forall₂_map_right_of _ _ (fun q => ⟨rfl, rfl, rfl, rfl, rfl⟩) _
  · exact forall₂_map_right_of _ _ (fun q => ⟨rfl, rfl, rfl, rfl, rfl⟩) _

/-! ## Adaptation -/

theorem refresh_fold_weight (a : Attributes α) (ps : List (DataPoint α D)) :
    (ps.foldl
      (fun (acc : Attributes α) (q : DataPoint α D) =>
        { acc with
          mass := acc.mass + q.attributes.mass
          lower := min acc.lower q.attributes.lower
          upper := max acc.upper q.attributes.upper
          lower_abw := min acc.lower_abw q.attributes.abw
          upper_abw := max acc.upper_abw q.attributes.abw }) a).weight = a.weight := by
  induction ps generalizing a with
  | nil => rfl
  | cons p ps ih => rw [List.foldl_cons, ih]

/-- Refreshing the node aggregates twice from the same points is refreshing them once. -/
theorem refresh_node_attributes_idem (pts : List (DataPoint α D)) (n : TreeNode α D) :
    refresh_node_attributes pts (refresh_node_attributes pts n) =
      refresh_node_attributes pts n := by
  induction n with
  | leaf b s e a =>
    cases h : index_range pts s e with
    | nil =>
      simp only [refresh_node_attributes, h]
    | cons p ps =>
      simp only [refresh_node_attributes, h]
      congr 2
      rw [refresh_fold_weight (D := D)]
  | node b s e a l r ihl ihr =>
    simp only [refresh_node_attributes, ihl, ihr]

theorem unadapt_density_idem (kd : KernelDensity α D) :
    unadapt_density (unadapt_density kd) = unadapt_density kd := by
  unfold unadapt_density
  simp only [List.map_map, Function.comp_def, refresh_node_attributes_idem]

/-- What `adapt_density` does for `alpha` in `(0, 1]`, in terms of the pilot
estimates `t` of the self-evaluation. -/
theorem adapt_density_eq (cmath : Cmath α) (flt_max flt_min : α) (kd : KernelDensity α D)
    (alpha rel_err abs_err : α) (h0 : 0 < alpha) (h1 : alpha ≤ 1) :
    ∃ t, eval_tree (unadapt_density kd) flt_max flt_min (unadapt_density kd).data_tree_
        kd.kernel_ rel_err abs_err = some t ∧
      List.Forall₂ SameButBounds (unadapt_density kd).data_tree_.points_ t.points_ ∧
      adapt_density cmath flt_max flt_min kd alpha rel_err abs_err =
        some (.ok (), adapt_density_update cmath (unadapt_density kd) t alpha) := by
  obtain ⟨t, et, -, pt⟩ := eval_tree_total (unadapt_density kd) flt_max flt_min
    (unadapt_density kd).data_tree_ kd.kernel_ rel_err abs_err
  refine ⟨t, et, pt, ?_⟩
  have hk : (unadapt_density kd).kernel_ = kd.kernel_ := rfl
  unfold adapt_density
  rw [if_neg (by rw [not_or, not_lt, not_lt]; exact ⟨le_of_lt h0, h1⟩)]
  simp only
  rw [if_neg (ne_of_gt h0), hk, et, Option.some_bind]

/-! ## Construction: weights and cumulative weights -/

theorem initialize_attributes_eq (pts : List (DataPoint α D)) :
    initialize_attributes pts = pts.map fun p =>
      { p with attributes :=
          { p.attributes with
            weight := p.attributes.weight / (pts.map fun p => p.attributes.weight).sum
            mass := p.attributes.weight / (pts.map fun p => p.attributes.weight).sum *
              p.attributes.abw ^ (-(D : ℤ)) } } := by
  simp only [initialize_attributes, normalize_weights, List.map_map, Function.comp_def,
    foldl_add_sum, zero_add, Attributes.abw]

theorem initialize_attributes_weight_sum (pts : List (DataPoint α D)) :
    ((initialize_attributes pts).map fun p => p.attributes.weight).sum =
      (pts.map fun p => p.attributes.weight).sum / (pts.map fun p => p.attributes.weight).sum := by
  rw [initialize_attributes_eq, List.map_map]
  exact sum_map_div (fun p : DataPoint α D => p.attributes.weight) _ pts

theorem sum_nonneg_of_forall {β : Type} (f : β → α) (l : List β) (h : ∀ x ∈ l, 0 ≤ f x) :
    0 ≤ (l.map f).sum := by
  induction l with
  | nil => simp
  | cons x xs ih =>
    simp only [List.map_cons, List.sum_cons]
    exact add_nonneg (h x (List.mem_cons_self _ _))
      (ih fun y hy => h y (List.mem_cons_of_mem _ hy))

/-- The loop of `initialize_cum_weights`: the running sum and the list of the
running sums. -/
theorem cum_weights_fold (pts : List (DataPoint α D)) :
    (pts.foldl (fun (acc : α × List α) p =>
        (acc.1 + p.attributes.weight, acc.2 ++ [acc.1 + p.attributes.weight])) (0, [])).1 =
      (pts.map fun p => p.attributes.weight).sum ∧
    (pts.foldl (fun (acc : α × List α) p =>
        (acc.1 + p.attributes.weight, acc.2 ++ [acc.1 + p.attributes.weight])) (0, [])).2.length =
      pts.length ∧
    ∀ i, i < pts.length →
      (pts.foldl (fun (acc : α × List α) p =>
        (acc.1 + p.attributes.weight, acc.2 ++ [acc.1 + p.attributes.weight])) (0, [])).2[i]? =
      some ((pts.take (i + 1)).map fun p => p.attributes.weight).sum := by
  induction pts using List.reverseRecOn with
  | nil => simp
  | append_singleton xs x ih =>
    obtain ⟨h1, h2, h3⟩ := ih
    rw [List.foldl_append, List.foldl_cons, List.foldl_nil]
    refine ⟨?_, ?_, ?_⟩
    · simp only [h1, List.map_append, List.sum_append, List.map_cons, List.map_nil,
        List.sum_cons, List.sum_nil, add_zero]
    · simp only [List.length_append, h2, List.length_cons, List.length_nil]
    · intro i hi
      simp only [List.length_append, List.length_cons, List.length_nil] at hi
      by_cases hlt : i < xs.length
      · rw [List.getElem?_append_left (by rw [h2]; exact hlt), h3 i hlt,
          List.take_append_of_le_length (by omega)]
      · have hie : i = xs.length := by omega
        subst hie
        rw [List.getElem?_append_right (by rw [h2]), h2, Nat.sub_self,
          List.take_of_length_le (by simp)]
        simp only [List.getElem?_cons_zero, h1, List.map_append, List.sum_append, List.map_cons,
          List.map_nil, List.sum_cons, List.sum_nil, add_zero]

theorem prefix_sum_mono (ws : List α) (h : ∀ w ∈ ws, 0 ≤ w) (i j : Nat) (hij : i ≤ j) :
    (ws.take i).sum ≤ (ws.take j).sum := by
  have hsplit : ws.take j = ws.take i ++ (ws.take j).drop i := by
    have := List.take_append_drop i (ws.take j)
    rw [List.take_take, min_eq_left hij] at this
    exact this.symm
  rw [hsplit, List.sum_append]
  have : 0 ≤ ((ws.take j).drop i).sum := by
    have := sum_nonneg_of_forall (fun w : α => w) ((ws.take j).drop i)
      (fun w hw => h w (List.mem_of_mem_take (List.mem_of_mem_drop hw)))
    simpa using this
  linarith

/-- The entries of `initialize_cum_weights` for points with non-negative weights
of total at most one. -/
theorem initialize_cum_weights_spec (t : Kdtree α D) (hne : t.points_ ≠ [])
    (hnn : ∀ p ∈ t.points_, 0 ≤ p.attributes.weight)
    (hle : (t.points_.map fun p => p.attributes.weight).sum ≤ 1) :
    (initialize_cum_weights t).length = t.points_.length ∧
    (∀ i, i + 1 < t.points_.length →
      (initialize_cum_weights t)[i]? =
        some ((t.points_.take (i + 1)).map fun p => p.attributes.weight).sum) ∧
    NonDecreasing (initialize_cum_weights t) ∧
    (initialize_cum_weights t).getLast? = some 1 := by
  obtain ⟨-, h2, h3⟩ := cum_weights_fold t.points_
  have hpos : 0 < t.points_.length := List.length_pos.mpr hne
  have hsz : t.size ≠ 0 := by unfold Kdtree.size; omega
  unfold initialize_cum_weights
  simp only [hsz, ne_eq, not_false_eq_true, if_true]
  unfold Kdtree.size
  generalize hl : (t.points_.foldl (fun (acc : α × List α) p =>
    (acc.1 + p.attributes.weight, acc.2 ++ [acc.1 + p.attributes.weight])) (0, [])).2 = l
    at h2 h3 ⊢
  have hget : ∀ i, (l.set (t.points_.length - 1) 1)[i]? =
      if i = t.points_.length - 1 then some 1
      else if i < t.points_.length then
        some ((t.points_.take (i + 1)).map fun p => p.attributes.weight).sum
      else none := by
    intro i
    rw [List.getElem?_set]
    by_cases hi : t.points_.length - 1 = i
    · rw [if_pos hi, if_pos (by rw [h2]; omega), if_pos hi.symm]
    · rw [if_neg hi, if_neg (Ne.symm hi)]
      by_cases hlt : i < t.points_.length
      · rw [if_pos hlt, h3 i hlt]
      · rw [if_neg hlt]
        exact List.getElem?_eq_none (by rw [h2]; omega)
  refine ⟨by rw [List.length_set, h2], ?_, ?_, ?_⟩
  · intro i hi
    rw [hget, if_neg (by omega), if_pos (by omega)]
  · intro i j a b hij ha hb
    rw [hget] at ha hb
    have hmono := prefix_sum_mono (t.points_.map fun p => p.attributes.weight)
      (fun w hw => by
        obtain ⟨p, hp, rfl⟩ := List.mem_map.mp hw
        exact hnn p hp)
    by_cases hj : j = t.points_.length - 1
    · rw [if_pos hj] at hb
      cases hb
      by_cases hi : i = t.points_.length - 1
      · rw [if_pos hi] at ha
        cases ha
        exact le_refl _
      · rw [if_neg hi, if_pos (by omega)] at ha
        cases ha
        rw [List.map_take]
        refine le_trans (hmono (i + 1) t.points_.length (by omega)) ?_
        rw [List.take_of_length_le (by simp)]
        exact hle
    · rw [if_neg hj] at hb
      by_cases hjl : j < t.points_.length
      · rw [if_pos hjl] at hb
        cases hb
        rw [if_neg (by omega), if_pos (by omega)] at ha
        cases ha
        rw [List.map_take, List.map_take]
        exact hmono (i + 1) (j + 1) (by omega)
      · rw [if_neg hjl] at hb
        cases hb
  · rw [List.getLast?_eq_getElem?, List.length_set, h2, hget, if_pos rfl]

/-! ## The search of `simulate` -/

theorem getD_eq_of_lt (l : List α) (i : Nat) (h : i < l.length) :
    l[i]? = some (l.getD i 0) := by
  rw [List.getD_eq_getElem?_getD, List.getElem?_eq_getElem h]
  rfl

/-- The loop of `std::upper_bound` on a non-decreasing list keeps the entries
before `first` at most `val` and those from `first + len` on above `val`. -/
theorem upper_bound_loop_spec (l : List α) (val : α) (hs : NonDecreasing l) :
    ∀ (len first : Nat), first + len ≤ l.length →
      (∀ j, j < first → l.getD j 0 ≤ val) →
      (∀ j, first + len ≤ j → j < l.length → val < l.getD j 0) →
      first ≤ upper_bound_loop l val first len ∧
      upper_bound_loop l val first len ≤ first + len ∧
      (∀ j, j < upper_bound_loop l val first len → l.getD j 0 ≤ val) ∧
      (∀ j, upper_bound_loop l val first len ≤ j → j < l.length → val < l.getD j 0) := by
  intro len
  induction len using Nat.strong_induction_on with
  | _ len ih =>
    intro first hlen hlo hhi
    rw [upper_bound_loop]
    by_cases hpos : 0 < len
    · rw [if_pos hpos]
      simp only
      have hhalf : len / 2 < len := Nat.div_lt_self hpos (by norm_num)
      have hmid : first + len / 2 < l.length := by omega
      by_cases hc : val < l.getD (first + len / 2) 0
      · rw [if_pos hc]
        obtain ⟨a1, a2, a3, a4⟩ := ih (len / 2) hhalf first (by omega) hlo
          (fun j hj hjl => lt_of_lt_of_le hc
            (hs _ _ _ _ hj (getD_eq_of_lt l _ hmid) (getD_eq_of_lt l _ hjl)))
        exact ⟨a1, by omega, a3, a4⟩
      · rw [if_neg hc]
        obtain ⟨a1, a2, a3, a4⟩ := ih (len - len / 2 - 1) (by omega) (first + len / 2 + 1)
          (by omega)
          (fun j hj => le_trans
            (hs _ _ _ _ (by omega : j ≤ first + len / 2) (getD_eq_of_lt l _ (by omega))
              (getD_eq_of_lt l _ hmid)) (not_lt.mp hc))
          (fun j hj hjl => hhi j (by omega) hjl)
        exact ⟨by omega, by omega, a3, a4⟩
    · rw [if_neg hpos]
      have : len = 0 := by omega
      subst this
      exact ⟨le_refl _, by omega, hlo, fun j hj hjl => hhi j (by omega) hjl⟩

/-- On a non-decreasing list `std::upper_bound` finds the smallest index whose
entry is above `val`, or the length of the list when there is none. -/
theorem upper_bound_spec (l : List α) (val : α) (hs : NonDecreasing l) :
    upper_bound l val ≤ l.length ∧
    (∀ j, j < upper_bound l val → l.getD j 0 ≤ val) ∧
    (∀ j, upper_bound l val ≤ j → j < l.length → val < l.getD j 0) := by
  obtain ⟨-, a2, a3, a4⟩ := upper_bound_loop_spec l val hs l.length 0 (by omega)
    (fun j hj => absurd hj (Nat.not_lt_zero j)) (fun j hj hjl => absurd hjl (by omega))
  exact ⟨by simpa using a2, a3, a4⟩

/-! ## The update of `adapt_density` -/

theorem pilot_fold_eq (cmath : Cmath α) (pts tpts : List (DataPoint α D)) :
    cmath.exp ((List.zip pts (tpts.map fun q => q.attributes.value)).foldl
      (fun g pb => g + pb.1.attributes.weight * cmath.log pb.2) 0) =
    geometric_mean_pilot cmath (pts.map fun p => p.attributes.weight)
      (tpts.map fun q => q.attributes.value) := by
  unfold geometric_mean_pilot
  rw [foldl_add_sum, zero_add]
  congr 2
  induction pts generalizing tpts with
  | nil => simp
  | cons p ps ih =>
    cases tpts with
    | nil => simp
    | cons q qs => simp [ih]

/-- The reference points after the update of `adapt_density`, index by index. -/
theorem adapt_density_update_getElem? (cmath : Cmath α) (kd : KernelDensity α D)
    (t : Kdtree α D) (alpha : α)
    (hl : kd.data_tree_.points_.length = t.points_.length) (i : Nat) (p : DataPoint α D)
    (hp : kd.data_tree_.points_[i]? = some p) :
    ∃ q : DataPoint α D, t.points_[i]? = some q ∧
      (adapt_density_update cmath kd t alpha).data_tree_.points_[i]? =
        some (p.set_abw (cmath.pow (q.attributes.value /
          geometric_mean_pilot cmath (kd.data_tree_.points_.map fun p => p.attributes.weight)
            (t.points_.map fun q => q.attributes.value)) (-alpha))) := by
  have hi : i < kd.data_tree_.points_.length := by
    by_contra h
    rw [List.getElem?_eq_none (by omega)] at hp
    exact Option.noConfusion hp
  refine ⟨t.points_[i], List.getElem?_eq_getElem (by omega), ?_⟩
  unfold adapt_density_update
  simp only [List.getElem?_zipWith, hp, List.getElem?_map,
    List.getElem?_eq_getElem (by omega : i < t.points_.length), Option.map_some', pilot_fold_eq]

theorem adapt_density_update_length (cmath : Cmath α) (kd : KernelDensity α D)
    (t : Kdtree α D) (alpha : α)
    (hl : kd.data_tree_.points_.length = t.points_.length) :
    (adapt_density_update cmath kd t alpha).data_tree_.points_.length =
      kd.data_tree_.points_.length := by
  unfold adapt_density_update
  simp only [List.length_zipWith, List.length_map, hl, min_self]

theorem adapt_density_at_zero (cmath : Cmath α) (flt_max flt_min : α) (kd : KernelDensity α D)
    (rel_err abs_err : α) :
    adapt_density cmath flt_max flt_min kd 0 rel_err abs_err =
      some (.ok (), unadapt_density kd) := by
  unfold adapt_density
  rw [if_neg (by rw [not_or, not_lt, not_lt]; exact ⟨le_refl _, zero_le_one⟩)]
  simp only [if_true]

theorem map_zipWith_set_abw {β : Type} (f : DataPoint α D → β)
    (hf : ∀ p bw, f (p.set_abw bw) = f p) (pts : List (DataPoint α D)) (bws : List α)
    (hl : pts.length = bws.length) :
    (List.zipWith DataPoint.set_abw pts bws).map f = pts.map f := by
  induction pts generalizing bws with
  | nil => simp
  | cons p ps ih =>
    cases bws with
    | nil => simp at hl
    | cons b bs =>
      simp only [List.zipWith_cons_cons, List.map_cons, hf]
      rw [ih bs (by simpa using hl)]

/-- The weighted sum of the logarithms of the local bandwidth corrections
`pow(f / g, -alpha)`. -/
theorem log_bandwidth_sum (cmath : Cmath α) (g alpha : α) (hg : 0 < g)
    (hdiv : ∀ x y, 0 < x → 0 < y → cmath.log (x / y) = cmath.log x - cmath.log y)
    (hpow : ∀ x y, 0 < x → cmath.log (cmath.pow x y) = y * cmath.log x)
    (ws fs : List α) (hl : ws.length = fs.length) (hf : ∀ f ∈ fs, 0 < f) :
    (List.zipWith (fun w f => w * cmath.log (cmath.pow (f / g) (-alpha))) ws fs).sum =
      -alpha * ((List.zipWith (fun w f => w * cmath.log f) ws fs).sum -
        cmath.log g * ws.sum) := by
  induction ws generalizing fs with
  | nil => simp
  | cons w ws ih =>
    cases fs with
    | nil => simp at hl
    | cons f fs =>
      have hf0 : 0 < f := hf f (List.mem_cons_self _ _)
      simp only [List.zipWith_cons_cons, List.sum_cons]
      rw [ih fs (by simpa using hl) (fun x hx => hf x (List.mem_cons_of_mem _ hx)),
        hpow _ _ (div_pos hf0 hg), hdiv _ _ hf0 hg]
      ring

/-- After the update of `adapt_density` the weighted sum of the logarithms of the
local bandwidth corrections is zero, when the weights sum to one and the pilot
values are positive. -/
theorem adapt_density_update_log_sum (cmath : Cmath α)
    (hlog_exp : ∀ x, cmath.log (cmath.exp x) = x) (hexp : ∀ x, 0 < cmath.exp x)
    (hdiv : ∀ x y, 0 < x → 0 < y → cmath.log (x / y) = cmath.log x - cmath.log y)
    (hpow : ∀ x y, 0 < x → cmath.log (cmath.pow x y) = y * cmath.log x)
    (kd : KernelDensity α D) (t : Kdtree α D) (alpha : α)
    (hl : kd.data_tree_.points_.length = t.points_.length)
    (hw : (kd.data_tree_.points_.map fun p => p.attributes.weight).sum = 1)
    (hpos : ∀ q ∈ t.points_, 0 < q.attributes.value) :
    ((adapt_density_update cmath kd t alpha).data_tree_.points_.map fun p =>
      p.attributes.weight * cmath.log p.attributes.abw).sum = 0 := by
  unfold adapt_density_update
  simp only [pilot_fold_eq, List.map_zipWith, DataPoint.set_abw, Attributes.abw,
    List.zipWith_map_right]
  have h := log_bandwidth_sum cmath
    (geometric_mean_pilot cmath (kd.data_tree_.points_.map fun p => p.attributes.weight)
      (t.points_.map fun q => q.attributes.value)) alpha (hexp _) hdiv hpow
    (kd.data_tree_.points_.map fun p => p.attributes.weight)
    (t.points_.map fun q => q.attributes.value)
    (by rw [List.length_map, List.length_map, hl])
    (by
      intro f hf
      obtain ⟨q, hq, rfl⟩ := List.mem_map.mp hf
      exact hpos q hq)
  rw [hw] at h
  have hg : cmath.log (geometric_mean_pilot cmath
      (kd.data_tree_.points_.map fun p => p.attributes.weight)
      (t.points_.map fun q => q.attributes.value)) =
      (List.zipWith (fun w f => w * cmath.log f)
        (kd.data_tree_.points_.map fun p => p.attributes.weight)
        (t.points_.map fun q => q.attributes.value)).sum := hlog_exp _
  rw [hg, mul_one, sub_self, mul_zero] at h
  rw [← h]
  congr 1
  simp only [List.zipWith_map_left, List.zipWith_map_right]

theorem unadapt_density_weights (kd : KernelDensity α D) :
    ((unadapt_density kd).data_tree_.points_.map fun p => p.attributes.weight) =
      kd.data_tree_.points_.map fun p => p.attributes.weight := by
  simp only [unadapt_density, List.map_map, Function.comp_def]

/-! ## Rectangles -/

theorem min_dist_sq_eq_sum {G : Type} [AxisDist α G] (r : Rectangle α D) (g : Fin D → G) :
    r.min_dist_sq g = ∑ i : Fin D, (AxisDist.min_dist (r i) (g i) : α) ^ 2 := by
  unfold Rectangle.min_dist_sq
  rw [foldl_add_sum, zero_add, Fin.sum_univ_def]
  congr 1
  exact List.map_congr_left (fun i _ => (sq _).symm)

theorem max_dist_sq_eq_sum {G : Type} [AxisDist α G] (r : Rectangle α D) (g : Fin D → G) :
    r.max_dist_sq g = ∑ i : Fin D, (AxisDist.max_dist (r i) (g i) : α) ^ 2 := by
  unfold Rectangle.max_dist_sq
  rw [foldl_add_sum, zero_add, Fin.sum_univ_def]
  congr 1
  exact List.map_congr_left (fun i _ => (sq _).symm)

theorem minmax_eq (a b : α) : minmax a b = (min a b, max a b) := by
  unfold minmax
  split_ifs with h
  · rw [min_eq_right (le_of_lt h), max_eq_left (le_of_lt h)]
  · rw [min_eq_left (not_lt.mp h), max_eq_right (not_lt.mp h)]

/-- A successful halfspace split replaces the edge `d` and keeps the others. -/
theorem halfspace_ok (r : Rectangle α D) (d : Fin D) (v : α) (h : (r d).contains v = true) :
    (r.lower_halfspace d v).1 =
      .ok (fun i => if i = d then { lower := (r d).lower, upper := v } else r i) ∧
    (r.upper_halfspace d v).1 =
      .ok (fun i => if i = d then { lower := v, upper := (r d).upper } else r i) := by
  unfold Rectangle.lower_halfspace Rectangle.upper_halfspace Rectangle.resize
  simp [h]

theorem halfspace_ok_iff (r r' : Rectangle α D) (d : Fin D) (v : α) :
    ((r.lower_halfspace d v).1 = .ok r' ↔ (r d).contains v = true ∧
      r' = fun i => if i = d then { lower := (r d).lower, upper := v } else r i) ∧
    ((r.upper_halfspace d v).1 = .ok r' ↔ (r d).contains v = true ∧
      r' = fun i => if i = d then { lower := v, upper := (r d).upper } else r i) := by
  unfold Rectangle.lower_halfspace Rectangle.upper_halfspace Rectangle.resize
  cases h : (r d).contains v
  · simp
  · simp [eq_comm]

theorem interval_contains_iff (I : Interval α) (v : α) :
    I.contains v = true ↔ I.lower ≤ v ∧ v ≤ I.upper := by
  simp [Interval.contains]

/-- The rectangle returned by a halfspace split of a rectangle with valid edges
lies inside it, edge by edge. -/
theorem halfspace_within (r r' : Rectangle α D) (d : Fin D) (v : α)
    (hr : ∀ i, (r i).lower ≤ (r i).upper)
    (h : (r.lower_halfspace d v).1 = .ok r' ∨ (r.upper_halfspace d v).1 = .ok r') :
    ∀ i, (r' i).Within (r i) := by
  intro i
  rcases h with h | h
  · obtain ⟨hc, rfl⟩ := (halfspace_ok_iff r r' d v).1.mp h
    have hc := (interval_contains_iff _ _).mp hc
    by_cases hi : i = d
    · subst hi
      simp only [if_true]
      exact ⟨le_refl _, hc.1, hc.2⟩
    · simp only [if_neg hi]
      exact ⟨le_refl _, hr i, le_refl _⟩
  · obtain ⟨hc, rfl⟩ := (halfspace_ok_iff r r' d v).2.mp h
    have hc := (interval_contains_iff _ _).mp hc
    by_cases hi : i = d
    · subst hi
      simp only [if_true]
      exact ⟨hc.1, hc.2, le_refl _⟩
    · simp only [if_neg hi]
      exact ⟨le_refl _, hr i, le_refl _⟩

/-! ## Lexicographic comparison -/

theorem Point.read_of_lt (p : Point α D) (i : Nat) (h : i < D) : p.read i = some (p ⟨i, h⟩) := by
  unfold Point.read
  rw [dif_pos h]

/-- The loop of `LexCompare` stops at the first index at which the two points differ,
or at the dimension. -/
theorem LexCompare_loop_spec (l r : Point α D) :
    ∀ (n i : Nat), D - i = n → i ≤ D → (∀ j : Fin D, j.val < i → l j = r j) →
      ∃ k, LexCompare_loop l r i = some k ∧ i ≤ k ∧ k ≤ D ∧
        (∀ j : Fin D, j.val < k → l j = r j) ∧ (∀ h : k < D, l ⟨k, h⟩ ≠ r ⟨k, h⟩) := by
  intro n
  induction n with
  | zero =>
    intro i hn hi hpre
    have : i = D := by omega
    subst this
    rw [LexCompare_loop, if_neg (lt_irrefl _)]
    exact ⟨_, rfl, le_refl _, le_refl _, hpre, fun h => absurd h (lt_irrefl _)⟩
  | succ n ih =>
    intro i hn hi hpre
    have hlt : i < D := by omega
    rw [LexCompare_loop, if_pos hlt, Point.read_of_lt l i hlt, Point.read_of_lt r i hlt]
    simp only
    by_cases heq : l ⟨i, hlt⟩ = r ⟨i, hlt⟩
    · rw [if_pos heq]
      obtain ⟨k, hk, h1, h2, h3, h4⟩ := ih (i + 1) (by omega) (by omega) (by
        intro j hj
        by_cases hji : j.val = i
        · have : j = ⟨i, hlt⟩ := Fin.ext hji
          rw [this]; exact heq
        · exact hpre j (by omega))
      exact ⟨k, hk, by omega, h2, h3, h4⟩
    · rw [if_neg heq]
      exact ⟨i, rfl, le_refl _, hi, hpre, fun _ => heq⟩

/-- The function `LexCompare` returns, and its answer is the strict lexicographic
order of the two points. -/
theorem LexCompare_eq (l r : Point α D) :
    LexCompare l r = some (decide (∃ i : Fin D, (∀ j : Fin D, j < i → l j = r j) ∧ l i < r i)) := by
  obtain ⟨k, hk, -, h2, h3, h4⟩ := LexCompare_loop_spec l r D 0 rfl (Nat.zero_le _)
    (fun j hj => absurd hj (Nat.not_lt_zero _))
  unfold LexCompare
  rw [hk, Option.some_bind]
  by_cases hkD : k = D
  · subst hkD
    rw [if_neg (by simp)]
    congr 1
    symm
    rw [decide_eq_false_iff_not]
    rintro ⟨i, -, hi⟩
    exact absurd (h3 i i.isLt) (ne_of_lt hi)
  · have hlt : k < D := by omega
    rw [if_pos hkD, Point.read_of_lt l k hlt, Point.read_of_lt r k hlt]
    simp only
    congr 1
    rw [decide_eq_decide]
    constructor
    · intro h
      exact ⟨⟨k, hlt⟩, fun j hj => h3 j hj, h⟩
    · rintro ⟨i, hpre, hi⟩
      have hik : i.val = k := by
        rcases Nat.lt_trichotomy i.val k with h | h | h
        · exact absurd (h3 i h) (ne_of_lt hi)
        · exact h
        · exact absurd (hpre ⟨k, hlt⟩ h) (h4 hlt)
      have : i = ⟨k, hlt⟩ := Fin.ext hik
      rw [← this]
      exact hi

theorem LexCompare_true_iff (l r : Point α D) :
    LexCompare l r = some true ↔ ∃ i : Fin D, (∀ j : Fin D, j < i → l j = r j) ∧ l i < r i := by
  rw [LexCompare_eq]
  simp only [Option.some.injEq, decide_eq_true_eq]

theorem LexCompare_total (l r : Point α D) :
    LexCompare l r = some true ∨ LexCompare l r = some false := by
  rw [LexCompare_eq]
  cases decide (∃ i : Fin D, (∀ j : Fin D, j < i → l j = r j) ∧ l i < r i)
  · exact Or.inr rfl
  · exact Or.inl rfl

theorem LexCompare_false_of_not (l r : Point α D)
    (h : ¬ ∃ i : Fin D, (∀ j : Fin D, j < i → l j = r j) ∧ l i < r i) :
    LexCompare l r = some false := by
  rcases LexCompare_total l r with h' | h'
  · exact absurd ((LexCompare_true_iff l r).mp h') h
  · exact h'

/-- The strict lexicographic order of points is transitive. -/
theorem lex_before_trans (l r s : Point α D)
    (h1 : ∃ i : Fin D, (∀ j : Fin D, j < i → l j = r j) ∧ l i < r i)
    (h2 : ∃ i : Fin D, (∀ j : Fin D, j < i → r j = s j) ∧ r i < s i) :
    ∃ i : Fin D, (∀ j : Fin D, j < i → l j = s j) ∧ l i < s i := by
  obtain ⟨i, hi, hlt⟩ := h1
  obtain ⟨k, hk, hlt2⟩ := h2
  rcases lt_trichotomy i k with h | h | h
  · exact ⟨i, fun j hj => (hi j hj).trans (hk j (lt_trans hj h)), by rw [← hk i h]; exact hlt⟩
  · subst h
    exact ⟨i, fun j hj => (hi j hj).trans (hk j hj), lt_trans hlt hlt2⟩
  · exact ⟨k, fun j hj => (hi j (lt_trans hj h)).trans (hk j hj), by rw [hi k h]; exact hlt2⟩

/-- The strict lexicographic order of points is irreflexive. -/
theorem lex_before_irrefl (l : Point α D) :
    ¬ ∃ i : Fin D, (∀ j : Fin D, j < i → l j = l j) ∧ l i < l i := by
  rintro ⟨i, -, h⟩
  exact lt_irrefl _ h

/-- Two different points are ordered one way or the other. -/
theorem lex_before_trichotomy (l r : Point α D) (hne : l ≠ r) :
    (∃ i : Fin D, (∀ j : Fin D, j < i → l j = r j) ∧ l i < r i) ∨
    (∃ i : Fin D, (∀ j : Fin D, j < i → r j = l j) ∧ r i < l i) := by
  have h := (Pi.isTrichotomous_lex (fun a b : Fin D => a < b) (fun (a b : α) => a < b)
    wellFounded_lt).trichotomous l r
  rcases h with h | h | h
  · exact Or.inl h
  · exact absurd h hne
  · exact Or.inr h

/-! ## Cross validation -/

theorem foldl_zip_add_sum {β γ : Type} (f : β → γ → α) (l1 : List β) (l2 : List γ) (init : α) :
    (List.zip l1 l2).foldl (fun acc qp => acc + f qp.1 qp.2) init =
      init + (List.zipWith f l1 l2).sum := by
  induction l1 generalizing l2 init with
  | nil => simp
  | cons x xs ih =>
    cases l2 with
    | nil => simp
    | cons y ys =>
      simp only [List.zip_cons_cons, List.foldl_cons, List.zipWith_cons_cons, List.sum_cons]
      rw [ih, add_assoc]

/-- The points of an evaluated tree sit at the indices of the points of the query tree. -/
theorem forall₂_same_getElem? {l l' : List (DataPoint α D)}
    (h : List.Forall₂ SameButBounds l l') (i : Nat) (p : DataPoint α D)
    (hp : l[i]? = some p) : ∃ q, l'[i]? = some q ∧ SameButBounds p q := by
  induction h generalizing i with
  | nil => simp at hp
  | cons hab _ ih =>
    cases i with
    | zero =>
      simp only [List.getElem?_cons_zero, Option.some.injEq] at hp
      subst hp
      exact ⟨_, by simp, hab⟩
    | succ i =>
      simp only [List.getElem?_cons_succ] at hp ⊢
      exact ih i hp

/-- With a non-positive number of steps in either direction the grid is empty. -/
theorem lsq_numint_grid_nil (default_attributes : Attributes α) (start_x delta_x : α)
    (steps_x : Int) (start_y delta_y : α) (steps_y : Int) (h : steps_x ≤ 0 ∨ steps_y ≤ 0) :
    lsq_numint_grid default_attributes start_x delta_x steps_x start_y delta_y steps_y = [] := by
  unfold lsq_numint_grid
  rcases h with h | h
  · rw [Int.toNat_eq_zero.mpr h]
    simp only [List.range_zero, List.foldl_nil]
    induction (List.range steps_y.toNat) with
    | nil => rfl
    | cons j js ih => simp only [List.foldl_cons]; exact ih
  · rw [Int.toNat_eq_zero.mpr h]
    simp only [List.range_zero, List.foldl_nil]

/-- What `lsq_numint_cross_validate` does when the grid is empty. -/
theorem lsq_numint_empty_grid
    (kdtree_build : List (DataPoint α 2) → Int → Except Failure (Kdtree α 2))
    (default_attributes : Attributes α) (flt_max flt_min : α) (kde : KernelDensity α 2)
    (start_x end_x : α) (steps_x : Int) (start_y end_y : α) (steps_y : Int)
    (rel_err abs_err : α) (qtree_leaf_nmax : Int)
    (hsteps : steps_x ≤ 0 ∨ steps_y ≤ 0) :
    ∃ t, eval_tree kde flt_max flt_min kde.data_tree_ kde.kernel_ rel_err abs_err = some t ∧
      ((∃ e, kdtree_build [] qtree_leaf_nmax = .error e ∧
          lsq_numint_cross_validate kdtree_build default_attributes flt_max flt_min kde
            start_x end_x steps_x start_y end_y steps_y rel_err abs_err qtree_leaf_nmax =
            some (.error e, [kde.data_tree_], kde)) ∨
        (∃ q tq, kdtree_build [] qtree_leaf_nmax = .ok q ∧
          eval_tree kde flt_max flt_min q kde.kernel_ rel_err abs_err = some tq ∧
          List.Forall₂ SameButBounds q.points_ tq.points_ ∧
          lsq_numint_cross_validate kdtree_build default_attributes flt_max flt_min kde
            start_x end_x steps_x start_y end_y steps_y rel_err abs_err qtree_leaf_nmax =
            some (.ok (tq.points_.foldl
                (fun self_cv p => self_cv + p.attributes.value * p.attributes.value *
                  ((end_x - start_x) / (steps_x : α)) * ((end_y - start_y) / (steps_y : α))) 0 -
              2 * (List.zipWith (fun (q p : DataPoint α 2) => p.attributes.weight *
                (q.attributes.value - p.attributes.mass * kde.kernel_.normalization))
                t.points_ kde.data_tree_.points_).sum),
              [kde.data_tree_, q], kde))) := by
  obtain ⟨t, ht, -, -⟩ := eval_tree_total kde flt_max flt_min kde.data_tree_ kde.kernel_
    rel_err abs_err
  refine ⟨t, ht, ?_⟩
  unfold lsq_numint_cross_validate
  simp only [ht, Option.some_bind, lsq_numint_grid_nil _ _ _ _ _ _ _ hsteps]
  cases hb : kdtree_build [] qtree_leaf_nmax with
  | error e => exact Or.inl ⟨e, rfl, rfl⟩
  | ok q =>
    obtain ⟨tq, htq, -, hf⟩ := eval_tree_total kde flt_max flt_min q kde.kernel_
      rel_err abs_err
    refine Or.inr ⟨q, tq, rfl, htq, hf, ?_⟩
    simp only [htq, Option.some_bind]
    rw [foldl_zip_add_sum (fun (q p : DataPoint α 2) => p.attributes.weight *
      (q.attributes.value - p.attributes.mass * kde.kernel_.normalization)), zero_add]

/-! ## The recursive calls of `single_tree` -/

/-- A call made by the call `c` is on a child of the node of `c`, with the contribution
estimates of the node of `c`. -/
theorem single_tree_calls_mem (kd : KernelDensity α D) (p : Point α D) (kernel : Kernel α D)
    (rel_err abs_err : α) (c c' : SingleTreeCall α D)
    (h : c' ∈ single_tree_calls kd p kernel rel_err abs_err c) :
    ∃ b s e a l r, c.D_node = .node b s e a l r ∧ (c'.D_node = l ∨ c'.D_node = r) ∧
      c'.du = (estimate_contributions c.D_node p kernel).1 ∧
      c'.dl = (estimate_contributions c.D_node p kernel).2 := by
  unfold single_tree_calls at h
  simp only at h
  split at h
  · simp at h
  · split at h
    · simp at h
    · rename_i b s e a l r hn
      refine ⟨b, s, e, a, l, r, hn, ?_⟩
      simp only [List.mem_cons, List.mem_singleton, List.not_mem_nil, or_false] at h
      rcases apply_closer_heuristic_cases l r p with hc | hc
      · rw [hc] at h
        rcases h with h | h
        · rw [h]; exact ⟨Or.inl rfl, rfl, rfl⟩
        · rw [h]; exact ⟨Or.inr rfl, rfl, rfl⟩
      · rw [hc] at h
        rcases h with h | h
        · rw [h]; exact ⟨Or.inr rfl, rfl, rfl⟩
        · rw [h]; exact ⟨Or.inl rfl, rfl, rfl⟩

/-- The result of a call of `single_tree` that recurses is the result of its second
recursive call, which is entered with the bounds that the first one returned. -/
theorem single_tree_eq_last_call (kd : KernelDensity α D) (p : Point α D)
    (kernel : Kernel α D) (rel_err abs_err : α) (c c1 c2 : SingleTreeCall α D)
    (h : single_tree_calls kd p kernel rel_err abs_err c = [c1, c2]) :
    (c2.upper, c2.lower) =
      single_tree kd c1.D_node p kernel c1.upper c1.lower c1.du c1.dl rel_err abs_err ∧
    single_tree kd c.D_node p kernel c.upper c.lower c.du c.dl rel_err abs_err =
      single_tree kd c2.D_node p kernel c2.upper c2.lower c2.du c2.dl rel_err abs_err := by
  obtain ⟨n, u, l, du, dl⟩ := c
  unfold single_tree_calls at h
  simp only at h
  split at h
  · simp at h
  · rename_i hca
    cases n with
    | leaf b s e a => simp at h
    | node b s e a left_ right_ =>
      simp only [List.cons.injEq, and_true] at h
      obtain ⟨h1, h2⟩ := h
      subst h1
      subst h2
      refine ⟨rfl, ?_⟩
      simp only
      rw [single_tree]
      simp only [hca, Bool.false_eq_true, if_false]

/-- The invariant that every call of `single_tree` under `eval` satisfies: the node
invariants hold in the subtree of its node, and its inherited estimates enclose the
estimates of its node. -/
theorem single_tree_calls_invariant (kd : KernelDensity α D) (kernel : Kernel α D)
    (hk : KernelCapability kernel) (hv : kd.Valid) (q : Point α D) (rel_err abs_err : α)
    (c : SingleTreeCall α D)
    (h : Relation.ReflTransGen
      (fun a b => b ∈ single_tree_calls kd q kernel rel_err abs_err a) (eval_root_call kd) c) :
    (c.D_node.All (IndexInv kd.data_tree_.points_.length) ∧
      c.D_node.All (MassInv kd.data_tree_.points_) ∧
      c.D_node.All (BoxInv kd.data_tree_.points_) ∧
      c.D_node.All (AbwInv kd.data_tree_.points_) ∧
      c.D_node.All BoxNested ∧ c.D_node.All AbwNested) ∧
    c.dl ≤ (estimate_contributions c.D_node q kernel).2 ∧
    (estimate_contributions c.D_node q kernel).1 ≤ c.du := by
  induction h with
  | refl =>
    refine ⟨⟨hv.indexed.index, hv.mass, hv.box, hv.abw, hv.box_nested, hv.abw_nested⟩, ?_, ?_⟩
    · exact hk.nonneg _ _ _
    · exact hk.le_one _ _ _
  | @tail b c _ hbc ih =>
    obtain ⟨⟨hidx, hmass, hbox, habw, hbn, han⟩, -, -⟩ := ih
    obtain ⟨bb, s, e, a, l, r, hn, hchild, hdu, hdl⟩ :=
      single_tree_calls_mem kd q kernel rel_err abs_err b c hbc
    rw [hn] at hidx hmass hbox habw hbn han
    rw [hdu, hdl, hn]
    have hpos : 0 < (TreeNode.node bb s e a l r).attr_.lower_abw := habw.1.1
    rcases hchild with hc | hc
    · rw [hc]
      have hinv := And.intro hidx.2.1 (And.intro hmass.2.1 (And.intro hbox.2.1
        (And.intro habw.2.1 (And.intro hbn.2.1 han.2.1))))
      obtain ⟨-, hup, -, -, -⟩ := node_facts kd kernel hk q hv.mass_nonneg l hidx.2.1
        hmass.2.1.self hbox.2.1.self habw.2.1.self
      have hnest := estimate_contributions_nested (TreeNode.node bb s e a l r) l kernel hk q
        hbn.1.1 hpos han.1.1 hup han.1.2.1
      exact ⟨hinv, hnest.1, hnest.2⟩
    · rw [hc]
      have hinv := And.intro hidx.2.2 (And.intro hmass.2.2 (And.intro hbox.2.2
        (And.intro habw.2.2 (And.intro hbn.2.2 han.2.2))))
      obtain ⟨-, hup, -, -, -⟩ := node_facts kd kernel hk q hv.mass_nonneg r hidx.2.2
        hmass.2.2.self hbox.2.2.self habw.2.2.self
      have hnest := estimate_contributions_nested (TreeNode.node bb s e a l r) r kernel hk q
        hbn.1.2 hpos han.1.2.2.1 hup han.1.2.2.2
      exact ⟨hinv, hnest.1, hnest.2⟩

/-! ## Halfspaces and distances -/

/-- Membership in the rectangles that the two halfspace splits return. -/
theorem halfspace_contains_iff (r : Rectangle α D) (d : Fin D) (v : α) (p : Point α D) :
    (Rectangle.contains
        (fun i => if i = d then ({ lower := (r d).lower, upper := v } : Interval α) else r i)
        p = true ↔
      (∀ i, i ≠ d → (r i).lower ≤ p i ∧ p i ≤ (r i).upper) ∧ (r d).lower ≤ p d ∧ p d ≤ v) ∧
    (Rectangle.contains
        (fun i => if i = d then ({ lower := v, upper := (r d).upper } : Interval α) else r i)
        p = true ↔
      (∀ i, i ≠ d → (r i).lower ≤ p i ∧ p i ≤ (r i).upper) ∧ v ≤ p d ∧ p d ≤ (r d).upper) := by
  constructor
  · rw [Rectangle.contains_iff]
    constructor
    · intro h
      refine ⟨fun i hi => ?_, ?_⟩
      · have := h i
        rwa [if_neg hi] at this
      · have := h d
        rwa [if_pos rfl] at this
    · rintro ⟨h1, h2⟩ i
      by_cases hi : i = d
      · subst hi
        rw [if_pos rfl]
        exact h2
      · rw [if_neg hi]
        exact h1 i hi
  · rw [Rectangle.contains_iff]
    constructor
    · intro h
      refine ⟨fun i hi => ?_, ?_⟩
      · have := h i
        rwa [if_neg hi] at this
      · have := h d
        rwa [if_pos rfl] at this
    · rintro ⟨h1, h2⟩ i
      by_cases hi : i = d
      · subst hi
        rw [if_pos rfl]
        exact h2
      · rw [if_neg hi]
        exact h1 i hi

/-- The per-axis minimum distance vanishes exactly on the edge. -/
theorem min_dist_value_eq_zero_iff (I : Interval α) (v : α) :
    (AxisDist.min_dist I v : α) = 0 ↔ I.lower ≤ v ∧ v ≤ I.upper := by
  show max 0 (max (I.lower - v) (v - I.upper)) = 0 ↔ _
  rw [max_eq_left_iff, max_le_iff]
  constructor
  · rintro ⟨h1, h2⟩
    exact ⟨by linarith, by linarith⟩
  · rintro ⟨h1, h2⟩
    exact ⟨by linarith, by linarith⟩

/-- When `can_approximate` passes, `dual_tree` returns at once. -/
theorem dual_tree_of_can_approximate (kd : KernelDensity α D) (flt_max flt_min : α)
    (fuel : Nat) (D_node Q_node : TreeNode α D) (kernel : Kernel α D)
    (du dl rel_err abs_err : α) (query_points : List (DataPoint α D))
    (h : can_approximate_node kd D_node Q_node
      (estimate_contributions D_node Q_node.bbox_ kernel).1
      (estimate_contributions D_node Q_node.bbox_ kernel).2 du dl rel_err abs_err = true) :
    dual_tree kd flt_max flt_min (fuel + 1) D_node Q_node kernel du dl rel_err abs_err
      query_points =
      some (tighten_bounds_node D_node Q_node
          (estimate_contributions D_node Q_node.bbox_ kernel).1
          (estimate_contributions D_node Q_node.bbox_ kernel).2 du dl,
        map_index_range
          (fun q => q.set_bounds
            (tighten_bounds D_node (estimate_contributions D_node Q_node.bbox_ kernel).1
              (estimate_contributions D_node Q_node.bbox_ kernel).2 1 0
              q.attributes.upper q.attributes.lower))
          Q_node.start_idx_ Q_node.end_idx_ query_points) := by
  cases Q_node <;> cases D_node <;> rw [dual_tree] <;> simp only [h, if_true]

/-! ## The seeds of `dual_tree_base` and the members that `swap` exchanges -/

/-- The aggregate bounds that `dual_tree_base` writes into the query node: the running
minimum and maximum over the updated query points of the index range, seeded with
`flt_max` and `flt_min`. -/
theorem dual_tree_base_aggregate (kd : KernelDensity α D) (flt_max flt_min : α)
    (D_node Q_node : TreeNode α D) (kernel : Kernel α D)
    (query_points : List (DataPoint α D)) :
    (dual_tree_base kd flt_max flt_min D_node Q_node kernel query_points).1.attr_.lower =
      ((index_range (dual_tree_base kd flt_max flt_min D_node Q_node kernel query_points).2
        Q_node.start_idx_ Q_node.end_idx_).map fun q => q.attributes.lower).foldl
        (fun m x => min x m) flt_max ∧
    (dual_tree_base kd flt_max flt_min D_node Q_node kernel query_points).1.attr_.upper =
      ((index_range (dual_tree_base kd flt_max flt_min D_node Q_node kernel query_points).2
        Q_node.start_idx_ Q_node.end_idx_).map fun q => q.attributes.upper).foldl
        (fun m x => max x m) flt_min := by
  have hfold : ∀ (l : List (DataPoint α D)) (a b : α),
      l.foldl (fun (mm : α × α) q => (min q.attributes.lower mm.1, max q.attributes.upper mm.2))
        (a, b) =
      ((l.map fun q => q.attributes.lower).foldl (fun m x => min x m) a,
        (l.map fun q => q.attributes.upper).foldl (fun m x => max x m) b) := by
    intro l
    induction l with
    | nil => intro a b; rfl
    | cons x xs ih => intro a b; simp only [List.foldl_cons, List.map_cons, ih]
  unfold dual_tree_base
  simp only [hfold]
  cases Q_node <;> exact ⟨rfl, rfl⟩

/-- What `swap` does to the three members. -/
theorem swap_members (lhs rhs : KernelDensity α D) :
    (lhs.swap rhs).1.kernel_ = rhs.kernel_ ∧ (lhs.swap rhs).1.data_tree_ = rhs.data_tree_ ∧
    (lhs.swap rhs).2.kernel_ = lhs.kernel_ ∧ (lhs.swap rhs).2.data_tree_ = lhs.data_tree_ ∧
    (lhs.swap rhs).1.cum_weights_ = lhs.cum_weights_ ∧
    (lhs.swap rhs).2.cum_weights_ = rhs.cum_weights_ :=
  ⟨rfl, rfl, rfl, rfl, rfl, rfl⟩

/-! ## The stops of the dual-tree recursion -/

theorem range_count_node {len : Nat} (b : Rectangle α D) (s e : Nat) (a : Attributes α)
    (l r : TreeNode α D) (h : (TreeNode.node b s e a l r).All (IndexInv len)) (i : Nat) :
    range_count (TreeNode.node b s e a l r) i = range_count l i + range_count r i := by
  obtain ⟨⟨h1, h2, h3⟩, hl, hr⟩ := h
  have hl' := TreeNode.start_le_end hl
  have hr' := TreeNode.start_le_end hr
  have hs : (TreeNode.node b s e a l r).start_idx_ = s := rfl
  have he : (TreeNode.node b s e a l r).end_idx_ = e := rfl
  unfold range_count
  rw [hs, he]
  split_ifs <;> omega

theorem range_count_same {a b : TreeNode α D} (h : SameShape a b) (i : Nat) :
    range_count a i = range_count b i := by
  unfold range_count
  rw [h.facts.2.1, h.facts.2.2.1]

theorem countP_stop_single (Dn Qn : TreeNode α D) (i j : Nat) :
    [(Dn, Qn)].countP (stop_covers i j) = range_count Dn i * range_count Qn j := by
  unfold range_count stop_covers
  simp only [List.countP_cons, List.countP_nil, zero_add, decide_eq_true_eq]
  split_ifs <;> simp_all

theorem range_count_mul_eq (Dn Qn : TreeNode α D) (i j : Nat) :
    range_count Dn i * range_count Qn j =
      if Dn.start_idx_ ≤ i ∧ i ≤ Dn.end_idx_ ∧ Qn.start_idx_ ≤ j ∧ j ≤ Qn.end_idx_ then 1
      else 0 := by
  unfold range_count
  split_ifs <;> simp_all

/-- With a recursion bound of at least the number of nodes of the two trees,
`dual_tree_stops` returns, and its stops cover every pair of a reference index and a query
index as often as the pair of the two nodes does. -/
theorem dual_tree_stops_count (kd : KernelDensity α D) (kernel : Kernel α D)
    (flt_max flt_min : α) (nD nQ : Nat) (fuel : Nat) :
    ∀ (Dn Qn : TreeNode α D) (du dl rel_err abs_err : α) (qpts : List (DataPoint α D)),
      Dn.All (IndexInv nD) → Qn.All (IndexInv nQ) → Dn.size + Qn.size ≤ fuel →
      ∃ S, dual_tree_stops kd flt_max flt_min fuel Dn Qn kernel du dl rel_err abs_err qpts =
          some S ∧
        ∀ i j, S.countP (stop_covers i j) = range_count Dn i * range_count Qn j := by
  induction fuel with
  | zero =>
    intro Dn Qn du dl rel_err abs_err qpts _ _ hsize
    have := Dn.size_pos
    omega
  | succ fuel ih =>
    intro Dn Qn du dl rel_err abs_err qpts hD hQ hsize
    have hpair : ∀ (b : Rectangle α D) (s e : Nat) (a : Attributes α) (l r : TreeNode α D)
        (obj : Fin D → Interval α) (Q : TreeNode α D) (du dl : α)
        (pts : List (DataPoint α D)),
        (TreeNode.node b s e a l r).All (IndexInv nD) → Q.All (IndexInv nQ) →
        (TreeNode.node b s e a l r).size + Q.size ≤ fuel + 1 →
        ∃ s1 r1 s2 r2,
          dual_tree_stops kd flt_max flt_min fuel (apply_closer_heuristic l r obj).1 Q kernel
            du dl rel_err abs_err pts = some s1 ∧
          dual_tree kd flt_max flt_min fuel (apply_closer_heuristic l r obj).1 Q kernel du dl
            rel_err abs_err pts = some r1 ∧
          dual_tree_stops kd flt_max flt_min fuel (apply_closer_heuristic l r obj).2 r1.1
            kernel du dl rel_err abs_err r1.2 = some s2 ∧
          dual_tree kd flt_max flt_min fuel (apply_closer_heuristic l r obj).2 r1.1 kernel du dl
            rel_err abs_err r1.2 = some r2 ∧
          ∀ i j, (s1 ++ s2).countP (stop_covers i j) =
            range_count (TreeNode.node b s e a l r) i * range_count Q j := by
      intro b s e a l r obj Q du dl pts hDn hQn hs
      simp only [TreeNode.size] at hs
      have hl := l.size_pos
      have hr := r.size_pos
      have hnode := range_count_node b s e a l r hDn
      rcases apply_closer_heuristic_cases l r obj with h | h
      · rw [h]
        obtain ⟨s1, es1, c1⟩ := ih l Q du dl rel_err abs_err pts hDn.2.1 hQn (by omega)
        obtain ⟨r1, e1, sh1, -⟩ := dual_tree_total kd kernel flt_max flt_min fuel l Q du dl
          rel_err abs_err pts (by omega)
        obtain ⟨s2, es2, c2⟩ := ih r r1.1 du dl rel_err abs_err r1.2 hDn.2.2
          (sh1.symm.index hQn) (by rw [sh1.facts.1]; omega)
        obtain ⟨r2, e2, -, -⟩ := dual_tree_total kd kernel flt_max flt_min fuel r r1.1 du dl
          rel_err abs_err r1.2 (by rw [sh1.facts.1]; omega)
        refine ⟨s1, r1, s2, r2, es1, e1, es2, e2, fun i j => ?_⟩
        rw [List.countP_append, c1, c2, range_count_same sh1, hnode, Nat.add_mul]
      · rw [h]
        obtain ⟨s1, es1, c1⟩ := ih r Q du dl rel_err abs_err pts hDn.2.2 hQn (by omega)
        obtain ⟨r1, e1, sh1, -⟩ := dual_tree_total kd kernel flt_max flt_min fuel r Q du dl
          rel_err abs_err pts (by omega)
        obtain ⟨s2, es2, c2⟩ := ih l r1.1 du dl rel_err abs_err r1.2 hDn.2.1
          (sh1.symm.index hQn) (by rw [sh1.facts.1]; omega)
        obtain ⟨r2, e2, -, -⟩ := dual_tree_total kd kernel flt_max flt_min fuel l r1.1 du dl
          rel_err abs_err r1.2 (by rw [sh1.facts.1]; omega)
        refine ⟨s1, r1, s2, r2, es1, e1, es2, e2, fun i j => ?_⟩
        rw [List.countP_append, c1, c2, range_count_same sh1, hnode, Nat.add_mul, Nat.add_comm]
    cases Qn with
    | leaf qb qs qe qa =>
      cases Dn with
      | leaf db ds de da =>
        rw [dual_tree_stops]
        split_ifs with hc
        · exact ⟨_, rfl, countP_stop_single _ _⟩
        · exact ⟨_, rfl, countP_stop_single _ _⟩
      | node db ds de da dleft dright =>
        rw [dual_tree_stops]
        split_ifs with hc
        · exact ⟨_, rfl, countP_stop_single _ _⟩
        · simp only
          generalize (estimate_contributions (TreeNode.node db ds de da dleft dright)
            (TreeNode.leaf qb qs qe qa).bbox_ kernel).1 = du_new
          generalize (estimate_contributions (TreeNode.node db ds de da dleft dright)
            (TreeNode.leaf qb qs qe qa).bbox_ kernel).2 = dl_new
          have sh := tighten_bounds_node_shape (TreeNode.node db ds de da dleft dright)
            (TreeNode.leaf qb qs qe qa) du_new dl_new du dl
          obtain ⟨s1, r1, s2, r2, es1, e1, es2, -, c⟩ := hpair db ds de da dleft dright
            (tighten_bounds_node (TreeNode.node db ds de da dleft dright)
              (TreeNode.leaf qb qs qe qa) du_new dl_new du dl).bbox_
            (tighten_bounds_node (TreeNode.node db ds de da dleft dright)
              (TreeNode.leaf qb qs qe qa) du_new dl_new du dl)
            du_new dl_new qpts hD (sh.symm.index hQ) (by rw [sh.facts.1]; exact hsize)
          refine ⟨s1 ++ s2, ?_, fun i j => ?_⟩
          · rw [es1, Option.some_bind, e1, Option.some_bind, es2, Option.some_bind]
          · rw [c, range_count_same sh]
    | node qb qs qe qa qleft qright =>
      simp only [TreeNode.size] at hsize
      have hqnode := range_count_node qb qs qe qa qleft qright hQ
      cases Dn with
      | leaf db ds de da =>
        rw [dual_tree_stops]
        split_ifs with hc
        · exact ⟨_, rfl, countP_stop_single _ _⟩
        · simp only
          generalize (estimate_contributions (TreeNode.leaf db ds de da)
            (TreeNode.node qb qs qe qa qleft qright).bbox_ kernel).1 = du_new
          generalize (estimate_contributions (TreeNode.leaf db ds de da)
            (TreeNode.node qb qs qe qa qleft qright).bbox_ kernel).2 = dl_new
          have shl := tighten_bounds_node_shape (TreeNode.leaf db ds de da) qleft
            du_new dl_new du dl
          have shr := tighten_bounds_node_shape (TreeNode.leaf db ds de da) qright
            du_new dl_new du dl
          obtain ⟨s1, es1, c1⟩ := ih (TreeNode.leaf db ds de da)
            (tighten_bounds_node (TreeNode.leaf db ds de da) qleft du_new dl_new du dl)
            du_new dl_new rel_err abs_err qpts hD (shl.symm.index hQ.2.1)
            (by rw [shl.facts.1]; simp only [TreeNode.size] at *; omega)
          obtain ⟨r1, e1, -, -⟩ := dual_tree_total kd kernel flt_max flt_min fuel
            (TreeNode.leaf db ds de da)
            (tighten_bounds_node (TreeNode.leaf db ds de da) qleft du_new dl_new du dl)
            du_new dl_new rel_err abs_err qpts
            (by rw [shl.facts.1]; simp only [TreeNode.size] at *; omega)
          obtain ⟨s2, es2, c2⟩ := ih (TreeNode.leaf db ds de da)
            (tighten_bounds_node (TreeNode.leaf db ds de da) qright du_new dl_new du dl)
            du_new dl_new rel_err abs_err r1.2 hD (shr.symm.index hQ.2.2)
            (by rw [shr.facts.1]; simp only [TreeNode.size] at *; omega)
          refine ⟨s1 ++ s2, ?_, fun i j => ?_⟩
          · rw [es1, Option.some_bind, e1, Option.some_bind, es2, Option.some_bind]
          · rw [List.countP_append, c1, c2, range_count_same shl, range_count_same shr, hqnode,
              Nat.mul_add]
      | node db ds de da dleft dright =>
        rw [dual_tree_stops]
        split_ifs with hc
        · exact ⟨_, rfl, countP_stop_single _ _⟩
        · simp only
          generalize (estimate_contributions (TreeNode.node db ds de da dleft dright)
            (TreeNode.node qb qs qe qa qleft qright).bbox_ kernel).1 = du_new
          generalize (estimate_contributions (TreeNode.node db ds de da dleft dright)
            (TreeNode.node qb qs qe qa qleft qright).bbox_ kernel).2 = dl_new
          have shl := tighten_bounds_node_shape (TreeNode.node db ds de da dleft dright) qleft
            du_new dl_new du dl
          have shr := tighten_bounds_node_shape (TreeNode.node db ds de da dleft dright) qright
            du_new dl_new du dl
          obtain ⟨s1, r1, s2, r2, es1, e1, es2, e2, c12⟩ := hpair db ds de da dleft dright
            (tighten_bounds_node (TreeNode.node db ds de da dleft dright) qleft
              du_new dl_new du dl).bbox_
            (tighten_bounds_node (TreeNode.node db ds de da dleft dright) qleft
              du_new dl_new du dl)
            du_new dl_new qpts hD (shl.symm.index hQ.2.1)
            (by rw [shl.facts.1]; simp only [TreeNode.size] at *; omega)
          obtain ⟨s3, r3, s4, r4, es3, e3, es4, -, c34⟩ := hpair db ds de da dleft dright
            (tighten_bounds_node (TreeNode.node db ds de da dleft dright) qright
              du_new dl_new du dl).bbox_
            (tighten_bounds_node (TreeNode.node db ds de da dleft dright) qright
              du_new dl_new du dl)
            du_new dl_new r2.2 hD (shr.symm.index hQ.2.2)
            (by rw [shr.facts.1]; simp only [TreeNode.size] at *; omega)
          refine ⟨s1 ++ s2 ++ s3 ++ s4, ?_, fun i j => ?_⟩
          · rw [es1, Option.some_bind, e1, Option.some_bind, es2, Option.some_bind, e2,
              Option.some_bind, es3, Option.some_bind, e3, Option.some_bind, es4,
              Option.some_bind]
          · rw [List.append_assoc (s1 ++ s2), List.countP_append, c12, c34,
              range_count_same shl, range_count_same shr, hqnode, Nat.mul_add]

end Lemmas

/-! ## The concrete densities -/

theorem heavy_points_eq : initialize_attributes heavy_input =
    [line_point 0 (3 / 4) 6 (1 / 8), line_point 1 (1 / 4) 2 (1 / 8)] := by
  simp [initialize_attributes, normalize_weights, heavy_input, line_point, Attributes.abw]
  norm_num

theorem twin_points_eq : initialize_attributes twin_input =
    [line_point 0 (3 / 4) (3 / 4) 1, line_point 0 (1 / 4) (1 / 4) 1] := by
  simp [initialize_attributes, normalize_weights, twin_input, line_point, Attributes.abw]
  norm_num

theorem tri_kernel_capability (c h : ℚ) (hh : 0 < h) : KernelCapability (tri_kernel c h) where
  nonneg := fun p q a => le_max_left _ _
  le_one := fun p q a => by
    show max 0 (1 - |p 0 - q 0| / (h * |a|)) ≤ 1
    have : 0 ≤ |p 0 - q 0| / (h * |a|) := by positivity
    exact max_le (by norm_num) (by linarith)
  mono := fun p q p' q' a a' hd ha' haa' => by
    show max 0 (1 - |p' 0 - q' 0| / (h * |a'|)) ≤ max 0 (1 - |p 0 - q 0| / (h * |a|))
    have ha : 0 < a := lt_of_lt_of_le ha' haa'
    rw [abs_of_pos ha, abs_of_pos ha']
    have h1 : |p 0 - q 0| / (h * a) ≤ |p' 0 - q' 0| / (h * a') :=
      div_le_div₀ (abs_nonneg _) (hd 0) (by positivity)
        (mul_le_mul_of_nonneg_left haa' (le_of_lt hh))
    exact max_le_max (le_refl _) (by linarith)

theorem tri_kernel_abs_diff_only (c h : ℚ) : AbsDiffOnly (tri_kernel c h) := by
  intro p q p' q' a hd
  show max 0 (1 - |p 0 - q 0| / (h * |a|)) = max 0 (1 - |p' 0 - q' 0| / (h * |a|))
  rw [hd 0]

theorem line_leaf_tree_indexed (p1 p2 : DataPoint ℚ 1) (lo hi mass abw : ℚ) :
    (line_leaf_tree [p1, p2] lo hi mass abw).Indexed where
  root_start := rfl
  root_end := rfl
  index := by simp [line_leaf_tree, TreeNode.All, IndexInv]

theorem query_at_boxed (x : ℚ) : (query_at x).Boxed where
  indexed := ⟨rfl, rfl, by simp [query_at, line_leaf_tree, TreeNode.All, IndexInv]⟩
  box := by
    simp [query_at, line_leaf_tree, line_point, TreeNode.All, BoxInv, index_range,
      TreeNode.bbox_, TreeNode.start_idx_, TreeNode.end_idx_, Rectangle.contains,
      Interval.contains]

theorem unit_kd_valid : unit_kd.Valid where
  indexed := line_leaf_tree_indexed _ _ _ _ _ _
  mass := by
    simp [unit_kd, line_leaf_tree, line_point, TreeNode.All, MassInv, index_range,
      TreeNode.attr_, TreeNode.start_idx_, TreeNode.end_idx_]
    norm_num
  box := by
    simp [unit_kd, line_leaf_tree, line_point, TreeNode.All, BoxInv, index_range,
      TreeNode.bbox_, TreeNode.start_idx_, TreeNode.end_idx_, Rectangle.contains,
      Interval.contains]
  abw := by
    simp [unit_kd, line_leaf_tree, line_point, TreeNode.All, AbwInv, index_range,
      TreeNode.attr_, TreeNode.start_idx_, TreeNode.end_idx_, Attributes.abw]
  box_nested := by simp [unit_kd, line_leaf_tree, TreeNode.All, BoxNested]
  abw_nested := by simp [unit_kd, line_leaf_tree, TreeNode.All, AbwNested]
  mass_nonneg := by
    simp [unit_kd, line_leaf_tree, line_point]
    norm_num

theorem heavy_kd_valid : heavy_kd.Valid := by
  refine ⟨?_, ?_, ?_, ?_, ?_, ?_, ?_⟩
  · simp only [heavy_kd, heavy_points_eq]; exact line_leaf_tree_indexed _ _ _ _ _ _
  · simp [heavy_kd, heavy_points_eq, line_leaf_tree, line_point, TreeNode.All, MassInv,
      index_range, TreeNode.attr_, TreeNode.start_idx_, TreeNode.end_idx_]
    norm_num
  · simp [heavy_kd, heavy_points_eq, line_leaf_tree, line_point, TreeNode.All, BoxInv,
      index_range, TreeNode.bbox_, TreeNode.start_idx_, TreeNode.end_idx_, Rectangle.contains,
      Interval.contains]
  · simp [heavy_kd, heavy_points_eq, line_leaf_tree, line_point, TreeNode.All, AbwInv,
      index_range, TreeNode.attr_, TreeNode.start_idx_, TreeNode.end_idx_, Attributes.abw]
  · simp [heavy_kd, line_leaf_tree, TreeNode.All, BoxNested]
  · simp [heavy_kd, line_leaf_tree, TreeNode.All, AbwNested]
  · simp [heavy_kd, heavy_points_eq, line_leaf_tree, line_point]

theorem twin_kd_indexed : twin_kd.data_tree_.Indexed := by
  simp only [twin_kd, twin_points_eq]; exact line_leaf_tree_indexed _ _ _ _ _ _

theorem twin_kd_mass : MassInv twin_kd.data_tree_.points_ twin_kd.data_tree_.root_ := by
  simp [twin_kd, twin_points_eq, line_leaf_tree, line_point, MassInv,
    index_range, TreeNode.attr_, TreeNode.start_idx_, TreeNode.end_idx_]
  norm_num

theorem twin_kd_tight : TightInv twin_kd.data_tree_.points_ twin_kd.data_tree_.root_ := by
  simp [TightInv, twin_kd, twin_points_eq, line_leaf_tree, line_point, index_range,
    TreeNode.bbox_, TreeNode.attr_, TreeNode.start_idx_, TreeNode.end_idx_, Attributes.abw]

theorem twin_input_identical :
    ∀ p ∈ twin_input, p.point = (fun _ => (0 : ℚ)) ∧ p.attributes.abw = 1 := by
  simp [twin_input, line_point, Attributes.abw]

theorem heavy_eval :
    eval heavy_kd (fun _ => 2) (tri_kernel 1 80) 0 (1 / 10) = 34 / 5 := by
  simp only [eval, heavy_kd, line_leaf_tree, heavy_points_eq]
  rw [single_tree]
  simp [estimate_contributions, can_approximate, tighten_bounds, tri_kernel, Kdtree.size,
    Rectangle.min_dist_axis, Rectangle.max_dist_axis, AxisDist.min_dist, AxisDist.max_dist,
    TreeNode.bbox_, TreeNode.attr_]
  norm_num [abs_of_pos, abs_of_nonneg]

theorem heavy_direct :
    direct_eval heavy_kd (fun _ => 2) (tri_kernel 1 80) = 33 / 5 := by
  simp only [direct_eval, heavy_kd, line_leaf_tree, heavy_points_eq]
  simp [tri_kernel, line_point, Attributes.abw]
  norm_num [abs_of_pos, abs_of_nonneg]

theorem heavy_eval_tree :
    (eval_tree heavy_kd flt_max_value flt_min_value (query_at 2) (tri_kernel 1 80) 0
        (1 / 10)).map
      (fun t => t.points_.map fun q => (q.point 0, q.attributes.lower, q.attributes.upper)) =
      some [(2, 32 / 5, 36 / 5)] := by
  simp only [eval_tree, heavy_kd, line_leaf_tree, heavy_points_eq, query_at]
  simp [dual_tree, refresh_node_attributes, TreeNode.size, index_range, line_point,
    TreeNode.attr_, TreeNode.bbox_, TreeNode.start_idx_, TreeNode.end_idx_,
    estimate_contributions, can_approximate_node, can_approximate, tighten_bounds,
    tighten_bounds_node, map_index_range, DataPoint.set_bounds, tri_kernel, Kdtree.size,
    Rectangle.min_dist_axis, Rectangle.max_dist_axis, AxisDist.min_dist, AxisDist.max_dist,
    TreeNode.set_attr]
  norm_num [abs_of_pos, abs_of_nonneg]

theorem unit_eval_tree_negative :
    (eval_tree unit_kd flt_max_value flt_min_value (query_at 2) (tri_kernel (-1) 10) (1 / 2)
        0).map
      (fun t => t.points_.map fun q => (q.point 0, q.attributes.lower, q.attributes.upper)) =
      some [(2, -(4 / 5), -(9 / 10))] := by
  simp only [eval_tree, unit_kd, line_leaf_tree, query_at]
  simp [dual_tree, refresh_node_attributes, TreeNode.size, index_range, line_point,
    TreeNode.attr_, TreeNode.bbox_, TreeNode.start_idx_, TreeNode.end_idx_,
    estimate_contributions, can_approximate_node, can_approximate, tighten_bounds,
    tighten_bounds_node, map_index_range, DataPoint.set_bounds, tri_kernel, Kdtree.size,
    Rectangle.min_dist_axis, Rectangle.max_dist_axis, AxisDist.min_dist, AxisDist.max_dist,
    TreeNode.set_attr]
  norm_num [abs_of_pos, abs_of_nonneg]

theorem unit_direct_negative :
    direct_eval unit_kd (fun _ => 2) (tri_kernel (-1) 10) = -(33 / 40) := by
  simp only [direct_eval, unit_kd, line_leaf_tree]
  simp [tri_kernel, line_point, Attributes.abw]
  norm_num [abs_of_pos, abs_of_nonneg]

/-! ## The one-point density -/

section OnePoint

variable {α : Type} [LinearOrderedField α]

theorem one_point_kd_points (c : α) :
    (one_point_kd c).data_tree_.points_ =
      [{ point := fun _ => 0
         attributes := { weight := 1, mass := 1, lower := 0, upper := 0,
                         lower_abw := 1, upper_abw := 1 } }] ∧
    (one_point_kd c).cum_weights_ = [1] := by
  simp [one_point_kd, one_point, KernelDensity.construct_single, Kdtree.single,
    initialize_attributes, normalize_weights, initialize_cum_weights, Kdtree.size,
    Attributes.abw]

theorem one_point_kd_constructed (c : α) :
    (one_point_kd c).ConstructedFrom [one_point] :=
  ⟨List.Perm.refl _, rfl⟩

theorem one_point_weight_sum (c : α) :
    ((one_point_kd c).data_tree_.points_.map fun p => p.attributes.weight).sum = 1 := by
  rw [(one_point_kd_points c).1]
  simp

theorem one_point_pilot_map (c flt_max flt_min : α) :
    (eval_tree (unadapt_density (one_point_kd c)) flt_max flt_min
        (unadapt_density (one_point_kd c)).data_tree_ (one_point_kd c).kernel_ 0 0).map
      (fun t => t.points_.map fun q => q.attributes.value) = some [c] := by
  simp [eval_tree, unadapt_density, one_point_kd, one_point, KernelDensity.construct_single,
    Kdtree.single, initialize_attributes, normalize_weights, Attributes.abw, hat_kernel,
    dual_tree, refresh_node_attributes, TreeNode.size, index_range,
    TreeNode.attr_, TreeNode.bbox_, TreeNode.start_idx_, TreeNode.end_idx_,
    estimate_contributions, can_approximate_node, can_approximate, tighten_bounds,
    tighten_bounds_node, map_index_range, DataPoint.set_bounds, Kdtree.size,
    Rectangle.min_dist_axis, Rectangle.max_dist_axis, AxisDist.min_dist, AxisDist.max_dist,
    TreeNode.set_attr, Attributes.value]

/-- The pilot estimate of the one-point density is the normalisation of its kernel. -/
theorem one_point_pilot (c flt_max flt_min : α) (t : Kdtree α 1)
    (h : eval_tree (unadapt_density (one_point_kd c)) flt_max flt_min
      (unadapt_density (one_point_kd c)).data_tree_ (one_point_kd c).kernel_ 0 0 = some t) :
    (t.points_.map fun q => q.attributes.value) = [c] := by
  have hm := one_point_pilot_map c flt_max flt_min
  rw [h] at hm
  exact Option.some.inj hm

end OnePoint

theorem heavy_kd_constructed : heavy_kd.ConstructedFrom heavy_input := by
  refine ⟨List.Perm.refl _, ?_⟩
  simp [heavy_kd, line_leaf_tree, heavy_points_eq, initialize_cum_weights, line_point,
    Kdtree.size]

theorem heavy_kd_cum_weights :
    NonDecreasing heavy_kd.cum_weights_ ∧ heavy_kd.cum_weights_.getLast? = some 1 ∧
    heavy_kd.cum_weights_.length = heavy_kd.data_tree_.points_.length := by
  refine ⟨?_, rfl, ?_⟩
  · intro i j a b hij ha hb
    have hj : j < 2 := by
      by_contra h
      rw [List.getElem?_eq_none (by simp [heavy_kd]; omega)] at hb
      exact Option.noConfusion hb
    interval_cases j <;> interval_cases i <;> simp [heavy_kd] at ha hb <;>
      subst ha <;> subst hb <;> norm_num
  · simp [heavy_kd, line_leaf_tree, heavy_points_eq]

theorem split_kd_valid : split_kd.Valid where
  indexed := ⟨rfl, rfl, by simp [split_kd, TreeNode.All, IndexInv, TreeNode.start_idx_,
    TreeNode.end_idx_]⟩
  mass := by
    simp [split_kd, line_point, TreeNode.All, MassInv, index_range,
      TreeNode.attr_, TreeNode.start_idx_, TreeNode.end_idx_]
    norm_num
  box := by
    simp [split_kd, line_point, TreeNode.All, BoxInv, index_range,
      TreeNode.bbox_, TreeNode.start_idx_, TreeNode.end_idx_, Rectangle.contains,
      Interval.contains]
  abw := by
    simp [split_kd, line_point, TreeNode.All, AbwInv, index_range,
      TreeNode.attr_, TreeNode.start_idx_, TreeNode.end_idx_, Attributes.abw]
  box_nested := by
    simp [split_kd, TreeNode.All, BoxNested, Interval.Within, TreeNode.bbox_]
  abw_nested := by simp [split_kd, TreeNode.All, AbwNested, TreeNode.attr_]
  mass_nonneg := by
    simp [split_kd, line_point]
    norm_num

theorem split_kd_index : split_kd.data_tree_.root_.All (IndexInv 2) := by
  simp [split_kd, TreeNode.All, IndexInv, TreeNode.start_idx_, TreeNode.end_idx_]

theorem query_at_index (x : ℚ) : (query_at x).root_.All (IndexInv 1) := by
  simp [query_at, line_leaf_tree, TreeNode.All, IndexInv]

/-! ## The claims -/

section Claims

variable {α : Type} [LinearOrderedField α] {D : Nat}

/-- C1, on an input where it fails. The density `heavy_kd` is built from the points `0` and `1`
with weights `3`, `1` and bandwidth corrections `1/8`; its reference tree satisfies the node
invariants and the triangular kernel meets the kernel capability. With `rel_err = 0` and
`abs_err = 1/10`, `eval` at the query `2` returns `34/5` while `direct_eval` gives `33/5`: the
error `1/5` exceeds `max(abs_err, rel_err * |direct_eval|) = 1/10`. The root is approved by
the criterion `|du_new - dl_new| <= 2 * abs_err / N`, whose budget is per point while the
resulting error scales with the total mass `8 > N = 2`. -/
theorem eval_heavy_exceeds_tolerance :
    heavy_kd.data_tree_.points_ = initialize_attributes heavy_input ∧
    heavy_kd.Valid ∧ KernelCapability (tri_kernel 1 80) ∧
    eval heavy_kd (fun _ => 2) (tri_kernel 1 80) 0 (1 / 10) = 34 / 5 ∧
    direct_eval heavy_kd (fun _ => 2) (tri_kernel 1 80) = 33 / 5 ∧
    ¬ |eval heavy_kd (fun _ => 2) (tri_kernel 1 80) 0 (1 / 10) -
        direct_eval heavy_kd (fun _ => 2) (tri_kernel 1 80)| ≤
      max (1 / 10) (0 * |direct_eval heavy_kd (fun _ => 2) (tri_kernel 1 80)|) := by
  refine ⟨rfl, heavy_kd_valid, tri_kernel_capability 1 80 (by norm_num), heavy_eval,
    heavy_direct, ?_⟩
  rw [heavy_eval, heavy_direct]
  norm_num [abs_of_pos]

/-- C2, on an input where it fails. For the density `heavy_kd` (total mass `8`, two points)
and the query tree holding the single point `2`, the dual-tree `eval` with `rel_err = 0` and
`abs_err = 1/10` returns with the bounds `lower = 32/5`, `upper = 36/5` on the query point;
the point estimate `(lower + upper) / 2 = 34/5` differs from `direct_eval = 33/5` by `1/5`,
more than `max(abs_err, rel_err * |direct_eval|) = 1/10`. -/
theorem eval_tree_heavy_exceeds_tolerance :
    heavy_kd.Valid ∧ KernelCapability (tri_kernel 1 80) ∧ (query_at 2).Boxed ∧
    (eval_tree heavy_kd flt_max_value flt_min_value (query_at 2) (tri_kernel 1 80) 0
        (1 / 10)).map
      (fun t => t.points_.map fun q => (q.point 0, q.attributes.lower, q.attributes.upper)) =
      some [(2, 32 / 5, 36 / 5)] ∧
    direct_eval heavy_kd (fun _ => 2) (tri_kernel 1 80) = 33 / 5 ∧
    ¬ |((32 / 5 : ℚ) + 36 / 5) / 2 - direct_eval heavy_kd (fun _ => 2) (tri_kernel 1 80)| ≤
      max (1 / 10) (0 * |direct_eval heavy_kd (fun _ => 2) (tri_kernel 1 80)|) := by
  refine ⟨heavy_kd_valid, tri_kernel_capability 1 80 (by norm_num), query_at_boxed 2,
    heavy_eval_tree, heavy_direct, ?_⟩
  rw [heavy_direct]
  norm_num [abs_of_pos]

/-- C3 fails for a kernel of negative normalisation. The density `unit_kd` satisfies the node
invariants and the triangular kernel with normalisation `-1` meets the kernel capability,
yet the dual-tree `eval` with `rel_err = 1/2`, `abs_err = 0` leaves `lower = -4/5` and
`upper = -9/10` on the query point `2`, where `direct_eval = -33/40 < lower`. -/
theorem eval_tree_negative_normalization :
    unit_kd.Valid ∧ KernelCapability (tri_kernel (-1) 10) ∧ (query_at 2).Boxed ∧
    (eval_tree unit_kd flt_max_value flt_min_value (query_at 2) (tri_kernel (-1) 10) (1 / 2)
        0).map
      (fun t => t.points_.map fun q => (q.point 0, q.attributes.lower, q.attributes.upper)) =
      some [(2, -(4 / 5), -(9 / 10))] ∧
    direct_eval unit_kd (fun _ => 2) (tri_kernel (-1) 10) = -(33 / 40) ∧
    ¬ (-(4 / 5) ≤ direct_eval unit_kd (fun _ => 2) (tri_kernel (-1) 10)) :=
  ⟨unit_kd_valid, tri_kernel_capability (-1) 10 (by norm_num), query_at_boxed 2,
    unit_eval_tree_negative, unit_direct_negative, by rw [unit_direct_negative]; norm_num⟩

/-- C3, amended by `normalization >= 0`. Under the reference-tree node invariants (index
ranges, mass, bounding box, bandwidth range), non-negative point masses, the kernel capability
and a kernel normalisation that is not negative, the dual-tree `eval` over a query tree whose
boxes contain their query points returns, keeps every query point in place, and leaves on
every query point `q` bounds with `lower <= direct_eval(q) <= upper`. -/
theorem eval_tree_bounds_valid (kd : KernelDensity α D) (hidx : kd.data_tree_.Indexed)
    (hmass : kd.data_tree_.root_.All (MassInv kd.data_tree_.points_))
    (hbox : kd.data_tree_.root_.All (BoxInv kd.data_tree_.points_))
    (habw : kd.data_tree_.root_.All (AbwInv kd.data_tree_.points_))
    (hmn : ∀ p ∈ kd.data_tree_.points_, 0 ≤ p.attributes.mass)
    (kernel : Kernel α D)
    (hk : KernelCapability kernel) (hnorm : 0 ≤ kernel.normalization) (flt_max flt_min : α)
    (query_tree : Kdtree α D) (hQ : query_tree.Boxed) (rel_err abs_err : α) :
    ∃ t, eval_tree kd flt_max flt_min query_tree kernel rel_err abs_err = some t ∧
      t.points_.length = query_tree.points_.length ∧
      ∀ (i : Nat) (q' : DataPoint α D), t.points_[i]? = some q' →
        ∃ q : DataPoint α D, query_tree.points_[i]? = some q ∧ q'.point = q.point ∧
          q'.attributes.lower ≤ direct_eval kd q.point kernel ∧
          direct_eval kd q.point kernel ≤ q'.attributes.upper := by
  obtain ⟨t, ht, hlen, hpt⟩ := eval_tree_pointwise (valid_step_spec kd kernel hk hmn)
    flt_max flt_min query_tree hQ.indexed rel_err abs_err
    ⟨hidx.index, hmass, hbox, habw⟩ hQ.box (fun _ _ => by
      simp only [DataPoint.init_bounds, zero_add, le_refl])
  refine ⟨t, ht, hlen, ?_⟩
  intro i q' hq'
  obtain ⟨q, q1, hq, ⟨h0, h1, h2, h3, h4⟩, rfl⟩ := hpt i q' hq'
  have hrange := index_range_all kd.data_tree_.points_ _ hidx.root_end
  rw [← hidx.root_start] at hrange
  simp only [DataPoint.init_bounds, DataPoint.normalize_bounds, zero_add, hrange,
    sub_self] at h0 h1 h2 h3 h4 ⊢
  refine ⟨q, hq, h0, ?_, ?_⟩
  · rw [direct_eval_eq_kernel_sum]
    exact mul_le_mul_of_nonneg_right h2 hnorm
  · rw [direct_eval_eq_kernel_sum]
    exact mul_le_mul_of_nonneg_right h3 hnorm

/-- The amended C3 at the density `unit_kd`, the triangular kernel of normalisation `1` and the
query tree holding the point `2`. -/
theorem eval_tree_bounds_valid_witness :
    (0 : ℚ) ≤ (tri_kernel 1 10).normalization ∧
    ∃ t, eval_tree unit_kd flt_max_value flt_min_value (query_at 2) (tri_kernel 1 10)
        (1 / 2) 0 = some t ∧
      t.points_.length = (query_at 2).points_.length ∧
      ∀ (i : Nat) (q' : DataPoint ℚ 1), t.points_[i]? = some q' →
        ∃ q : DataPoint ℚ 1, (query_at 2).points_[i]? = some q ∧ q'.point = q.point ∧
          q'.attributes.lower ≤ direct_eval unit_kd q.point (tri_kernel 1 10) ∧
          direct_eval unit_kd q.point (tri_kernel 1 10) ≤ q'.attributes.upper :=
  ⟨by norm_num [tri_kernel],
    eval_tree_bounds_valid unit_kd unit_kd_valid.indexed unit_kd_valid.mass unit_kd_valid.box
      unit_kd_valid.abw unit_kd_valid.mass_nonneg (tri_kernel 1 10)
      (tri_kernel_capability 1 10 (by norm_num)) (by norm_num [tri_kernel])
      flt_max_value flt_min_value (query_at 2) (query_at_boxed 2) (1 / 2) 0⟩

/-- C4. With node masses that are the sums of non-negative point masses, kernel values in
`[0, 1]` and `normalization >= 0`, the dual-tree `eval` returns (the recursion bound taken from
the sizes of the two trees suffices) and every query point then has `lower <= upper`,
`0 <= lower` and `upper <= root.attr.mass * normalization`. -/
theorem eval_tree_bound_invariants (kd : KernelDensity α D) (hidx : kd.data_tree_.Indexed)
    (hmass : kd.data_tree_.root_.All (MassInv kd.data_tree_.points_))
    (hmn : ∀ p ∈ kd.data_tree_.points_, 0 ≤ p.attributes.mass)
    (kernel : Kernel α D)
    (hk : ∀ p q a, 0 ≤ kernel.unnormalized_eval p q a ∧ kernel.unnormalized_eval p q a ≤ 1)
    (hnorm : 0 ≤ kernel.normalization) (flt_max flt_min : α)
    (query_tree : Kdtree α D) (hQ : query_tree.Indexed) (rel_err abs_err : α) :
    ∃ t, eval_tree kd flt_max flt_min query_tree kernel rel_err abs_err = some t ∧
      t.points_.length = query_tree.points_.length ∧
      ∀ q' ∈ t.points_,
        q'.attributes.lower ≤ q'.attributes.upper ∧ 0 ≤ q'.attributes.lower ∧
        q'.attributes.upper ≤ kd.data_tree_.root_.attr_.mass * kernel.normalization := by
  obtain ⟨t, ht, hlen, hpt⟩ := eval_tree_pointwise (bound_step_spec kd kernel hk hmn)
    flt_max flt_min query_tree hQ rel_err abs_err ⟨hidx.index, hmass⟩
    (TreeNode.All.imp (fun _ _ _ _ => trivial) hQ.index) (fun _ _ => trivial)
  refine ⟨t, ht, hlen, ?_⟩
  intro q' hq'
  obtain ⟨i, hi⟩ := List.mem_iff_getElem?.mp hq'
  obtain ⟨q, q1, -, ⟨-, h1, h2, h3, h4⟩, rfl⟩ := hpt i q' hi
  simp only [DataPoint.init_bounds, DataPoint.normalize_bounds, zero_add] at h1 h2 h4 ⊢
  have h5 : q1.attributes.upper ≤ kd.data_tree_.root_.attr_.mass :=
    le_trans h4 (max_le (le_refl _) h2)
  exact ⟨mul_le_mul_of_nonneg_right h3 hnorm, mul_nonneg h1 hnorm,
    mul_le_mul_of_nonneg_right h5 hnorm⟩

/-- C4 at the density `heavy_kd`, the triangular kernel of bandwidth `80` and the query tree
holding the point `2`. -/
theorem eval_tree_bound_invariants_witness :
    (0 : ℚ) ≤ (tri_kernel 1 80).normalization ∧
    ∃ t, eval_tree heavy_kd flt_max_value flt_min_value (query_at 2) (tri_kernel 1 80) 0
        (1 / 10) = some t ∧
      t.points_.length = (query_at 2).points_.length ∧
      ∀ q' ∈ t.points_,
        q'.attributes.lower ≤ q'.attributes.upper ∧ 0 ≤ q'.attributes.lower ∧
        q'.attributes.upper ≤
          heavy_kd.data_tree_.root_.attr_.mass * (tri_kernel 1 80).normalization :=
  ⟨by norm_num [tri_kernel],
    eval_tree_bound_invariants heavy_kd heavy_kd_valid.indexed heavy_kd_valid.mass
      heavy_kd_valid.mass_nonneg (tri_kernel 1 80)
      (fun p q a => ⟨(tri_kernel_capability 1 80 (by norm_num)).nonneg p q a,
        (tri_kernel_capability 1 80 (by norm_num)).le_one p q a⟩)
      (by norm_num [tri_kernel]) flt_max_value flt_min_value (query_at 2)
      (query_at_boxed 2).indexed 0 (1 / 10)⟩

/-- C5. The value of `direct_eval(q, kernel)` is `kernel.normalization()` times the sum over
all reference points of `mass * unnormalized_eval(q, x, abw)`; the wrapper on a data point
returns this value for the density's own kernel and stores it in both `lower` and `upper` of
the point, whose position is unchanged. -/
theorem direct_eval_spec (kd : KernelDensity α D) (p : Point α D) (kernel : Kernel α D)
    (dp : DataPoint α D) :
    direct_eval kd p kernel =
      kernel.normalization *
        (kd.data_tree_.points_.map fun x =>
          x.attributes.mass * kernel.unnormalized_eval p x.point x.attributes.abw).sum ∧
    (direct_eval_point kd dp).1 = direct_eval kd dp.point kd.kernel_ ∧
    (direct_eval_point kd dp).2.attributes.lower = direct_eval kd dp.point kd.kernel_ ∧
    (direct_eval_point kd dp).2.attributes.upper = direct_eval kd dp.point kd.kernel_ ∧
    (direct_eval_point kd dp).2.point = dp.point := by
  refine ⟨?_, rfl, rfl, rfl, rfl⟩
  rw [direct_eval_eq_kernel_sum, mul_comm]; rfl

/-- C6. For the density constructed from exactly one reference point, whose attributes after
construction are those of `p1`, `eval` at any query and for any tolerances returns
`weight_1 * mass_1 * unnormalized_eval(q, x_1, abw_1) * normalization`, for every kernel whose
value depends only on the per-axis absolute differences. -/
theorem eval_single_point (kernel : Kernel α D) (hk : AbsDiffOnly kernel)
    (kernel0 : Kernel α D) (p : DataPoint α D) (q : Point α D) (rel_err abs_err : α) :
    ∃ p1 : DataPoint α D,
      (KernelDensity.construct_single kernel0 p).data_tree_.points_ = [p1] ∧
      p1.point = p.point ∧
      eval (KernelDensity.construct_single kernel0 p) q kernel rel_err abs_err =
        p1.attributes.weight * p1.attributes.mass *
          kernel.unnormalized_eval q p1.point p1.attributes.abw * kernel.normalization := by
  refine ⟨(initialize_attributes [p]).headD p, rfl, rfl, ?_⟩
  rw [eval_kdtree_single _ _ rfl kernel hk]
  simp only [initialize_attributes, normalize_weights, List.foldl_cons, List.foldl_nil,
    List.map_cons, List.map_nil, List.headD_cons, zero_add]
  by_cases hw : p.attributes.weight = 0
  · simp [hw]
  · rw [div_self hw]
    ring

/-- C6 at the single reference point `0` of weight `3`, the triangular kernel and the
query `2`. -/
theorem eval_single_point_witness :
    ∃ p1 : DataPoint ℚ 1,
      (KernelDensity.construct_single (tri_kernel 1 10)
        (line_point 0 3 0 1)).data_tree_.points_ = [p1] ∧
      p1.point = (line_point 0 3 0 1).point ∧
      eval (KernelDensity.construct_single (tri_kernel 1 10) (line_point 0 3 0 1))
          (fun _ => 2) (tri_kernel 1 10) (1 / 100) (1 / 100) =
        p1.attributes.weight * p1.attributes.mass *
          (tri_kernel 1 10).unnormalized_eval (fun _ => 2) p1.point p1.attributes.abw *
          (tri_kernel 1 10).normalization :=
  eval_single_point (tri_kernel 1 10) (tri_kernel_abs_diff_only 1 10) (tri_kernel 1 10)
    (line_point 0 3 0 1) (fun _ => 2) (1 / 100) (1 / 100)

/-- C7. For a density whose reference points are, up to order, what `initialize_attributes`
makes of copies of one point `x` (unit bandwidth corrections, total weight not zero), whose
root has the mass of its points and the tight box and bandwidth range of its points, and for a
kernel meeting the kernel capability, `eval` at any query with `rel_err, abs_err >= 0` is
`unnormalized_eval(q, x, 1) * normalization`. -/
theorem eval_identical_points (kd : KernelDensity α D) (hidx : kd.data_tree_.Indexed)
    (hmass : MassInv kd.data_tree_.points_ kd.data_tree_.root_)
    (ht : TightInv kd.data_tree_.points_ kd.data_tree_.root_)
    (kernel : Kernel α D) (hk : KernelCapability kernel) (x : Point α D)
    (input : List (DataPoint α D))
    (hperm : kd.data_tree_.points_.Perm (initialize_attributes input))
    (hin : ∀ p ∈ input, p.point = x ∧ p.attributes.abw = 1)
    (hw0 : (input.map fun p => p.attributes.weight).sum ≠ 0)
    (q : Point α D) (rel_err abs_err : α) (hrel : 0 ≤ rel_err) (_habs : 0 ≤ abs_err) :
    eval kd q kernel rel_err abs_err = kernel.unnormalized_eval q x 1 * kernel.normalization := by
  obtain ⟨hpts0, hw1⟩ := initialize_attributes_identical input x hin hw0
  have hpts : ∀ p ∈ kd.data_tree_.points_,
      p.point = x ∧ p.attributes.abw = 1 ∧ p.attributes.mass = p.attributes.weight :=
    fun p hp => hpts0 p (hperm.mem_iff.mp hp)
  have hw : (kd.data_tree_.points_.map fun p => p.attributes.weight).sum = 1 := by
    rw [← hw1]
    exact (hperm.map _).sum_eq
  obtain ⟨hlo, hup, ⟨pl, hpl, hla⟩, ⟨pu, hpu, hua⟩⟩ := ht
  have hb : ∀ i, kd.data_tree_.root_.bbox_ i = { lower := x i, upper := x i } := by
    intro i
    obtain ⟨p1, hp1, h1⟩ := hlo i
    obtain ⟨p2, hp2, h2⟩ := hup i
    rw [(hpts p1 (mem_of_mem_index_range hp1)).1] at h1
    rw [(hpts p2 (mem_of_mem_index_range hp2)).1] at h2
    cases hI : kd.data_tree_.root_.bbox_ i with
    | mk lo hi =>
      rw [hI] at h1 h2
      simp only at h1 h2
      rw [h1, h2]
  rw [(hpts pl (mem_of_mem_index_range hpl)).2.1] at hla
  rw [(hpts pu (mem_of_mem_index_range hpu)).2.1] at hua
  have hest := estimate_contributions_point kernel kd.data_tree_.root_ x q 1
    (hk.abs_diff_only 1 one_pos) hb hla hua
  have hm : kd.data_tree_.root_.attr_.mass = 1 := by
    rw [hmass, hidx.root_start, index_range_all _ _ hidx.root_end, ← hw]
    congr 1
    exact List.map_congr_left (fun p hp => (hpts p hp).2.2)
  unfold eval
  simp only
  rw [single_tree_of_can_approximate, hest]
  · simp only
    rw [tighten_bounds_exact, hm]
    ring
  · rw [hest]
    exact can_approximate_exact kd _ _ _ _ hrel

/-- C7 at the density built from two copies of the point `0` with weights `3` and `1`. -/
theorem eval_identical_points_witness :
    (twin_input.map fun p => p.attributes.weight).sum ≠ 0 ∧
    eval twin_kd (fun _ => 2) (tri_kernel 1 10) (1 / 100) (1 / 100) =
      (tri_kernel 1 10).unnormalized_eval (fun _ => 2) (fun _ => 0) 1 *
        (tri_kernel 1 10).normalization :=
  ⟨by norm_num [twin_input, line_point],
    eval_identical_points twin_kd twin_kd_indexed twin_kd_mass twin_kd_tight (tri_kernel 1 10)
      (tri_kernel_capability 1 10 (by norm_num)) (fun _ => 0) twin_input (List.Perm.refl _)
      twin_input_identical (by norm_num [twin_input, line_point]) (fun _ => 2) (1 / 100)
      (1 / 100) (by norm_num) (by norm_num)⟩

/-- C8. The test `can_approximate` answers true exactly when, with
`abs_tol = 2 * abs_err / N` for `N` the number of reference points, `|du_new| <= abs_tol`, or
`|du_new - dl_new| <= abs_tol`, or the bounds `(upper', lower')` that `tighten_bounds` makes
of `(upper, lower)` satisfy `|upper' - lower'| <= abs_err` or
`|upper' - lower'| <= |lower'| * rel_err`. The test only returns the answer: `upper` and
`lower` are passed by value. -/
theorem can_approximate_iff (kd : KernelDensity α D) (D_node : TreeNode α D)
    (du_new dl_new du dl upper lower rel_err abs_err : α) :
    can_approximate kd D_node du_new dl_new du dl upper lower rel_err abs_err = true ↔
      (|du_new| ≤ 2 * abs_err / (kd.data_tree_.points_.length : α) ∨
       |du_new - dl_new| ≤ 2 * abs_err / (kd.data_tree_.points_.length : α) ∨
       |(tighten_bounds D_node du_new dl_new du dl upper lower).1 -
          (tighten_bounds D_node du_new dl_new du dl upper lower).2| ≤ abs_err ∨
       |(tighten_bounds D_node du_new dl_new du dl upper lower).1 -
          (tighten_bounds D_node du_new dl_new du dl upper lower).2| ≤
         |(tighten_bounds D_node du_new dl_new du dl upper lower).2| * rel_err) := by
  unfold can_approximate Kdtree.size
  simp only []
  split_ifs with h1 h2 h3 <;> simp_all

/-- C9. The function `tighten_bounds` returns `lower' = lower + mass_D * (dl_new - dl)` and
`upper' = max(upper + mass_D * (du_new - du), lower')`; hence `lower' <= upper'` for every
input. -/
theorem tighten_bounds_spec (D_node : TreeNode α D) (du_new dl_new du dl upper lower : α) :
    (tighten_bounds D_node du_new dl_new du dl upper lower).2 =
      lower + D_node.attr_.mass * (dl_new - dl) ∧
    (tighten_bounds D_node du_new dl_new du dl upper lower).1 =
      max (upper + D_node.attr_.mass * (du_new - du))
        (lower + D_node.attr_.mass * (dl_new - dl)) ∧
    (tighten_bounds D_node du_new dl_new du dl upper lower).2 ≤
      (tighten_bounds D_node du_new dl_new du dl upper lower).1 := by
  unfold tighten_bounds
  simp only []
  split_ifs with h
  · refine ⟨rfl, ?_, le_refl _⟩
    simp only []
    rw [max_eq_right (le_of_lt h)]
  · refine ⟨rfl, ?_, ?_⟩
    · simp only []
      rw [max_eq_left (not_lt.mp h)]
    · exact not_lt.mp h

/-- C10 fails as stated. At a node of mass `1`, with `lower = upper = 0`, `dl = 0`,
`dl_new = du_new = 1/2` and `du = 1`, all the input invariants hold, yet
`lower + mass * (dl_new - dl) = 1/2` exceeds `upper + mass * (du_new - du) = -1/2`, and
`tighten_bounds` takes the clamp and returns `(1/2, 1/2)`. -/
theorem tighten_bounds_clamp_taken :
    (0 : ℚ) ≤ unit_kd.data_tree_.root_.attr_.mass ∧
    (0 : ℚ) ≤ 0 ∧ (0 : ℚ) ≤ 1 / 2 ∧ (1 / 2 : ℚ) ≤ 1 / 2 ∧ (1 / 2 : ℚ) ≤ 1 ∧
    ¬ ((0 : ℚ) + unit_kd.data_tree_.root_.attr_.mass * (1 / 2 - 0) ≤
        0 + unit_kd.data_tree_.root_.attr_.mass * (1 / 2 - 1)) ∧
    tighten_bounds unit_kd.data_tree_.root_ (1 / 2) (1 / 2) 1 0 0 0 = (1 / 2, 1 / 2) := by
  refine ⟨?_, ?_, ?_, ?_, ?_, ?_, ?_⟩ <;>
    norm_num [unit_kd, line_leaf_tree, TreeNode.attr_, tighten_bounds]

/-- C10, amended: the gap `upper - lower` must cover what the node may still lose,
`mass_D * (du - dl)`, in place of `lower <= upper`. Then, for `mass_D >= 0` and
`dl <= dl_new <= du_new <= du`,
`lower + mass_D * (dl_new - dl) <= upper + mass_D * (du_new - du)`, and `tighten_bounds`
returns these two values without the clamp. -/
theorem tighten_bounds_no_clamp (D_node : TreeNode α D) (du_new dl_new du dl upper lower : α)
    (hm : 0 ≤ D_node.attr_.mass)
    (hul : D_node.attr_.mass * (du - dl) ≤ upper - lower)
    (_h1 : dl ≤ dl_new) (h2 : dl_new ≤ du_new) (_h3 : du_new ≤ du) :
    lower + D_node.attr_.mass * (dl_new - dl) ≤ upper + D_node.attr_.mass * (du_new - du) ∧
    tighten_bounds D_node du_new dl_new du dl upper lower =
      (upper + D_node.attr_.mass * (du_new - du), lower + D_node.attr_.mass * (dl_new - dl)) := by
  have h : lower + D_node.attr_.mass * (dl_new - dl) ≤
      upper + D_node.attr_.mass * (du_new - du) := by
    have := mul_nonneg hm (sub_nonneg.mpr h2)
    nlinarith
  refine ⟨h, ?_⟩
  unfold tighten_bounds
  simp only [gt_iff_lt, not_lt.mpr h, if_false]

/-- The amended C10 at a node of mass `1` with `(upper, lower) = (1, 0)`, `(du, dl) = (1, 0)`
and `(du_new, dl_new) = (3/4, 1/4)`. -/
theorem tighten_bounds_no_clamp_witness :
    unit_kd.data_tree_.root_.attr_.mass * ((1 : ℚ) - 0) ≤ 1 - 0 ∧
    (0 : ℚ) + unit_kd.data_tree_.root_.attr_.mass * (1 / 4 - 0) ≤
      1 + unit_kd.data_tree_.root_.attr_.mass * (3 / 4 - 1) ∧
    tighten_bounds unit_kd.data_tree_.root_ (3 / 4) (1 / 4) 1 0 1 0 =
      (1 + unit_kd.data_tree_.root_.attr_.mass * (3 / 4 - 1),
        0 + unit_kd.data_tree_.root_.attr_.mass * (1 / 4 - 0)) :=
  ⟨by norm_num [unit_kd, line_leaf_tree, TreeNode.attr_],
    tighten_bounds_no_clamp _ _ _ _ _ _ _ (by norm_num [unit_kd, line_leaf_tree, TreeNode.attr_])
      (by norm_num [unit_kd, line_leaf_tree, TreeNode.attr_]) (by norm_num) (by norm_num)
      (by norm_num)⟩

/-- C11. The call `adapt_density(alpha, rel_err, abs_err)` always returns or throws; it
throws `std::invalid_argument` exactly when `alpha < 0` or `alpha > 1`, it throws nothing
else, and when it throws the `KernelDensity` (kernel, points, node aggregates, cumulative
weights) is what it was before the call. -/
theorem adapt_density_invalid_argument (cmath : Cmath α) (flt_max flt_min : α)
    (kd : KernelDensity α D) (alpha rel_err abs_err : α) :
    ∃ r, adapt_density cmath flt_max flt_min kd alpha rel_err abs_err = some r ∧
      (r.1 = .error .invalid_argument ↔ alpha < 0 ∨ alpha > 1) ∧
      (¬ (alpha < 0 ∨ alpha > 1) → r.1 = .ok ()) ∧
      (∀ e, r.1 = .error e → r.2 = kd) := by
  by_cases h : alpha < 0 ∨ alpha > 1
  · refine ⟨(.error .invalid_argument, kd), by unfold adapt_density; rw [if_pos h], ?_, ?_, ?_⟩
    · exact ⟨fun _ => h, fun _ => rfl⟩
    · exact fun h' => absurd h h'
    · exact fun _ _ => rfl
  · by_cases hz : alpha = 0
    · refine ⟨(.ok (), unadapt_density kd),
        by unfold adapt_density; rw [if_neg h]; simp only; rw [if_pos hz], ?_, ?_, ?_⟩
      · exact ⟨fun h' => Except.noConfusion h', fun h' => absurd h' h⟩
      · exact fun _ => rfl
      · intro e h'
        cases h'
    · rw [not_or, not_lt, not_lt] at h
      obtain ⟨t, -, -, e⟩ := adapt_density_eq cmath flt_max flt_min kd alpha rel_err abs_err
        (lt_of_le_of_ne h.1 (Ne.symm hz)) h.2
      refine ⟨_, e, ?_, ?_, ?_⟩
      · refine ⟨fun h' => Except.noConfusion h', fun h' => ?_⟩
        rcases h' with h' | h'
        · exact absurd h' (not_lt.mpr h.1)
        · exact absurd h' (not_lt.mpr h.2)
      · exact fun _ => rfl
      · intro e h'
        cases h'

/-- C12. From every state and for all tolerances, `adapt_density(0, rel_err, abs_err)`
returns normally and leaves the `KernelDensity` in the state that `unadapt_density()`
leaves. -/
theorem adapt_density_zero (cmath : Cmath α) (flt_max flt_min : α) (kd : KernelDensity α D)
    (rel_err abs_err : α) :
    adapt_density cmath flt_max flt_min kd 0 rel_err abs_err =
      some (.ok (), unadapt_density kd) :=
  adapt_density_at_zero cmath flt_max flt_min kd rel_err abs_err

/-- C13. Calling `unadapt_density()` twice leaves the state that one call leaves. After a
call every reference point has `lower_abw = upper_abw = 1` and `mass = weight`, and the
coordinates and weights of the points, in order, are what they were. -/
theorem unadapt_density_idempotent (kd : KernelDensity α D) :
    unadapt_density (unadapt_density kd) = unadapt_density kd ∧
    (∀ p ∈ (unadapt_density kd).data_tree_.points_,
      p.attributes.lower_abw = 1 ∧ p.attributes.upper_abw = 1 ∧
      p.attributes.mass = p.attributes.weight) ∧
    (unadapt_density kd).data_tree_.points_.map (fun p => (p.point, p.attributes.weight)) =
      kd.data_tree_.points_.map (fun p => (p.point, p.attributes.weight)) := by
  refine ⟨unadapt_density_idem kd, ?_, ?_⟩
  · intro p hp
    simp only [unadapt_density, List.mem_map] at hp
    obtain ⟨p0, -, rfl⟩ := hp
    exact ⟨rfl, rfl, rfl⟩
  · simp only [unadapt_density, List.map_map, Function.comp_def]

/-- C14. For `alpha` in `(0, 1]`, `adapt_density` returns normally; with `t` the result of
the dual-tree self-evaluation in the un-adapted state, `f_i` the value of its `i`-th point
(which is at `x_i`) and `g = exp(sum_i weight_i * log f_i)`, the `i`-th reference point keeps
its coordinates and weight and gets `lower_abw = upper_abw = abw = pow(f_i / g, -alpha)` and
`mass = weight * abw^(-D)`. When `exp` and `pow` of a positive base are positive, `f_i > 0`
gives `abw_i > 0`. -/
theorem adapt_density_sets_bandwidths (cmath : Cmath α) (flt_max flt_min : α)
    (kd : KernelDensity α D) (alpha rel_err abs_err : α) (h0 : 0 < alpha) (h1 : alpha ≤ 1) :
    ∃ t kd',
      eval_tree (unadapt_density kd) flt_max flt_min (unadapt_density kd).data_tree_
        kd.kernel_ rel_err abs_err = some t ∧
      adapt_density cmath flt_max flt_min kd alpha rel_err abs_err = some (.ok (), kd') ∧
      kd'.data_tree_.points_.length = kd.data_tree_.points_.length ∧
      ∀ (i : Nat) (p : DataPoint α D), kd.data_tree_.points_[i]? = some p →
        ∃ q p' : DataPoint α D, t.points_[i]? = some q ∧ q.point = p.point ∧
          kd'.data_tree_.points_[i]? = some p' ∧
          p'.point = p.point ∧ p'.attributes.weight = p.attributes.weight ∧
          p'.attributes.abw = cmath.pow (q.attributes.value /
            geometric_mean_pilot cmath (kd.data_tree_.points_.map fun p => p.attributes.weight)
              (t.points_.map fun q => q.attributes.value)) (-alpha) ∧
          p'.attributes.lower_abw = p'.attributes.abw ∧
          p'.attributes.upper_abw = p'.attributes.abw ∧
          p'.attributes.mass = p'.attributes.weight * p'.attributes.abw ^ (-(D : ℤ)) ∧
          ((∀ x, 0 < cmath.exp x) → (∀ x y, 0 < x → 0 < cmath.pow x y) →
            0 < q.attributes.value → 0 < p'.attributes.abw) := by
  obtain ⟨t, et, pt, e⟩ := adapt_density_eq cmath flt_max flt_min kd alpha rel_err abs_err h0 h1
  have hl := pt.length_eq
  have hw : ((unadapt_density kd).data_tree_.points_.map fun p => p.attributes.weight) =
      kd.data_tree_.points_.map fun p => p.attributes.weight := by
    simp only [unadapt_density, List.map_map, Function.comp_def]
  refine ⟨t, _, et, e, ?_, ?_⟩
  · rw [adapt_density_update_length cmath _ t alpha hl]
    simp only [unadapt_density, List.length_map]
  · intro i p hp
    have hp0 : (unadapt_density kd).data_tree_.points_[i]? = some
        { p with attributes :=
            { p.attributes with
              lower_abw := 1, upper_abw := 1, mass := p.attributes.weight } } := by
      simp only [unadapt_density, List.getElem?_map, hp, Option.map_some']
    obtain ⟨q, hq, hp'⟩ := adapt_density_update_getElem? cmath (unadapt_density kd) t alpha hl
      i _ hp0
    have hi : i < (unadapt_density kd).data_tree_.points_.length := by
      by_contra h
      rw [List.getElem?_eq_none (by omega)] at hp0
      exact Option.noConfusion hp0
    have hrel := (List.forall₂_iff_get.mp pt).2 i hi (by omega)
    have e1 : (unadapt_density kd).data_tree_.points_.get ⟨i, hi⟩ = _ :=
      Option.some.inj ((List.getElem?_eq_getElem hi).symm.trans hp0)
    have e2 : t.points_.get ⟨i, by omega⟩ = q :=
      Option.some.inj ((List.getElem?_eq_getElem (by omega)).symm.trans hq)
    rw [e1, e2] at hrel
    rw [hw] at hp'
    refine ⟨q, _, hq, hrel.1, hp', rfl, rfl, rfl, rfl, rfl, rfl, ?_⟩
    intro hexp hpow hpos
    exact hpow _ _ (div_pos hpos (hexp _))

/-- C14 at the one-point density over the reals, with the real `log`, `exp` and power
and `alpha = 1/2`. -/
theorem adapt_density_sets_bandwidths_witness :
    (0 : ℝ) < 1 / 2 ∧ (1 / 2 : ℝ) ≤ 1 ∧
    ∃ t kd',
      eval_tree (unadapt_density (one_point_kd (2 : ℝ))) flt_max_value flt_min_value
        (unadapt_density (one_point_kd (2 : ℝ))).data_tree_ (one_point_kd (2 : ℝ)).kernel_
        0 0 = some t ∧
      adapt_density (Cmath.mk Real.log Real.exp fun x y => x ^ y) flt_max_value
        flt_min_value (one_point_kd (2 : ℝ)) (1 / 2) 0 0 = some (.ok (), kd') ∧
      kd'.data_tree_.points_.length = (one_point_kd (2 : ℝ)).data_tree_.points_.length ∧
      ∀ (i : Nat) (p : DataPoint ℝ 1), (one_point_kd (2 : ℝ)).data_tree_.points_[i]? = some p →
        ∃ q p' : DataPoint ℝ 1, t.points_[i]? = some q ∧ q.point = p.point ∧
          kd'.data_tree_.points_[i]? = some p' ∧
          p'.point = p.point ∧ p'.attributes.weight = p.attributes.weight ∧
          p'.attributes.abw = (q.attributes.value /
            geometric_mean_pilot (Cmath.mk Real.log Real.exp fun x y => x ^ y)
              ((one_point_kd (2 : ℝ)).data_tree_.points_.map fun p => p.attributes.weight)
              (t.points_.map fun q => q.attributes.value)) ^ (-(1 / 2 : ℝ)) ∧
          p'.attributes.lower_abw = p'.attributes.abw ∧
          p'.attributes.upper_abw = p'.attributes.abw ∧
          p'.attributes.mass = p'.attributes.weight * p'.attributes.abw ^ (-((1 : ℕ) : ℤ)) ∧
          ((∀ x, 0 < Real.exp x) → (∀ x y : ℝ, 0 < x → 0 < x ^ y) →
            0 < q.attributes.value → 0 < p'.attributes.abw) :=
  ⟨by norm_num, by norm_num,
    adapt_density_sets_bandwidths (Cmath.mk Real.log Real.exp fun x y => x ^ y)
      flt_max_value flt_min_value (one_point_kd (2 : ℝ)) (1 / 2) 0 0 (by norm_num)
      (by norm_num)⟩

/-- C15 fails as stated. For the density constructed from one reference point of weight
`1`, with a kernel of normalisation `2`, over the reals and with `alpha = 1/2`, the pilot
value is `f_1 = 2` and `g = exp(1 * log 2) = 2`; `adapt_density` returns and leaves
`sum_i weight_i * log(abw_i) = 0`, which is not `alpha * log g = log(2) / 2`. -/
theorem adapt_density_log_mean_not_alpha_log_g :
    ((one_point_kd (2 : ℝ)).data_tree_.points_.map fun p => p.attributes.weight).sum = 1 ∧
    ∃ t kd',
      eval_tree (unadapt_density (one_point_kd (2 : ℝ))) flt_max_value flt_min_value
        (unadapt_density (one_point_kd (2 : ℝ))).data_tree_ (one_point_kd (2 : ℝ)).kernel_
        0 0 = some t ∧
      (t.points_.map fun q => q.attributes.value) = [2] ∧
      adapt_density (Cmath.mk Real.log Real.exp fun x y => x ^ y) flt_max_value
        flt_min_value (one_point_kd (2 : ℝ)) (1 / 2) 0 0 = some (.ok (), kd') ∧
      geometric_mean_pilot (Cmath.mk Real.log Real.exp fun x y => x ^ y)
        ((one_point_kd (2 : ℝ)).data_tree_.points_.map fun p => p.attributes.weight)
        (t.points_.map fun q => q.attributes.value) = 2 ∧
      (kd'.data_tree_.points_.map fun p =>
        p.attributes.weight * Real.log p.attributes.abw).sum = 0 ∧
      (kd'.data_tree_.points_.map fun p =>
        p.attributes.weight * Real.log p.attributes.abw).sum ≠
        1 / 2 * Real.log (geometric_mean_pilot (Cmath.mk Real.log Real.exp fun x y => x ^ y)
          ((one_point_kd (2 : ℝ)).data_tree_.points_.map fun p => p.attributes.weight)
          (t.points_.map fun q => q.attributes.value)) := by
  obtain ⟨t, et, pt, e⟩ := adapt_density_eq (Cmath.mk Real.log Real.exp fun x y => x ^ y)
    flt_max_value flt_min_value (one_point_kd (2 : ℝ)) (1 / 2) 0 0 (by norm_num) (by norm_num)
  have hv := one_point_pilot (2 : ℝ) flt_max_value flt_min_value t et
  have hsum := adapt_density_update_log_sum (Cmath.mk Real.log Real.exp fun x y => x ^ y)
    Real.log_exp Real.exp_pos
    (fun x y hx hy => Real.log_div (ne_of_gt hx) (ne_of_gt hy))
    (fun x y hx => Real.log_rpow hx y) (unadapt_density (one_point_kd (2 : ℝ))) t (1 / 2)
    pt.length_eq (by rw [unadapt_density_weights]; exact one_point_weight_sum 2)
    (by
      intro q hq
      have : q.attributes.value ∈ t.points_.map fun q => q.attributes.value :=
        List.mem_map_of_mem _ hq
      rw [hv] at this
      rw [List.mem_singleton.mp this]
      norm_num)
  have hg : geometric_mean_pilot (Cmath.mk Real.log Real.exp fun x y => x ^ y)
      ((one_point_kd (2 : ℝ)).data_tree_.points_.map fun p => p.attributes.weight)
      (t.points_.map fun q => q.attributes.value) = 2 := by
    rw [hv, (one_point_kd_points (2 : ℝ)).1]
    simp [geometric_mean_pilot, Real.exp_log]
  refine ⟨one_point_weight_sum 2, t, _, et, hv, e, hg, hsum, ?_⟩
  rw [hsum, hg]
  have : 0 < Real.log 2 := Real.log_pos (by norm_num)
  exact ne_of_lt (by positivity)

/-- C15, amended: the weighted mean of the logarithms of the local bandwidths is zero.
When `log`, `exp` and `pow` obey the laws of the real functions, the weights sum to one and
every pilot value is positive, then after `adapt_density(alpha, ...)` with `alpha` in
`(0, 1]` the reference points satisfy `sum_i weight_i * log(abw_i) = 0`. -/
theorem adapt_density_log_mean_zero (cmath : Cmath α)
    (hlog_exp : ∀ x, cmath.log (cmath.exp x) = x) (hexp : ∀ x, 0 < cmath.exp x)
    (hdiv : ∀ x y, 0 < x → 0 < y → cmath.log (x / y) = cmath.log x - cmath.log y)
    (hpow : ∀ x y, 0 < x → cmath.log (cmath.pow x y) = y * cmath.log x)
    (flt_max flt_min : α) (kd : KernelDensity α D) (alpha rel_err abs_err : α)
    (h0 : 0 < alpha) (h1 : alpha ≤ 1)
    (hw : (kd.data_tree_.points_.map fun p => p.attributes.weight).sum = 1)
    (hpos : ∀ t, eval_tree (unadapt_density kd) flt_max flt_min (unadapt_density kd).data_tree_
      kd.kernel_ rel_err abs_err = some t → ∀ q ∈ t.points_, 0 < q.attributes.value) :
    ∃ kd', adapt_density cmath flt_max flt_min kd alpha rel_err abs_err = some (.ok (), kd') ∧
      (kd'.data_tree_.points_.map fun p =>
        p.attributes.weight * cmath.log p.attributes.abw).sum = 0 := by
  obtain ⟨t, et, pt, e⟩ := adapt_density_eq cmath flt_max flt_min kd alpha rel_err abs_err h0 h1
  refine ⟨_, e, ?_⟩
  exact adapt_density_update_log_sum cmath hlog_exp hexp hdiv hpow _ t alpha pt.length_eq
    (by rw [unadapt_density_weights]; exact hw) (hpos t et)

/-- The amended C15 at the one-point density over the reals, with the real `log`, `exp`
and power and `alpha = 1/2`. -/
theorem adapt_density_log_mean_zero_witness :
    (0 : ℝ) < 1 / 2 ∧ (1 / 2 : ℝ) ≤ 1 ∧
    ((one_point_kd (2 : ℝ)).data_tree_.points_.map fun p => p.attributes.weight).sum = 1 ∧
    ∃ kd', adapt_density (Cmath.mk Real.log Real.exp fun x y => x ^ y) flt_max_value flt_min_value (one_point_kd (2 : ℝ)) (1 / 2) 0 0 =
        some (.ok (), kd') ∧
      (kd'.data_tree_.points_.map fun p =>
        p.attributes.weight * Real.log p.attributes.abw).sum = 0 :=
  ⟨by norm_num, by norm_num, one_point_weight_sum 2,
    adapt_density_log_mean_zero (Cmath.mk Real.log Real.exp fun x y => x ^ y) Real.log_exp Real.exp_pos
      (fun x y hx hy => Real.log_div (ne_of_gt hx) (ne_of_gt hy))
      (fun x y hx => Real.log_rpow hx y) flt_max_value flt_min_value (one_point_kd (2 : ℝ))
      (1 / 2) 0 0 (by norm_num) (by norm_num) (one_point_weight_sum 2)
      (by
        intro t et q hq
        have hv := one_point_pilot (2 : ℝ) flt_max_value flt_min_value t et
        have : q.attributes.value ∈ t.points_.map fun q => q.attributes.value :=
          List.mem_map_of_mem _ hq
        rw [hv] at this
        rw [List.mem_singleton.mp this]
        norm_num)⟩

/-- C16. For a density constructed from input points in the non-adaptive state (`abw = 1`)
and `alpha` in `[0, 1]`, `adapt_density(alpha, ...)` returns normally, and after the call
`unadapt_density()` every reference point has, in order, the coordinates, the weight and the
mass that it had before `adapt_density`; that mass is its weight. -/
theorem adapt_unadapt_round_trip (cmath : Cmath α) (flt_max flt_min : α)
    (kd : KernelDensity α D) (input : List (DataPoint α D)) (hc : kd.ConstructedFrom input)
    (hin : ∀ p ∈ input, p.attributes.abw = 1) (alpha rel_err abs_err : α)
    (h0 : 0 ≤ alpha) (h1 : alpha ≤ 1) :
    ∃ kd', adapt_density cmath flt_max flt_min kd alpha rel_err abs_err = some (.ok (), kd') ∧
      (unadapt_density kd').data_tree_.points_.map
          (fun p => (p.point, p.attributes.weight, p.attributes.mass)) =
        kd.data_tree_.points_.map
          (fun p => (p.point, p.attributes.weight, p.attributes.mass)) ∧
      ∀ p ∈ kd.data_tree_.points_, p.attributes.mass = p.attributes.weight := by
  have hm : ∀ p ∈ kd.data_tree_.points_, p.attributes.mass = p.attributes.weight := by
    intro p hp
    have hp' := hc.1.mem_iff.mp hp
    rw [initialize_attributes_eq, List.mem_map] at hp'
    obtain ⟨p0, hp0, rfl⟩ := hp'
    simp only [hin p0 hp0, one_zpow, mul_one]
  have hkd : kd.data_tree_.points_.map
      (fun p => (p.point, p.attributes.weight, p.attributes.mass)) =
      kd.data_tree_.points_.map (fun p => (p.point, p.attributes.weight, p.attributes.weight)) :=
    List.map_congr_left (fun p hp => by rw [hm p hp])
  have hun : ∀ k : KernelDensity α D, (unadapt_density k).data_tree_.points_.map
      (fun p => (p.point, p.attributes.weight, p.attributes.mass)) =
      k.data_tree_.points_.map (fun p => (p.point, p.attributes.weight, p.attributes.weight)) := by
    intro k
    simp only [unadapt_density, List.map_map, Function.comp_def]
  rcases eq_or_lt_of_le h0 with hz | hpos
  · subst hz
    refine ⟨_, adapt_density_at_zero cmath flt_max flt_min kd rel_err abs_err, ?_, hm⟩
    rw [hun, hkd]
    simp only [unadapt_density, List.map_map, Function.comp_def]
  · obtain ⟨t, -, pt, e⟩ := adapt_density_eq cmath flt_max flt_min kd alpha rel_err abs_err
      hpos h1
    refine ⟨_, e, ?_, hm⟩
    rw [hun, hkd]
    unfold adapt_density_update
    simp only
    rw [map_zipWith_set_abw
      (fun p : DataPoint α D => (p.point, p.attributes.weight, p.attributes.weight))
      (fun _ _ => rfl) _ _
      (by rw [List.length_map, List.length_map]; exact pt.length_eq)]
    simp only [unadapt_density, List.map_map, Function.comp_def]

/-- C16 at the one-point density over the reals and `alpha = 1/2`. -/
theorem adapt_unadapt_round_trip_witness :
    (one_point_kd (2 : ℝ)).ConstructedFrom [one_point] ∧
    (∀ p ∈ [(one_point : DataPoint ℝ 1)], p.attributes.abw = 1) ∧
    ∃ kd', adapt_density (Cmath.mk Real.log Real.exp fun x y => x ^ y) flt_max_value flt_min_value (one_point_kd (2 : ℝ)) (1 / 2) 0 0 =
        some (.ok (), kd') ∧
      (unadapt_density kd').data_tree_.points_.map
          (fun p => (p.point, p.attributes.weight, p.attributes.mass)) =
        (one_point_kd (2 : ℝ)).data_tree_.points_.map
          (fun p => (p.point, p.attributes.weight, p.attributes.mass)) ∧
      ∀ p ∈ (one_point_kd (2 : ℝ)).data_tree_.points_, p.attributes.mass = p.attributes.weight :=
  ⟨one_point_kd_constructed 2, by simp [one_point, Attributes.abw],
    adapt_unadapt_round_trip (Cmath.mk Real.log Real.exp fun x y => x ^ y) flt_max_value flt_min_value (one_point_kd (2 : ℝ)) [one_point]
      (one_point_kd_constructed 2) (by simp [one_point, Attributes.abw]) (1 / 2) 0 0
      (by norm_num) (by norm_num)⟩

/-- C17. After construction from an input sequence with non-negative weights of positive
total `W`, `initialize_attributes` has kept the length, the order, the coordinates and the
bandwidth corrections and has divided every weight by `W`; the weights of the reference points
sum to exactly one, and every reference point has `mass = weight * abw^(-D)` and a weight
that is not negative. -/
theorem construction_normalizes_weights (kd : KernelDensity α D)
    (input : List (DataPoint α D)) (hc : kd.ConstructedFrom input)
    (hnn : ∀ p ∈ input, 0 ≤ p.attributes.weight)
    (hW : 0 < (input.map fun p => p.attributes.weight).sum) :
    (initialize_attributes input).length = input.length ∧
    (∀ (i : Nat) (p0 : DataPoint α D), input[i]? = some p0 →
      ∃ p : DataPoint α D, (initialize_attributes input)[i]? = some p ∧ p.point = p0.point ∧
        p.attributes.abw = p0.attributes.abw ∧
        p.attributes.weight =
          p0.attributes.weight / (input.map fun p => p.attributes.weight).sum) ∧
    kd.data_tree_.points_.length = input.length ∧
    (kd.data_tree_.points_.map fun p => p.attributes.weight).sum = 1 ∧
    ∀ p ∈ kd.data_tree_.points_,
      p.attributes.mass = p.attributes.weight * p.attributes.abw ^ (-(D : ℤ)) ∧
      0 ≤ p.attributes.weight := by
  have hlen : (initialize_attributes input).length = input.length := by
    rw [initialize_attributes_eq, List.length_map]
  refine ⟨hlen, ?_, by rw [hc.1.length_eq, hlen], ?_, ?_⟩
  · intro i p0 hp0
    rw [initialize_attributes_eq, List.getElem?_map, hp0]
    exact ⟨_, rfl, rfl, rfl, rfl⟩
  · rw [(hc.1.map _).sum_eq, initialize_attributes_weight_sum]
    exact div_self (ne_of_gt hW)
  · intro p hp
    have hp' := hc.1.mem_iff.mp hp
    rw [initialize_attributes_eq, List.mem_map] at hp'
    obtain ⟨p0, hp0, rfl⟩ := hp'
    exact ⟨rfl, div_nonneg (hnn p0 hp0) (le_of_lt hW)⟩

/-- C17 at the density `heavy_kd`, constructed from two points of weights `3` and `1`. -/
theorem construction_normalizes_weights_witness :
    (0 : ℚ) < (heavy_input.map fun p => p.attributes.weight).sum ∧
    (initialize_attributes heavy_input).length = heavy_input.length ∧
    (∀ (i : Nat) (p0 : DataPoint ℚ 1), heavy_input[i]? = some p0 →
      ∃ p : DataPoint ℚ 1, (initialize_attributes heavy_input)[i]? = some p ∧
        p.point = p0.point ∧ p.attributes.abw = p0.attributes.abw ∧
        p.attributes.weight =
          p0.attributes.weight / (heavy_input.map fun p => p.attributes.weight).sum) ∧
    heavy_kd.data_tree_.points_.length = heavy_input.length ∧
    (heavy_kd.data_tree_.points_.map fun p => p.attributes.weight).sum = 1 ∧
    ∀ p ∈ heavy_kd.data_tree_.points_,
      p.attributes.mass = p.attributes.weight * p.attributes.abw ^ (-((1 : ℕ) : ℤ)) ∧
      0 ≤ p.attributes.weight :=
  ⟨by norm_num [heavy_input, line_point],
    construction_normalizes_weights heavy_kd heavy_input heavy_kd_constructed
      (by simp [heavy_input, line_point]) (by norm_num [heavy_input, line_point])⟩

/-- C18. After construction from `N >= 1` points with non-negative weights, `cum_weights`
has `N` entries, the entry `i < N - 1` is the sum of the weights of the tree-ordered points
`0..i`, the entries do not decrease, and the last entry is exactly `1`. -/
theorem cum_weights_after_construction (kd : KernelDensity α D)
    (input : List (DataPoint α D)) (hc : kd.ConstructedFrom input) (hne : input ≠ [])
    (hnn : ∀ p ∈ input, 0 ≤ p.attributes.weight) :
    kd.cum_weights_.length = kd.data_tree_.points_.length ∧
    kd.data_tree_.points_.length = input.length ∧
    (∀ i, i + 1 < kd.data_tree_.points_.length →
      kd.cum_weights_[i]? =
        some ((kd.data_tree_.points_.take (i + 1)).map fun p => p.attributes.weight).sum) ∧
    NonDecreasing kd.cum_weights_ ∧
    kd.cum_weights_.getLast? = some 1 := by
  have hlen : kd.data_tree_.points_.length = input.length := by
    rw [hc.1.length_eq, initialize_attributes_eq, List.length_map]
  have hW : 0 ≤ (input.map fun p => p.attributes.weight).sum :=
    sum_nonneg_of_forall _ _ hnn
  have hnn' : ∀ p ∈ kd.data_tree_.points_, 0 ≤ p.attributes.weight := by
    intro p hp
    have hp' := hc.1.mem_iff.mp hp
    rw [initialize_attributes_eq, List.mem_map] at hp'
    obtain ⟨p0, hp0, rfl⟩ := hp'
    exact div_nonneg (hnn p0 hp0) hW
  have hle : (kd.data_tree_.points_.map fun p => p.attributes.weight).sum ≤ 1 := by
    rw [(hc.1.map _).sum_eq, initialize_attributes_weight_sum]
    exact div_self_le_one _
  have hne' : kd.data_tree_.points_ ≠ [] := by
    intro h
    rw [h] at hlen
    exact hne (List.length_eq_zero.mp hlen.symm)
  obtain ⟨a1, a2, a3, a4⟩ := initialize_cum_weights_spec kd.data_tree_ hne' hnn' hle
  rw [hc.2]
  exact ⟨a1, hlen, a2, a3, a4⟩

/-- C18 at the density `heavy_kd`, whose cumulative weights are `[3/4, 1]`. -/
theorem cum_weights_after_construction_witness :
    heavy_input ≠ [] ∧
    heavy_kd.cum_weights_.length = heavy_kd.data_tree_.points_.length ∧
    heavy_kd.data_tree_.points_.length = heavy_input.length ∧
    (∀ i, i + 1 < heavy_kd.data_tree_.points_.length →
      heavy_kd.cum_weights_[i]? =
        some ((heavy_kd.data_tree_.points_.take (i + 1)).map fun p =>
          p.attributes.weight).sum) ∧
    NonDecreasing heavy_kd.cum_weights_ ∧
    heavy_kd.cum_weights_.getLast? = some 1 :=
  ⟨by simp [heavy_input],
    cum_weights_after_construction heavy_kd heavy_input heavy_kd_constructed
      (by simp [heavy_input]) (by simp [heavy_input, line_point])⟩

/-- C19. For a draw `0 <= u < 1` and non-decreasing cumulative weights that end at `1` and
are as many as the reference points, the search of `simulate` returns an index `i` inside
the range (the assertion holds), the smallest with `cum_weights[i] > u`; an index `j` is
the one chosen exactly when `cum_weights[j-1] <= u < cum_weights[j]`, with `0` for
`cum_weights[-1]`; and `simulate` returns the `i`-th reference point displaced by what the
kernel samples for the `abw` of that point. -/
theorem simulate_selects (kd : KernelDensity α D) (u : α) (kernel_simulate : α → Point α D)
    (hu0 : 0 ≤ u) (hu1 : u < 1) (hs : NonDecreasing kd.cum_weights_)
    (hlast : kd.cum_weights_.getLast? = some 1)
    (hlen : kd.cum_weights_.length = kd.data_tree_.points_.length) :
    ∃ (i : Nat) (ref_pt : DataPoint α D),
      upper_bound kd.cum_weights_ u = i ∧ i < kd.cum_weights_.length ∧
      u < kd.cum_weights_.getD i 0 ∧ (∀ j, j < i → kd.cum_weights_.getD j 0 ≤ u) ∧
      (∀ j, j < kd.cum_weights_.length →
        (j = i ↔ (if j = 0 then 0 else kd.cum_weights_.getD (j - 1) 0) ≤ u ∧
          u < kd.cum_weights_.getD j 0)) ∧
      kd.data_tree_.points_[i]? = some ref_pt ∧
      simulate kd u kernel_simulate =
        some (fun k => ref_pt.point k + kernel_simulate ref_pt.attributes.abw k) := by
  obtain ⟨b1, b2, b3⟩ := upper_bound_spec kd.cum_weights_ u hs
  have hne : kd.cum_weights_ ≠ [] := by
    intro h
    rw [h] at hlast
    exact Option.noConfusion hlast
  have hpos : 0 < kd.cum_weights_.length := List.length_pos.mpr hne
  have hlastD : kd.cum_weights_.getD (kd.cum_weights_.length - 1) 0 = 1 := by
    rw [List.getLast?_eq_getElem?] at hlast
    rw [List.getD_eq_getElem?_getD, hlast]
    rfl
  have hlt : upper_bound kd.cum_weights_ u < kd.cum_weights_.length := by
    by_contra hge
    have := b2 (kd.cum_weights_.length - 1) (by omega)
    rw [hlastD] at this
    exact absurd hu1 (not_lt.mpr this)
  have hi : upper_bound kd.cum_weights_ u < kd.data_tree_.points_.length := by
    rw [← hlen]; exact hlt
  refine ⟨_, kd.data_tree_.points_[upper_bound kd.cum_weights_ u], rfl, hlt,
    b3 _ (le_refl _) hlt, b2, ?_, List.getElem?_eq_getElem hi, ?_⟩
  · intro j hj
    constructor
    · intro hji
      subst hji
      refine ⟨?_, b3 _ (le_refl _) hlt⟩
      split_ifs with h0
      · exact hu0
      · exact b2 _ (by omega)
    · intro ⟨h1, h2⟩
      by_contra hne
      rcases Nat.lt_or_gt_of_ne hne with h | h
      · exact absurd h2 (not_lt.mpr (b2 j h))
      · have hj0 : j ≠ 0 := by omega
        rw [if_neg hj0] at h1
        have := b3 (j - 1) (by omega) (by omega)
        exact absurd this (not_lt.mpr h1)
  · unfold simulate
    simp only
    rw [if_neg (ne_of_lt hlt), List.getElem?_eq_getElem hi]
    rfl

/-- C19 at the density `heavy_kd` (cumulative weights `[3/4, 1]`) and the draw
`u = 4/5`, which selects the second reference point. -/
theorem simulate_selects_witness :
    NonDecreasing heavy_kd.cum_weights_ ∧ heavy_kd.cum_weights_.getLast? = some 1 ∧
    ∃ (i : Nat) (ref_pt : DataPoint ℚ 1),
      upper_bound heavy_kd.cum_weights_ (4 / 5) = i ∧ i < heavy_kd.cum_weights_.length ∧
      (4 / 5 : ℚ) < heavy_kd.cum_weights_.getD i 0 ∧
      (∀ j, j < i → heavy_kd.cum_weights_.getD j 0 ≤ 4 / 5) ∧
      (∀ j, j < heavy_kd.cum_weights_.length →
        (j = i ↔ (if j = 0 then 0 else heavy_kd.cum_weights_.getD (j - 1) 0) ≤ 4 / 5 ∧
          (4 / 5 : ℚ) < heavy_kd.cum_weights_.getD j 0)) ∧
      heavy_kd.data_tree_.points_[i]? = some ref_pt ∧
      simulate heavy_kd (4 / 5) (fun _ _ => 1 / 100) =
        some (fun k => ref_pt.point k + (fun _ _ => (1 / 100 : ℚ)) ref_pt.attributes.abw k) :=
  ⟨heavy_kd_cum_weights.1, heavy_kd_cum_weights.2.1,
    simulate_selects heavy_kd (4 / 5) (fun _ _ => 1 / 100) (by norm_num) (by norm_num)
      heavy_kd_cum_weights.1 heavy_kd_cum_weights.2.1 heavy_kd_cum_weights.2.2⟩

/-- C20. The methods `lower_halfspace(d, v)` and `upper_halfspace(d, v)` throw (a
`std::length_error`, the out-of-range failure of the splits) exactly when the `d`-th edge
does not contain `v`; otherwise they return the rectangle with the `d`-th edge replaced by
`[lower, v]`, respectively `[v, upper]`. In both cases the rectangle they are called on is
unchanged. -/
theorem halfspace_out_of_range (self : Rectangle α D) (d : Fin D) (v : α) :
    ((self.lower_halfspace d v).1 = .error .length_error ↔ (self d).contains v = false) ∧
    ((self.upper_halfspace d v).1 = .error .length_error ↔ (self d).contains v = false) ∧
    ((self d).contains v = true ↔ (self d).lower ≤ v ∧ v ≤ (self d).upper) ∧
    ((self d).contains v = true →
      (self.lower_halfspace d v).1 =
        .ok (fun i => if i = d then { lower := (self d).lower, upper := v } else self i) ∧
      (self.upper_halfspace d v).1 =
        .ok (fun i => if i = d then { lower := v, upper := (self d).upper } else self i)) ∧
    (self.lower_halfspace d v).2 = self ∧ (self.upper_halfspace d v).2 = self := by
  unfold Rectangle.lower_halfspace Rectangle.upper_halfspace Rectangle.resize
  cases h : (self d).contains v
  · simp [Interval.contains] at h ⊢
    intro h1
    exact h h1
  · simp [Interval.contains] at h ⊢
    exact h

/-- C21. When the `d`-th edge `[lo, hi]` of `r` contains `v`, `lower_halfspace(d, v)` returns
a rectangle whose `d`-th edge is `[lo, v]` and `upper_halfspace(d, v)` one whose `d`-th edge
is `[v, hi]`; every other edge of the returned rectangle is the edge of `r`. -/
theorem halfspace_frame (r : Rectangle α D) (d : Fin D) (v : α)
    (h : (r d).contains v = true) :
    ∃ rl ru : Rectangle α D,
      (r.lower_halfspace d v).1 = .ok rl ∧ (r.upper_halfspace d v).1 = .ok ru ∧
      rl d = { lower := (r d).lower, upper := v } ∧
      ru d = { lower := v, upper := (r d).upper } ∧
      ∀ i, i ≠ d → rl i = r i ∧ ru i = r i := by
  obtain ⟨h1, h2⟩ := halfspace_ok r d v h
  refine ⟨_, _, h1, h2, by simp, by simp, ?_⟩
  intro i hi
  simp [hi]

/-- C21 at the unit square, split along the first axis at `1/2`. -/
theorem halfspace_frame_witness :
    ((unit_square : Rectangle ℚ 2) 0).contains (1 / 2) = true ∧
    ∃ rl ru : Rectangle ℚ 2,
      (unit_square.lower_halfspace 0 (1 / 2)).1 = .ok rl ∧
      (unit_square.upper_halfspace 0 (1 / 2)).1 = .ok ru ∧
      rl 0 = { lower := ((unit_square : Rectangle ℚ 2) 0).lower, upper := 1 / 2 } ∧
      ru 0 = { lower := 1 / 2, upper := ((unit_square : Rectangle ℚ 2) 0).upper } ∧
      ∀ i, i ≠ 0 → rl i = unit_square i ∧ ru i = unit_square i :=
  have h : ((unit_square : Rectangle ℚ 2) 0).contains (1 / 2) = true := by
    simp [unit_square, Rectangle.of_points, minmax, Interval.contains]
    norm_num
  ⟨h, halfspace_frame unit_square 0 (1 / 2) h⟩

/-- C22. For a square root that is non-negative and squares back on non-negative numbers,
`r.min_dist(p)` is non-negative with `r.min_dist(p)^2` the sum over the axes of the squared
per-axis minimum distances, and likewise for `max_dist`; the per-axis overloads return the
distances of the `i`-th edge to `p[i]`, which are `max(0, lo - v, v - hi)` and
`max(|v - lo|, |v - hi|)`. -/
theorem rectangle_dist_sq (sqrt : α → α)
    (hsqrt : ∀ x, 0 ≤ x → 0 ≤ sqrt x ∧ sqrt x * sqrt x = x)
    (r : Rectangle α D) (p : Point α D) :
    0 ≤ r.min_dist sqrt p ∧
    r.min_dist sqrt p ^ 2 = ∑ i : Fin D, (AxisDist.min_dist (r i) (p i) : α) ^ 2 ∧
    0 ≤ r.max_dist sqrt p ∧
    r.max_dist sqrt p ^ 2 = ∑ i : Fin D, (AxisDist.max_dist (r i) (p i) : α) ^ 2 ∧
    ∀ i, r.min_dist_axis i p = AxisDist.min_dist (r i) (p i) ∧
      r.max_dist_axis i p = AxisDist.max_dist (r i) (p i) ∧
      (AxisDist.min_dist (r i) (p i) : α) =
        max 0 (max ((r i).lower - p i) (p i - (r i).upper)) ∧
      (AxisDist.max_dist (r i) (p i) : α) = max |p i - (r i).lower| |p i - (r i).upper| := by
  have h1 : 0 ≤ r.min_dist_sq p := by
    rw [min_dist_sq_eq_sum]
    exact Finset.sum_nonneg (fun i _ => sq_nonneg _)
  have h2 : 0 ≤ r.max_dist_sq p := by
    rw [max_dist_sq_eq_sum]
    exact Finset.sum_nonneg (fun i _ => sq_nonneg _)
  refine ⟨(hsqrt _ h1).1, ?_, (hsqrt _ h2).1, ?_, fun i => ⟨rfl, rfl, rfl, rfl⟩⟩
  · rw [← min_dist_sq_eq_sum, sq]
    exact (hsqrt _ h1).2
  · rw [← max_dist_sq_eq_sum, sq]
    exact (hsqrt _ h2).2

/-- C22 over the reals with the real square root, at the unit square and the point
`(2, 2)`. -/
theorem rectangle_dist_sq_witness :
    (∀ x : ℝ, 0 ≤ x → 0 ≤ Real.sqrt x ∧ Real.sqrt x * Real.sqrt x = x) ∧
    0 ≤ (unit_square : Rectangle ℝ 2).min_dist Real.sqrt (fun _ => (2 : ℝ)) ∧
    (unit_square : Rectangle ℝ 2).min_dist Real.sqrt (fun _ => (2 : ℝ)) ^ 2 =
      ∑ i : Fin 2, (AxisDist.min_dist ((unit_square : Rectangle ℝ 2) i) (2 : ℝ) : ℝ) ^ 2 ∧
    0 ≤ (unit_square : Rectangle ℝ 2).max_dist Real.sqrt (fun _ => (2 : ℝ)) ∧
    (unit_square : Rectangle ℝ 2).max_dist Real.sqrt (fun _ => (2 : ℝ)) ^ 2 =
      ∑ i : Fin 2, (AxisDist.max_dist ((unit_square : Rectangle ℝ 2) i) (2 : ℝ) : ℝ) ^ 2 ∧
    ∀ i, (unit_square : Rectangle ℝ 2).min_dist_axis i (fun _ => (2 : ℝ)) =
        AxisDist.min_dist ((unit_square : Rectangle ℝ 2) i) (2 : ℝ) ∧
      (unit_square : Rectangle ℝ 2).max_dist_axis i (fun _ => (2 : ℝ)) =
        AxisDist.max_dist ((unit_square : Rectangle ℝ 2) i) (2 : ℝ) ∧
      (AxisDist.min_dist ((unit_square : Rectangle ℝ 2) i) (2 : ℝ) : ℝ) =
        max 0 (max (((unit_square : Rectangle ℝ 2) i).lower - 2)
          (2 - ((unit_square : Rectangle ℝ 2) i).upper)) ∧
      (AxisDist.max_dist ((unit_square : Rectangle ℝ 2) i) (2 : ℝ) : ℝ) =
        max |2 - ((unit_square : Rectangle ℝ 2) i).lower|
          |2 - ((unit_square : Rectangle ℝ 2) i).upper| :=
  ⟨fun x hx => ⟨Real.sqrt_nonneg x, Real.mul_self_sqrt hx⟩,
    rectangle_dist_sq Real.sqrt (fun x hx => ⟨Real.sqrt_nonneg x, Real.mul_self_sqrt hx⟩)
      unit_square (fun _ => 2)⟩

/-- C23. When every edge of `r'` lies inside the matching edge of `r`, then for every point
`p` the minimum distance of `r'` is at least that of `r` and the maximum distance of `r'` at
most that of `r`, on every axis and, for a monotone square root, for the Euclidean distance.
The rectangles returned by `lower_halfspace` and `upper_halfspace` of a rectangle with valid
edges are of this kind. -/
theorem rectangle_dist_monotone (sqrt : α → α)
    (hmono : ∀ x y, 0 ≤ x → x ≤ y → sqrt x ≤ sqrt y)
    (r r' : Rectangle α D) (hin : ∀ i, (r' i).Within (r i)) (p : Point α D) :
    (∀ i, r.min_dist_axis i p ≤ r'.min_dist_axis i p ∧
      r'.max_dist_axis i p ≤ r.max_dist_axis i p) ∧
    r.min_dist sqrt p ≤ r'.min_dist sqrt p ∧
    r'.max_dist sqrt p ≤ r.max_dist sqrt p ∧
    ∀ (d : Fin D) (v : α) (h : Rectangle α D), (∀ i, (r i).lower ≤ (r i).upper) →
      ((r.lower_halfspace d v).1 = .ok h ∨ (r.upper_halfspace d v).1 = .ok h) →
      ∀ i, (h i).Within (r i) := by
  have hax : ∀ i, r.min_dist_axis i p ≤ r'.min_dist_axis i p ∧
      r'.max_dist_axis i p ≤ r.max_dist_axis i p :=
    fun i => ⟨min_dist_value_mono _ _ _ (hin i), max_dist_value_mono _ _ _ (hin i)⟩
  refine ⟨hax, ?_, ?_, fun d v h hr hh => halfspace_within r h d v hr hh⟩
  · apply hmono
    · rw [min_dist_sq_eq_sum]
      exact Finset.sum_nonneg (fun i _ => sq_nonneg _)
    · rw [min_dist_sq_eq_sum, min_dist_sq_eq_sum]
      exact Finset.sum_le_sum (fun i _ =>
        pow_le_pow_left₀ (min_dist_value_nonneg _ _) (hax i).1 2)
  · apply hmono
    · rw [max_dist_sq_eq_sum]
      exact Finset.sum_nonneg (fun i _ => sq_nonneg _)
    · rw [max_dist_sq_eq_sum, max_dist_sq_eq_sum]
      exact Finset.sum_le_sum (fun i _ =>
        pow_le_pow_left₀ (max_dist_value_nonneg _ _) (hax i).2 2)

/-- C23 over the reals with the real square root, at the unit square, the square
`[1/4, 3/4] x [1/4, 3/4]` inside it and the point `(2, 2)`. -/
theorem rectangle_dist_monotone_witness :
    (∀ x y : ℝ, 0 ≤ x → x ≤ y → Real.sqrt x ≤ Real.sqrt y) ∧
    (∀ i, ((inner_square : Rectangle ℝ 2) i).Within ((unit_square : Rectangle ℝ 2) i)) ∧
    (∀ i, (unit_square : Rectangle ℝ 2).min_dist_axis i (fun _ => (2 : ℝ)) ≤
        (inner_square : Rectangle ℝ 2).min_dist_axis i (fun _ => (2 : ℝ)) ∧
      (inner_square : Rectangle ℝ 2).max_dist_axis i (fun _ => (2 : ℝ)) ≤
        (unit_square : Rectangle ℝ 2).max_dist_axis i (fun _ => (2 : ℝ))) ∧
    (unit_square : Rectangle ℝ 2).min_dist Real.sqrt (fun _ => (2 : ℝ)) ≤
      (inner_square : Rectangle ℝ 2).min_dist Real.sqrt (fun _ => (2 : ℝ)) ∧
    (inner_square : Rectangle ℝ 2).max_dist Real.sqrt (fun _ => (2 : ℝ)) ≤
      (unit_square : Rectangle ℝ 2).max_dist Real.sqrt (fun _ => (2 : ℝ)) ∧
    ∀ (d : Fin 2) (v : ℝ) (h : Rectangle ℝ 2),
      (∀ i, ((unit_square : Rectangle ℝ 2) i).lower ≤ ((unit_square : Rectangle ℝ 2) i).upper) →
      ((unit_square.lower_halfspace d v).1 = .ok h ∨
        (unit_square.upper_halfspace d v).1 = .ok h) →
      ∀ i, (h i).Within ((unit_square : Rectangle ℝ 2) i) :=
  have hin : ∀ i, ((inner_square : Rectangle ℝ 2) i).Within
      ((unit_square : Rectangle ℝ 2) i) := by
    intro i
    simp only [inner_square, unit_square, Rectangle.of_points, minmax_eq, Interval.Within]
    norm_num
  ⟨fun _ _ _ h => Real.sqrt_le_sqrt h, hin,
    rectangle_dist_monotone Real.sqrt (fun _ _ _ h => Real.sqrt_le_sqrt h) unit_square
      inner_square hin (fun _ => 2)⟩

/-- C24. The constructor `Rectangle(p1, p2)` and `resize(p1, p2)` produce in every dimension
the edge `[min(p1[i], p2[i]), max(p1[i], p2[i])]`: every edge has `lower <= upper`, the
result does not depend on the order of the two points, and it contains both. A successful
`lower_halfspace` or `upper_halfspace` of a rectangle whose edges have `lower <= upper`
returns a rectangle whose edges have `lower <= upper`. -/
theorem rectangle_of_points_spec (self : Rectangle α D) (p1 p2 : Point α D) :
    (∀ i, Rectangle.of_points p1 p2 i =
      { lower := min (p1 i) (p2 i), upper := max (p1 i) (p2 i) }) ∧
    self.resize_points p1 p2 = Rectangle.of_points p1 p2 ∧
    (∀ i, (Rectangle.of_points p1 p2 i).lower ≤ (Rectangle.of_points p1 p2 i).upper) ∧
    Rectangle.of_points p1 p2 = Rectangle.of_points p2 p1 ∧
    (Rectangle.of_points p1 p2).contains p1 = true ∧
    (Rectangle.of_points p1 p2).contains p2 = true ∧
    ∀ (r h : Rectangle α D) (d : Fin D) (v : α), (∀ i, (r i).lower ≤ (r i).upper) →
      ((r.lower_halfspace d v).1 = .ok h ∨ (r.upper_halfspace d v).1 = .ok h) →
      ∀ i, (h i).lower ≤ (h i).upper := by
  have hof : ∀ (a b : Point α D) (i : Fin D), Rectangle.of_points a b i =
      { lower := min (a i) (b i), upper := max (a i) (b i) } := by
    intro a b i
    simp only [Rectangle.of_points, minmax_eq]
  refine ⟨hof p1 p2, rfl, ?_, ?_, ?_, ?_, ?_⟩
  · intro i
    rw [hof]
    exact min_le_max
  · funext i
    rw [hof, hof, min_comm, max_comm]
  · rw [Rectangle.contains_iff]
    intro i
    rw [hof]
    exact ⟨min_le_left _ _, le_max_left _ _⟩
  · rw [Rectangle.contains_iff]
    intro i
    rw [hof]
    exact ⟨min_le_right _ _, le_max_right _ _⟩
  · intro r h d v hr hh i
    exact (halfspace_within r h d v hr hh i).2.1

/-- C25. With a positive `numeric_limits::min()`, `almost_equal(lhs, rhs)` is true exactly
when `|lhs - rhs|` is at most that minimum or at most `epsilon * max(|lhs|, |rhs|)`; it is
reflexive and symmetric. -/
theorem almost_equal_spec (flt_min epsilon : α) (hmin : 0 < flt_min) (lhs rhs : α) :
    (almost_equal flt_min epsilon lhs rhs = true ↔
      |lhs - rhs| ≤ flt_min ∨ |lhs - rhs| ≤ epsilon * max |lhs| |rhs|) ∧
    almost_equal flt_min epsilon lhs lhs = true ∧
    almost_equal flt_min epsilon lhs rhs = almost_equal flt_min epsilon rhs lhs := by
  refine ⟨?_, ?_, ?_⟩
  · unfold almost_equal
    simp only
    split_ifs with h
    · simp [h]
    · simp [h]
  · unfold almost_equal
    simp only [sub_self, abs_zero, if_pos (le_of_lt hmin)]
  · unfold almost_equal
    simp only [abs_sub_comm lhs rhs, max_comm |lhs| |rhs|]

/-- C25 with the smallest positive normalised `float`, the machine epsilon of `float`, and
the numbers `1` and `2`. -/
theorem almost_equal_spec_witness :
    0 < flt_min_value ∧
    (almost_equal flt_min_value flt_epsilon_value 1 2 = true ↔
      |(1 : ℚ) - 2| ≤ flt_min_value ∨ |(1 : ℚ) - 2| ≤ flt_epsilon_value * max |1| |2|) ∧
    almost_equal flt_min_value flt_epsilon_value 1 1 = true ∧
    almost_equal flt_min_value flt_epsilon_value 1 2 =
      almost_equal flt_min_value flt_epsilon_value 2 1 :=
  ⟨by norm_num [flt_min_value],
    almost_equal_spec flt_min_value flt_epsilon_value (by norm_num [flt_min_value]) 1 2⟩

/-- C26. The function `LexCompare` always returns, without reading a coordinate of index
`dim`; it is true exactly when at the first index where the two points differ the left
coordinate is the smaller one, and false when all coordinates are equal. It is irreflexive
and transitive, and of two different points exactly one is before the other. -/
theorem LexCompare_strict_order (l r s : Point α D) :
    (∃ b, LexCompare l r = some b ∧
      (b = true ↔ ∃ i : Fin D, (∀ j : Fin D, j < i → l j = r j) ∧ l i < r i)) ∧
    LexCompare l l = some false ∧
    (LexCompare l r = some true → LexCompare r s = some true → LexCompare l s = some true) ∧
    (l ≠ r → (LexCompare l r = some true ∧ LexCompare r l = some false) ∨
      (LexCompare l r = some false ∧ LexCompare r l = some true)) := by
  refine ⟨⟨_, LexCompare_eq l r, by simp⟩, ?_, ?_, ?_⟩
  · exact LexCompare_false_of_not l l (lex_before_irrefl l)
  · intro h1 h2
    exact (LexCompare_true_iff l s).mpr
      (lex_before_trans l r s ((LexCompare_true_iff l r).mp h1) ((LexCompare_true_iff r s).mp h2))
  · intro hne
    rcases lex_before_trichotomy l r hne with h | h
    · refine Or.inl ⟨(LexCompare_true_iff l r).mpr h, LexCompare_false_of_not r l fun h' => ?_⟩
      exact lex_before_irrefl l (lex_before_trans l r l h h')
    · refine Or.inr ⟨LexCompare_false_of_not l r fun h' => ?_, (LexCompare_true_iff r l).mpr h⟩
      exact lex_before_irrefl l (lex_before_trans l r l h' h)

/-- C27. The function `likelihood_cross_validate` returns the sum over the reference points
of `weight_i * log(v_i - mass_i * normalization)`, where `v_i` is the value that the
dual-tree evaluation of the density on a copy of its own reference tree leaves at index
`i`, the index of reference point `i` itself; the `KernelDensity` is left unchanged. -/
theorem likelihood_cross_validate_spec (cmath : Cmath α) (flt_max flt_min : α)
    (kd : KernelDensity α D) (rel_err abs_err : α) :
    ∃ t, eval_tree kd flt_max flt_min kd.data_tree_ kd.kernel_ rel_err abs_err = some t ∧
      t.points_.length = kd.data_tree_.points_.length ∧
      (∀ (i : Nat) (p : DataPoint α D), kd.data_tree_.points_[i]? = some p →
        ∃ q, t.points_[i]? = some q ∧ q.point = p.point) ∧
      likelihood_cross_validate cmath flt_max flt_min kd rel_err abs_err =
        some ((List.zipWith (fun (q p : DataPoint α D) => p.attributes.weight *
            cmath.log (q.attributes.value - p.attributes.mass * kd.kernel_.normalization))
          t.points_ kd.data_tree_.points_).sum, kd) := by
  obtain ⟨t, ht, -, hf⟩ := eval_tree_total kd flt_max flt_min kd.data_tree_ kd.kernel_
    rel_err abs_err
  refine ⟨t, ht, hf.length_eq.symm, ?_, ?_⟩
  · intro i p hp
    obtain ⟨q, hq, hs⟩ := forall₂_same_getElem? hf i p hp
    exact ⟨q, hq, hs.1⟩
  · unfold likelihood_cross_validate
    simp only [ht, Option.some_bind]
    rw [foldl_zip_add_sum (fun (q p : DataPoint α D) => p.attributes.weight *
      cmath.log (q.attributes.value - p.attributes.mass * kd.kernel_.normalization)), zero_add]

/-- C28, as the code has it. The function `lsq_numint_cross_validate` has no check of the
step counts. With `steps_x <= 0` or `steps_y <= 0` it first evaluates the density on a copy
of the reference tree, then hands an empty grid to the `Kdtree` constructor. If that
constructor throws, the call throws the same error, after this one evaluation. If it
returns a tree without points, the call evaluates the density on it too and returns the
score `0 - 2 * llo_cv`. The `KernelDensity` is unchanged in both cases. -/
theorem lsq_numint_nonpositive_steps
    (kdtree_build : List (DataPoint α 2) → Int → Except Failure (Kdtree α 2))
    (default_attributes : Attributes α) (flt_max flt_min : α) (kde : KernelDensity α 2)
    (start_x end_x : α) (steps_x : Int) (start_y end_y : α) (steps_y : Int)
    (rel_err abs_err : α) (qtree_leaf_nmax : Int)
    (hsteps : steps_x ≤ 0 ∨ steps_y ≤ 0)
    (hbuild : ∀ q, kdtree_build [] qtree_leaf_nmax = .ok q → q.points_ = []) :
    lsq_numint_grid default_attributes start_x ((end_x - start_x) / (steps_x : α)) steps_x
      start_y ((end_y - start_y) / (steps_y : α)) steps_y = [] ∧
    ∃ t, eval_tree kde flt_max flt_min kde.data_tree_ kde.kernel_ rel_err abs_err = some t ∧
      ((∃ e, kdtree_build [] qtree_leaf_nmax = .error e ∧
          lsq_numint_cross_validate kdtree_build default_attributes flt_max flt_min kde
            start_x end_x steps_x start_y end_y steps_y rel_err abs_err qtree_leaf_nmax =
            some (.error e, [kde.data_tree_], kde)) ∨
        (∃ q, kdtree_build [] qtree_leaf_nmax = .ok q ∧
          lsq_numint_cross_validate kdtree_build default_attributes flt_max flt_min kde
            start_x end_x steps_x start_y end_y steps_y rel_err abs_err qtree_leaf_nmax =
            some (.ok (0 - 2 * (List.zipWith (fun (q p : DataPoint α 2) =>
                p.attributes.weight *
                  (q.attributes.value - p.attributes.mass * kde.kernel_.normalization))
                t.points_ kde.data_tree_.points_).sum),
              [kde.data_tree_, q], kde))) := by
  refine ⟨lsq_numint_grid_nil _ _ _ _ _ _ _ hsteps, ?_⟩
  obtain ⟨t, ht, h⟩ := lsq_numint_empty_grid kdtree_build default_attributes flt_max flt_min
    kde start_x end_x steps_x start_y end_y steps_y rel_err abs_err qtree_leaf_nmax hsteps
  refine ⟨t, ht, ?_⟩
  rcases h with h | ⟨q, tq, hq, -, hf, e⟩
  · exact Or.inl h
  · refine Or.inr ⟨q, hq, ?_⟩
    have hnil : tq.points_ = [] := by
      have := hf.length_eq
      rw [hbuild q hq] at this
      exact List.eq_nil_of_length_eq_zero this.symm
    rw [e, hnil]
    rfl

/-- C28 with `steps_x = 0` on the one-point density of the plane, with the constructor of a
one-leaf tree, which rejects the empty grid. -/
theorem lsq_numint_nonpositive_steps_witness :
    ((0 : Int) ≤ 0 ∨ (3 : Int) ≤ 0) ∧
    (∀ q : Kdtree ℚ 2, Kdtree.build_leaf [] 1 = .ok q → q.points_ = []) ∧
    lsq_numint_grid plane_point.attributes (0 : ℚ) ((1 - 0) / ((0 : Int) : ℚ)) 0
      0 ((1 - 0) / ((3 : Int) : ℚ)) 3 = [] ∧
    ∃ t, eval_tree plane_kd flt_max_value flt_min_value plane_kd.data_tree_ plane_kd.kernel_
        0 0 = some t ∧
      ((∃ e, Kdtree.build_leaf ([] : List (DataPoint ℚ 2)) 1 = .error e ∧
          lsq_numint_cross_validate Kdtree.build_leaf plane_point.attributes flt_max_value
            flt_min_value plane_kd 0 1 0 0 1 3 0 0 1 =
            some (.error e, [plane_kd.data_tree_], plane_kd)) ∨
        (∃ q, Kdtree.build_leaf ([] : List (DataPoint ℚ 2)) 1 = .ok q ∧
          lsq_numint_cross_validate Kdtree.build_leaf plane_point.attributes flt_max_value
            flt_min_value plane_kd 0 1 0 0 1 3 0 0 1 =
            some (.ok (0 - 2 * (List.zipWith (fun (q p : DataPoint ℚ 2) =>
                p.attributes.weight *
                  (q.attributes.value - p.attributes.mass * plane_kd.kernel_.normalization))
                t.points_ plane_kd.data_tree_.points_).sum),
              [plane_kd.data_tree_, q], plane_kd))) :=
  ⟨Or.inl (le_refl _), fun q h => by simp [Kdtree.build_leaf] at h,
    lsq_numint_nonpositive_steps Kdtree.build_leaf plane_point.attributes flt_max_value
      flt_min_value plane_kd 0 1 0 0 1 3 0 0 1 (Or.inl (le_refl _))
      (fun q h => by simp [Kdtree.build_leaf] at h)⟩

/-- C28 fails on the code. Called with `steps_x = 0` on the one-point density of the plane,
`lsq_numint_cross_validate` has evaluated the density on the reference tree whatever the
`Kdtree` constructor does with the empty grid; with a constructor that rejects the empty
grid the call throws only after this evaluation. -/
theorem lsq_numint_evaluates_before_failing :
    (∀ (kdtree_build : List (DataPoint ℚ 2) → Int → Except Failure (Kdtree ℚ 2))
        (default_attributes : Attributes ℚ),
      ∃ r, lsq_numint_cross_validate kdtree_build default_attributes flt_max_value
          flt_min_value plane_kd 0 1 0 0 1 3 0 0 1 = some r ∧
        r.2.1.head? = some plane_kd.data_tree_) ∧
    lsq_numint_cross_validate Kdtree.build_leaf plane_point.attributes flt_max_value
      flt_min_value plane_kd 0 1 0 0 1 3 0 0 1 =
      some (.error .invalid_argument, [plane_kd.data_tree_], plane_kd) := by
  constructor
  · intro kdtree_build default_attributes
    obtain ⟨t, -, h⟩ := lsq_numint_empty_grid kdtree_build default_attributes flt_max_value
      flt_min_value plane_kd 0 1 0 0 1 3 0 0 1 (Or.inl (le_refl _))
    rcases h with ⟨e, -, h⟩ | ⟨q, tq, -, -, -, h⟩
    · exact ⟨_, h, rfl⟩
    · exact ⟨_, h, rfl⟩
  · obtain ⟨t, -, h⟩ := lsq_numint_empty_grid Kdtree.build_leaf plane_point.attributes
      flt_max_value flt_min_value plane_kd 0 1 0 0 1 3 0 0 1 (Or.inl (le_refl _))
    rcases h with ⟨e, he, h⟩ | ⟨q, tq, hq, -, -, h⟩
    · rw [h]
      simp only [Kdtree.build_leaf] at he
      simp at he
      rw [he]
    · simp [Kdtree.build_leaf] at hq

/-- C29. Let the box of `D_node` contain all points of its index range and `lower_abw`,
`upper_abw` bracket their bandwidth corrections, and let the kernel value not increase when
the per-axis absolute differences grow and not decrease when the bandwidth correction
grows (for corrections of at least `lower_abw`). Then for every query point `q` the
estimates satisfy `dl_new <= unnormalized_eval(q, x_i, abw_i) <= du_new` for every point
`x_i` of `D_node`, and `dl_new <= du_new` as the index range of a node is not empty. -/
theorem estimate_contributions_brackets (pts : List (DataPoint α D)) (D_node : TreeNode α D)
    (kernel : Kernel α D) (q : Point α D)
    (hk : ∀ (p q p' q' : Point α D) (a a' : α), (∀ i, |p i - q i| ≤ |p' i - q' i|) →
      D_node.attr_.lower_abw ≤ a' → a' ≤ a →
      kernel.unnormalized_eval p' q' a' ≤ kernel.unnormalized_eval p q a)
    (hbox : ∀ x ∈ index_range pts D_node.start_idx_ D_node.end_idx_,
      D_node.bbox_.contains x.point = true)
    (habw : ∀ x ∈ index_range pts D_node.start_idx_ D_node.end_idx_,
      D_node.attr_.lower_abw ≤ x.attributes.abw ∧ x.attributes.abw ≤ D_node.attr_.upper_abw) :
    (∀ x ∈ index_range pts D_node.start_idx_ D_node.end_idx_,
      (estimate_contributions D_node q kernel).2 ≤
        kernel.unnormalized_eval q x.point x.attributes.abw ∧
      kernel.unnormalized_eval q x.point x.attributes.abw ≤
        (estimate_contributions D_node q kernel).1) ∧
    (D_node.start_idx_ ≤ D_node.end_idx_ → D_node.end_idx_ < pts.length →
      (estimate_contributions D_node q kernel).2 ≤ (estimate_contributions D_node q kernel).1) := by
  have hall : ∀ x ∈ index_range pts D_node.start_idx_ D_node.end_idx_,
      (estimate_contributions D_node q kernel).2 ≤
        kernel.unnormalized_eval q x.point x.attributes.abw ∧
      kernel.unnormalized_eval q x.point x.attributes.abw ≤
        (estimate_contributions D_node q kernel).1 := by
    intro x hx
    have hc := (Rectangle.contains_iff _ _).mp (hbox x hx)
    have hb := habw x hx
    unfold estimate_contributions
    simp only [Rectangle.min_dist_axis, Rectangle.max_dist_axis]
    constructor
    · apply hk _ _ _ _ _ _ _ (le_refl _) hb.1
      intro i
      rw [sub_zero, abs_of_nonneg (max_dist_value_nonneg (D_node.bbox_ i) (q i))]
      exact le_max_dist_value _ _ _ (hc i).1 (hc i).2
    · apply hk _ _ _ _ _ _ _ hb.1 hb.2
      intro i
      rw [sub_zero, abs_of_nonneg (min_dist_value_nonneg (D_node.bbox_ i) (q i))]
      exact min_dist_value_le _ _ _ (hc i).1 (hc i).2
  refine ⟨hall, fun hse hel => ?_⟩
  obtain ⟨x, hx⟩ := index_range_ne_nil pts _ _ hse hel
  exact le_trans (hall x hx).1 (hall x hx).2

/-- C29 at the root of the density over the points `0` and `1`, with the triangular kernel
and the query point `2`. -/
theorem estimate_contributions_brackets_witness :
    (∀ (p q p' q' : Point ℚ 1) (a a' : ℚ), (∀ i, |p i - q i| ≤ |p' i - q' i|) →
      unit_kd.data_tree_.root_.attr_.lower_abw ≤ a' → a' ≤ a →
      (tri_kernel 1 10).unnormalized_eval p' q' a' ≤ (tri_kernel 1 10).unnormalized_eval p q a) ∧
    (∀ x ∈ index_range unit_kd.data_tree_.points_ unit_kd.data_tree_.root_.start_idx_
        unit_kd.data_tree_.root_.end_idx_,
      unit_kd.data_tree_.root_.bbox_.contains x.point = true) ∧
    (∀ x ∈ index_range unit_kd.data_tree_.points_ unit_kd.data_tree_.root_.start_idx_
        unit_kd.data_tree_.root_.end_idx_,
      unit_kd.data_tree_.root_.attr_.lower_abw ≤ x.attributes.abw ∧
      x.attributes.abw ≤ unit_kd.data_tree_.root_.attr_.upper_abw) ∧
    (∀ x ∈ index_range unit_kd.data_tree_.points_ unit_kd.data_tree_.root_.start_idx_
        unit_kd.data_tree_.root_.end_idx_,
      (estimate_contributions unit_kd.data_tree_.root_ (fun _ => (2 : ℚ)) (tri_kernel 1 10)).2 ≤
        (tri_kernel 1 10).unnormalized_eval (fun _ => 2) x.point x.attributes.abw ∧
      (tri_kernel 1 10).unnormalized_eval (fun _ => 2) x.point x.attributes.abw ≤
        (estimate_contributions unit_kd.data_tree_.root_ (fun _ => (2 : ℚ))
          (tri_kernel 1 10)).1) ∧
    (unit_kd.data_tree_.root_.start_idx_ ≤ unit_kd.data_tree_.root_.end_idx_ →
      unit_kd.data_tree_.root_.end_idx_ < unit_kd.data_tree_.points_.length →
      (estimate_contributions unit_kd.data_tree_.root_ (fun _ => (2 : ℚ)) (tri_kernel 1 10)).2 ≤
        (estimate_contributions unit_kd.data_tree_.root_ (fun _ => (2 : ℚ))
          (tri_kernel 1 10)).1) :=
  have hk : ∀ (p q p' q' : Point ℚ 1) (a a' : ℚ), (∀ i, |p i - q i| ≤ |p' i - q' i|) →
      unit_kd.data_tree_.root_.attr_.lower_abw ≤ a' → a' ≤ a →
      (tri_kernel 1 10).unnormalized_eval p' q' a' ≤
        (tri_kernel 1 10).unnormalized_eval p q a :=
    fun p q p' q' a a' hd ha haa =>
      (tri_kernel_capability 1 10 (by norm_num)).mono p q p' q' a a' hd
        (lt_of_lt_of_le unit_kd_valid.abw.self.1 ha) haa
  ⟨hk, unit_kd_valid.box.self, unit_kd_valid.abw.self.2,
    estimate_contributions_brackets unit_kd.data_tree_.points_ unit_kd.data_tree_.root_
      (tri_kernel 1 10) (fun _ => 2) hk unit_kd_valid.box.self unit_kd_valid.abw.self.2⟩

/-- C30. The contribution estimates are nested: for nodes `parent` and `child` with the box
of `child` inside the box of `parent` and the (positive) bandwidth range of `child` inside
that of `parent`, `dl_new(child) >= dl_new(parent)` and `du_new(child) <= du_new(parent)`.
At the root `0 <= dl_new` and `du_new <= 1`. Every call of `single_tree` that the
single-point evaluation makes, the call on the root and every recursive call, receives
`(du, dl)` with `dl <= dl_new <= du_new <= du` for the estimates of its own node. -/
theorem estimate_contributions_nested_calls (kd : KernelDensity α D) (kernel : Kernel α D)
    (hk : KernelCapability kernel) (hv : kd.Valid) (q : Point α D) (rel_err abs_err : α) :
    (∀ parent child : TreeNode α D, (∀ i, (child.bbox_ i).Within (parent.bbox_ i)) →
      0 < parent.attr_.lower_abw → parent.attr_.lower_abw ≤ child.attr_.lower_abw →
      child.attr_.lower_abw ≤ child.attr_.upper_abw →
      child.attr_.upper_abw ≤ parent.attr_.upper_abw →
      (estimate_contributions parent q kernel).2 ≤ (estimate_contributions child q kernel).2 ∧
      (estimate_contributions child q kernel).1 ≤ (estimate_contributions parent q kernel).1) ∧
    0 ≤ (estimate_contributions kd.data_tree_.root_ q kernel).2 ∧
    (estimate_contributions kd.data_tree_.root_ q kernel).1 ≤ 1 ∧
    ∀ c : SingleTreeCall α D,
      Relation.ReflTransGen (fun a b => b ∈ single_tree_calls kd q kernel rel_err abs_err a)
        (eval_root_call kd) c →
      c.dl ≤ (estimate_contributions c.D_node q kernel).2 ∧
      (estimate_contributions c.D_node q kernel).2 ≤
        (estimate_contributions c.D_node q kernel).1 ∧
      (estimate_contributions c.D_node q kernel).1 ≤ c.du := by
  refine ⟨?_, hk.nonneg _ _ _, hk.le_one _ _ _, ?_⟩
  · intro parent child hbox hpos hlo hcc hup
    exact estimate_contributions_nested parent child kernel hk q hbox hpos hlo
      (lt_of_lt_of_le (lt_of_lt_of_le hpos hlo) hcc) hup
  · intro c hc
    obtain ⟨⟨hidx, hmass, hbox, habw, -, -⟩, h1, h2⟩ :=
      single_tree_calls_invariant kd kernel hk hv q rel_err abs_err c hc
    obtain ⟨-, -, h3, -, -⟩ := node_facts kd kernel hk q hv.mass_nonneg c.D_node hidx
      hmass.self hbox.self habw.self
    exact ⟨h1, h3, h2⟩

/-- C30 at the density over the points `0` and `1` whose tree has two leaves, with the
triangular kernel and the query point `2`. -/
theorem estimate_contributions_nested_calls_witness :
    KernelCapability (tri_kernel 1 10) ∧ split_kd.Valid ∧
    (∀ parent child : TreeNode ℚ 1, (∀ i, (child.bbox_ i).Within (parent.bbox_ i)) →
      0 < parent.attr_.lower_abw → parent.attr_.lower_abw ≤ child.attr_.lower_abw →
      child.attr_.lower_abw ≤ child.attr_.upper_abw →
      child.attr_.upper_abw ≤ parent.attr_.upper_abw →
      (estimate_contributions parent (fun _ => (2 : ℚ)) (tri_kernel 1 10)).2 ≤
        (estimate_contributions child (fun _ => (2 : ℚ)) (tri_kernel 1 10)).2 ∧
      (estimate_contributions child (fun _ => (2 : ℚ)) (tri_kernel 1 10)).1 ≤
        (estimate_contributions parent (fun _ => (2 : ℚ)) (tri_kernel 1 10)).1) ∧
    0 ≤ (estimate_contributions split_kd.data_tree_.root_ (fun _ => (2 : ℚ))
      (tri_kernel 1 10)).2 ∧
    (estimate_contributions split_kd.data_tree_.root_ (fun _ => (2 : ℚ))
      (tri_kernel 1 10)).1 ≤ 1 ∧
    ∀ c : SingleTreeCall ℚ 1,
      Relation.ReflTransGen
        (fun a b => b ∈ single_tree_calls split_kd (fun _ => (2 : ℚ)) (tri_kernel 1 10) 0 0 a)
        (eval_root_call split_kd) c →
      c.dl ≤ (estimate_contributions c.D_node (fun _ => (2 : ℚ)) (tri_kernel 1 10)).2 ∧
      (estimate_contributions c.D_node (fun _ => (2 : ℚ)) (tri_kernel 1 10)).2 ≤
        (estimate_contributions c.D_node (fun _ => (2 : ℚ)) (tri_kernel 1 10)).1 ∧
      (estimate_contributions c.D_node (fun _ => (2 : ℚ)) (tri_kernel 1 10)).1 ≤ c.du :=
  ⟨tri_kernel_capability 1 10 (by norm_num), split_kd_valid,
    estimate_contributions_nested_calls split_kd (tri_kernel 1 10)
      (tri_kernel_capability 1 10 (by norm_num)) split_kd_valid (fun _ => 2) 0 0⟩

/-- C31. The function `single_tree_base` returns `lower' = lower + S - mass_D * dl` and
`upper' = max(upper + S - mass_D * du, lower')`, where `S` is the sum over the points of
the index range of `D_node` of `mass_i * unnormalized_eval(p, x_i, abw_i)`; always
`lower' <= upper'`. -/
theorem single_tree_base_spec (kd : KernelDensity α D) (D_node : TreeNode α D)
    (p : Point α D) (kernel : Kernel α D) (du dl upper lower : α) :
    (single_tree_base kd D_node p kernel du dl upper lower).2 =
      lower + ((index_range kd.data_tree_.points_ D_node.start_idx_ D_node.end_idx_).map
        fun x => x.attributes.mass *
          kernel.unnormalized_eval p x.point x.attributes.abw).sum -
        D_node.attr_.mass * dl ∧
    (single_tree_base kd D_node p kernel du dl upper lower).1 =
      max (upper + ((index_range kd.data_tree_.points_ D_node.start_idx_ D_node.end_idx_).map
          fun x => x.attributes.mass *
            kernel.unnormalized_eval p x.point x.attributes.abw).sum -
          D_node.attr_.mass * du)
        (single_tree_base kd D_node p kernel du dl upper lower).2 ∧
    (single_tree_base kd D_node p kernel du dl upper lower).2 ≤
      (single_tree_base kd D_node p kernel du dl upper lower).1 := by
  rw [single_tree_base_eq_max]
  exact ⟨rfl, rfl, le_max_right _ _⟩

/-- C32, on an input where it fails. The density over the points `0` and `1` (root mass
`1`), with the triangular kernel of bandwidth `1/10`, is evaluated on the query tree over
the single point `1/2`, which is out of reach of both reference points. The pair of the two
leaves is not approximated and `dual_tree_base` leaves the query point with
`lower = upper = 0`. The aggregate `lower` of the query node is `0`, but its aggregate
`upper` is the seed `numeric_limits::min()` of the running maximum, a positive number, not
the maximum `0` of the upper bounds. -/
theorem dual_tree_base_upper_seed :
    ((dual_tree_base unit_kd flt_max_value flt_min_value unit_kd.data_tree_.root_
        (query_at (1 / 2)).root_ (tri_kernel 1 (1 / 10))
        [(line_point (1 / 2) 1 1 1).init_bounds 1]).2.map
      fun q => (q.attributes.lower, q.attributes.upper)) = [(0, 0)] ∧
    (dual_tree_base unit_kd flt_max_value flt_min_value unit_kd.data_tree_.root_
        (query_at (1 / 2)).root_ (tri_kernel 1 (1 / 10))
        [(line_point (1 / 2) 1 1 1).init_bounds 1]).1.attr_.lower = 0 ∧
    (dual_tree_base unit_kd flt_max_value flt_min_value unit_kd.data_tree_.root_
        (query_at (1 / 2)).root_ (tri_kernel 1 (1 / 10))
        [(line_point (1 / 2) 1 1 1).init_bounds 1]).1.attr_.upper = flt_min_value ∧
    0 < flt_min_value ∧
    (eval_tree unit_kd flt_max_value flt_min_value (query_at (1 / 2)) (tri_kernel 1 (1 / 10))
        0 0).map
      (fun t => (t.root_.attr_.lower, t.root_.attr_.upper,
        t.points_.map fun q => (q.attributes.lower, q.attributes.upper))) =
      some (0, flt_min_value, [(0, 0)]) := by
  refine ⟨?_, ?_, ?_, by norm_num [flt_min_value], ?_⟩
  · simp [dual_tree_base, single_tree_base, unit_kd, query_at, line_leaf_tree, line_point,
      DataPoint.init_bounds, DataPoint.set_bounds, map_index_range, index_range, tri_kernel,
      Attributes.abw,
      TreeNode.attr_, TreeNode.start_idx_, TreeNode.end_idx_]
    norm_num [abs_of_pos, abs_of_nonneg]
  · simp [dual_tree_base, single_tree_base, unit_kd, query_at, line_leaf_tree, line_point,
      DataPoint.init_bounds, DataPoint.set_bounds, map_index_range, index_range, tri_kernel,
      Attributes.abw,
      TreeNode.attr_, TreeNode.start_idx_, TreeNode.end_idx_, TreeNode.set_attr,
      flt_max_value]
    norm_num [abs_of_pos, abs_of_nonneg]
  · simp [dual_tree_base, single_tree_base, unit_kd, query_at, line_leaf_tree, line_point,
      DataPoint.init_bounds, DataPoint.set_bounds, map_index_range, index_range, tri_kernel,
      Attributes.abw,
      TreeNode.attr_, TreeNode.start_idx_, TreeNode.end_idx_, TreeNode.set_attr,
      flt_min_value]
    norm_num [abs_of_pos, abs_of_nonneg]
  · simp only [eval_tree, unit_kd, line_leaf_tree, query_at]
    simp [dual_tree, dual_tree_base, single_tree_base, refresh_node_attributes, TreeNode.size,
      index_range, line_point, TreeNode.attr_, TreeNode.bbox_, TreeNode.start_idx_,
      TreeNode.end_idx_, estimate_contributions, can_approximate_node, can_approximate,
      tighten_bounds, tighten_bounds_node, map_index_range, DataPoint.set_bounds, tri_kernel,
      Kdtree.size, Rectangle.min_dist_axis, Rectangle.max_dist_axis, AxisDist.min_dist,
      AxisDist.max_dist, TreeNode.set_attr, flt_min_value, flt_max_value, Attributes.abw]
    norm_num [abs_of_pos, abs_of_nonneg]

/-- C33. When `can_approximate` passes at `(D_node, Q_node)`, `dual_tree` returns without a
recursive call (the recursion bound `1` is enough). The aggregate bounds of `Q_node` are
tightened with the inherited `(du, dl)`; the bounds of every query point with index in
`[Q_node.start_idx, Q_node.end_idx]` become `lower + mass_D * dl_new` and
`max(upper + mass_D * (du_new - 1), new lower)`; every other query point, the number of
query points, and the coordinates, weight, mass and bandwidth of every query point are
unchanged. The reference tree is only read. -/
theorem dual_tree_prune_step (kd : KernelDensity α D) (flt_max flt_min : α) (fuel : Nat)
    (D_node Q_node : TreeNode α D) (kernel : Kernel α D) (du dl rel_err abs_err : α)
    (query_points : List (DataPoint α D))
    (h : can_approximate_node kd D_node Q_node
      (estimate_contributions D_node Q_node.bbox_ kernel).1
      (estimate_contributions D_node Q_node.bbox_ kernel).2 du dl rel_err abs_err = true) :
    ∃ (Q_out : TreeNode α D) (points_out : List (DataPoint α D)),
      dual_tree kd flt_max flt_min (fuel + 1) D_node Q_node kernel du dl rel_err abs_err
        query_points = some (Q_out, points_out) ∧
      Q_out = Q_node.set_attr
        { Q_node.attr_ with
          upper := (tighten_bounds D_node (estimate_contributions D_node Q_node.bbox_ kernel).1
            (estimate_contributions D_node Q_node.bbox_ kernel).2 du dl
            Q_node.attr_.upper Q_node.attr_.lower).1
          lower := (tighten_bounds D_node (estimate_contributions D_node Q_node.bbox_ kernel).1
            (estimate_contributions D_node Q_node.bbox_ kernel).2 du dl
            Q_node.attr_.upper Q_node.attr_.lower).2 } ∧
      points_out.length = query_points.length ∧
      ∀ (i : Nat) (q : DataPoint α D), query_points[i]? = some q →
        ∃ q_out : DataPoint α D, points_out[i]? = some q_out ∧
          q_out.point = q.point ∧ q_out.attributes.weight = q.attributes.weight ∧
          q_out.attributes.mass = q.attributes.mass ∧
          q_out.attributes.lower_abw = q.attributes.lower_abw ∧
          q_out.attributes.upper_abw = q.attributes.upper_abw ∧
          (Q_node.start_idx_ ≤ i ∧ i ≤ Q_node.end_idx_ →
            q_out.attributes.lower = q.attributes.lower +
              D_node.attr_.mass * (estimate_contributions D_node Q_node.bbox_ kernel).2 ∧
            q_out.attributes.upper =
              max (q.attributes.upper +
                D_node.attr_.mass * ((estimate_contributions D_node Q_node.bbox_ kernel).1 - 1))
                q_out.attributes.lower) ∧
          (¬ (Q_node.start_idx_ ≤ i ∧ i ≤ Q_node.end_idx_) → q_out = q) := by
  refine ⟨_, _, dual_tree_of_can_approximate kd flt_max flt_min fuel D_node Q_node kernel du dl
    rel_err abs_err query_points h, rfl, map_index_range_length _ _ _ _, ?_⟩
  intro i q hq
  rw [map_index_range_getElem?, hq]
  by_cases hi : Q_node.start_idx_ ≤ i ∧ i ≤ Q_node.end_idx_
  · rw [if_pos hi]
    refine ⟨_, rfl, rfl, rfl, rfl, rfl, rfl, fun _ => ?_, fun hn => absurd hi hn⟩
    simp [DataPoint.set_bounds, tighten_bounds_eq_max]
  · rw [if_neg hi]
    exact ⟨q, rfl, rfl, rfl, rfl, rfl, rfl, fun h' => absurd h' hi, fun _ => rfl⟩

/-- C33 at the density over the points `0` and `1` and the query tree over the point `100`,
which is out of reach of the triangular kernel of bandwidth `10`. -/
theorem dual_tree_prune_step_witness :
    can_approximate_node unit_kd unit_kd.data_tree_.root_ (query_at 100).root_
      (estimate_contributions unit_kd.data_tree_.root_ (query_at 100).root_.bbox_
        (tri_kernel 1 10)).1
      (estimate_contributions unit_kd.data_tree_.root_ (query_at 100).root_.bbox_
        (tri_kernel 1 10)).2 1 0 0 0 = true ∧
    ∃ (Q_out : TreeNode ℚ 1) (points_out : List (DataPoint ℚ 1)),
      dual_tree unit_kd flt_max_value flt_min_value (0 + 1) unit_kd.data_tree_.root_
        (query_at 100).root_ (tri_kernel 1 10) 1 0 0 0 (query_at 100).points_ =
        some (Q_out, points_out) ∧
      Q_out = (query_at 100).root_.set_attr
        { (query_at 100).root_.attr_ with
          upper := (tighten_bounds unit_kd.data_tree_.root_
            (estimate_contributions unit_kd.data_tree_.root_ (query_at 100).root_.bbox_
              (tri_kernel 1 10)).1
            (estimate_contributions unit_kd.data_tree_.root_ (query_at 100).root_.bbox_
              (tri_kernel 1 10)).2 1 0
            (query_at 100).root_.attr_.upper (query_at 100).root_.attr_.lower).1
          lower := (tighten_bounds unit_kd.data_tree_.root_
            (estimate_contributions unit_kd.data_tree_.root_ (query_at 100).root_.bbox_
              (tri_kernel 1 10)).1
            (estimate_contributions unit_kd.data_tree_.root_ (query_at 100).root_.bbox_
              (tri_kernel 1 10)).2 1 0
            (query_at 100).root_.attr_.upper (query_at 100).root_.attr_.lower).2 } ∧
      points_out.length = (query_at 100).points_.length ∧
      ∀ (i : Nat) (q : DataPoint ℚ 1), (query_at 100).points_[i]? = some q →
        ∃ q_out : DataPoint ℚ 1, points_out[i]? = some q_out ∧
          q_out.point = q.point ∧ q_out.attributes.weight = q.attributes.weight ∧
          q_out.attributes.mass = q.attributes.mass ∧
          q_out.attributes.lower_abw = q.attributes.lower_abw ∧
          q_out.attributes.upper_abw = q.attributes.upper_abw ∧
          ((query_at 100).root_.start_idx_ ≤ i ∧ i ≤ (query_at 100).root_.end_idx_ →
            q_out.attributes.lower = q.attributes.lower +
              unit_kd.data_tree_.root_.attr_.mass *
                (estimate_contributions unit_kd.data_tree_.root_ (query_at 100).root_.bbox_
                  (tri_kernel 1 10)).2 ∧
            q_out.attributes.upper =
              max (q.attributes.upper +
                unit_kd.data_tree_.root_.attr_.mass *
                  ((estimate_contributions unit_kd.data_tree_.root_
                    (query_at 100).root_.bbox_ (tri_kernel 1 10)).1 - 1))
                q_out.attributes.lower) ∧
          (¬ ((query_at 100).root_.start_idx_ ≤ i ∧ i ≤ (query_at 100).root_.end_idx_) →
            q_out = q) :=
  have h : can_approximate_node unit_kd unit_kd.data_tree_.root_ (query_at 100).root_
      (estimate_contributions unit_kd.data_tree_.root_ (query_at 100).root_.bbox_
        (tri_kernel 1 10)).1
      (estimate_contributions unit_kd.data_tree_.root_ (query_at 100).root_.bbox_
        (tri_kernel 1 10)).2 1 0 0 0 = true := by
    simp [can_approximate_node, can_approximate, estimate_contributions, unit_kd, query_at,
      line_leaf_tree, line_point, tri_kernel, TreeNode.attr_, TreeNode.bbox_, Kdtree.size,
      Rectangle.min_dist_axis, Rectangle.max_dist_axis, AxisDist.min_dist, AxisDist.max_dist]
    norm_num [abs_of_pos, abs_of_nonneg]
  ⟨h, dual_tree_prune_step unit_kd flt_max_value flt_min_value 0 unit_kd.data_tree_.root_
    (query_at 100).root_ (tri_kernel 1 10) 1 0 0 0 (query_at 100).points_ h⟩

/-- C34. For a strictly increasing square root, `apply_closer_heuristic` returns the input
pair or the swapped pair, with `closer.bbox.min_dist(obj) <= further.bbox.min_dist(obj)`
afterwards; the input order is kept when the first node is not further away, in particular
when the two distances are equal. A call of `single_tree` on an internal node that is not
approximated is the call on the further child, entered with the bounds that the call on the
closer child has returned. -/
theorem apply_closer_heuristic_spec {G : Type} [AxisDist α G] (sqrt : α → α)
    (hsqrt : ∀ x y, 0 ≤ x → 0 ≤ y → (sqrt x < sqrt y ↔ x < y))
    (closer further : TreeNode α D) (obj : Fin D → G) :
    apply_closer_heuristic_sqrt sqrt closer further obj =
      apply_closer_heuristic closer further obj ∧
    (apply_closer_heuristic_sqrt sqrt closer further obj = (closer, further) ∨
      apply_closer_heuristic_sqrt sqrt closer further obj = (further, closer)) ∧
    (apply_closer_heuristic_sqrt sqrt closer further obj).1.bbox_.min_dist sqrt obj ≤
      (apply_closer_heuristic_sqrt sqrt closer further obj).2.bbox_.min_dist sqrt obj ∧
    (closer.bbox_.min_dist sqrt obj ≤ further.bbox_.min_dist sqrt obj →
      apply_closer_heuristic_sqrt sqrt closer further obj = (closer, further)) ∧
    ∀ (kd : KernelDensity α D) (kernel : Kernel α D) (p : Point α D) (b : Rectangle α D)
      (s e : Nat) (a : Attributes α) (upper lower du dl rel_err abs_err : α),
      can_approximate kd (.node b s e a closer further)
        (estimate_contributions (.node b s e a closer further) p kernel).1
        (estimate_contributions (.node b s e a closer further) p kernel).2
        du dl upper lower rel_err abs_err = false →
      single_tree kd (.node b s e a closer further) p kernel upper lower du dl rel_err abs_err =
        single_tree kd (apply_closer_heuristic_sqrt sqrt closer further p).2 p kernel
          (single_tree kd (apply_closer_heuristic_sqrt sqrt closer further p).1 p kernel
            (tighten_bounds (.node b s e a closer further)
              (estimate_contributions (.node b s e a closer further) p kernel).1
              (estimate_contributions (.node b s e a closer further) p kernel).2
              du dl upper lower).1
            (tighten_bounds (.node b s e a closer further)
              (estimate_contributions (.node b s e a closer further) p kernel).1
              (estimate_contributions (.node b s e a closer further) p kernel).2
              du dl upper lower).2
            (estimate_contributions (.node b s e a closer further) p kernel).1
            (estimate_contributions (.node b s e a closer further) p kernel).2
            rel_err abs_err).1
          (single_tree kd (apply_closer_heuristic_sqrt sqrt closer further p).1 p kernel
            (tighten_bounds (.node b s e a closer further)
              (estimate_contributions (.node b s e a closer further) p kernel).1
              (estimate_contributions (.node b s e a closer further) p kernel).2
              du dl upper lower).1
            (tighten_bounds (.node b s e a closer further)
              (estimate_contributions (.node b s e a closer further) p kernel).1
              (estimate_contributions (.node b s e a closer further) p kernel).2
              du dl upper lower).2
            (estimate_contributions (.node b s e a closer further) p kernel).1
            (estimate_contributions (.node b s e a closer further) p kernel).2
            rel_err abs_err).2
          (estimate_contributions (.node b s e a closer further) p kernel).1
          (estimate_contributions (.node b s e a closer further) p kernel).2
          rel_err abs_err := by
  have hnn : ∀ {G' : Type} [AxisDist α G'] (r : Rectangle α D) (g : Fin D → G'),
      0 ≤ r.min_dist_sq g := by
    intro G' _ r g
    rw [min_dist_sq_eq_sum]
    exact Finset.sum_nonneg (fun i _ => sq_nonneg _)
  have heq : ∀ {G' : Type} [AxisDist α G'] (g : Fin D → G'),
      apply_closer_heuristic_sqrt sqrt closer further g =
        apply_closer_heuristic closer further g := by
    intro G' _ g
    unfold apply_closer_heuristic_sqrt apply_closer_heuristic Rectangle.min_dist
    simp only [gt_iff_lt, hsqrt _ _ (hnn further.bbox_ g) (hnn closer.bbox_ g)]
  refine ⟨heq obj, ?_, ?_, ?_, ?_⟩
  · unfold apply_closer_heuristic_sqrt
    split_ifs
    · exact Or.inr rfl
    · exact Or.inl rfl
  · unfold apply_closer_heuristic_sqrt
    split_ifs with h
    · exact le_of_lt h
    · exact not_lt.mp h
  · intro h
    unfold apply_closer_heuristic_sqrt
    rw [if_neg (not_lt.mpr h)]
  · intro kd kernel p b s e a upper lower du dl rel_err abs_err hca
    rw [heq p, single_tree]
    simp only [hca, Bool.false_eq_true, if_false]

/-- C34 over the reals with the real square root, at the unit square and the square
`[1/4, 3/4] x [1/4, 3/4]` as boxes of two leaves, and the point `(2, 2)`. -/
theorem apply_closer_heuristic_spec_witness :
    (∀ x y : ℝ, 0 ≤ x → 0 ≤ y → (Real.sqrt x < Real.sqrt y ↔ x < y)) ∧
    (apply_closer_heuristic_sqrt Real.sqrt
        (TreeNode.leaf (inner_square : Rectangle ℝ 2) 0 0 plane_point.attributes)
        (TreeNode.leaf (unit_square : Rectangle ℝ 2) 1 1 plane_point.attributes)
        (fun _ => (2 : ℝ)) =
      (TreeNode.leaf (inner_square : Rectangle ℝ 2) 0 0 plane_point.attributes,
        TreeNode.leaf (unit_square : Rectangle ℝ 2) 1 1 plane_point.attributes) ∨
     apply_closer_heuristic_sqrt Real.sqrt
        (TreeNode.leaf (inner_square : Rectangle ℝ 2) 0 0 plane_point.attributes)
        (TreeNode.leaf (unit_square : Rectangle ℝ 2) 1 1 plane_point.attributes)
        (fun _ => (2 : ℝ)) =
      (TreeNode.leaf (unit_square : Rectangle ℝ 2) 1 1 plane_point.attributes,
        TreeNode.leaf (inner_square : Rectangle ℝ 2) 0 0 plane_point.attributes)) ∧
    (apply_closer_heuristic_sqrt Real.sqrt
        (TreeNode.leaf (inner_square : Rectangle ℝ 2) 0 0 plane_point.attributes)
        (TreeNode.leaf (unit_square : Rectangle ℝ 2) 1 1 plane_point.attributes)
        (fun _ => (2 : ℝ))).1.bbox_.min_dist Real.sqrt (fun _ => (2 : ℝ)) ≤
      (apply_closer_heuristic_sqrt Real.sqrt
        (TreeNode.leaf (inner_square : Rectangle ℝ 2) 0 0 plane_point.attributes)
        (TreeNode.leaf (unit_square : Rectangle ℝ 2) 1 1 plane_point.attributes)
        (fun _ => (2 : ℝ))).2.bbox_.min_dist Real.sqrt (fun _ => (2 : ℝ)) :=
  ⟨fun _ _ hx _ => Real.sqrt_lt_sqrt_iff hx,
    (apply_closer_heuristic_spec Real.sqrt (fun _ _ hx _ => Real.sqrt_lt_sqrt_iff hx)
      (TreeNode.leaf (inner_square : Rectangle ℝ 2) 0 0 plane_point.attributes)
      (TreeNode.leaf (unit_square : Rectangle ℝ 2) 1 1 plane_point.attributes)
      (fun _ => (2 : ℝ))).2.1,
    (apply_closer_heuristic_spec Real.sqrt (fun _ _ hx _ => Real.sqrt_lt_sqrt_iff hx)
      (TreeNode.leaf (inner_square : Rectangle ℝ 2) 0 0 plane_point.attributes)
      (TreeNode.leaf (unit_square : Rectangle ℝ 2) 1 1 plane_point.attributes)
      (fun _ => (2 : ℝ))).2.2.1⟩

/-- C35. The function `report_error` writes a diagnostic exactly when
`|upper - lower| > abs_err` and (`lower = 0` or `|(upper - lower) / lower| > rel_err`);
when `lower = 0` it is the absolute form. The single-point `eval` calls it with the
normalised bounds and returns the midpoint `normalization * (lower + (upper - lower) / 2)`
in every case. -/
theorem report_error_spec (kd : KernelDensity α D) (p : Point α D) (kernel : Kernel α D)
    (upper lower rel_err abs_err : α) :
    ((report_error p upper lower rel_err abs_err).isSome = true ↔
      |upper - lower| > abs_err ∧ (lower = 0 ∨ |(upper - lower) / lower| > rel_err)) ∧
    (lower = 0 → |upper - lower| > abs_err →
      report_error p upper lower rel_err abs_err =
        some (.absolute_loss p lower upper |upper - lower|)) ∧
    (lower ≠ 0 → |upper - lower| > abs_err → |(upper - lower) / lower| > rel_err →
      report_error p upper lower rel_err abs_err =
        some (.relative_loss p lower upper |upper - lower| (|upper - lower| / lower))) ∧
    (eval_reporting kd p kernel rel_err abs_err).1 = eval kd p kernel rel_err abs_err ∧
    (eval_reporting kd p kernel rel_err abs_err).1 =
      kernel.normalization *
        ((single_tree kd kd.data_tree_.root_ p kernel kd.data_tree_.root_.attr_.mass 0 1 0
            rel_err (abs_err / kernel.normalization)).2 +
          ((single_tree kd kd.data_tree_.root_ p kernel kd.data_tree_.root_.attr_.mass 0 1 0
              rel_err (abs_err / kernel.normalization)).1 -
            (single_tree kd kd.data_tree_.root_ p kernel kd.data_tree_.root_.attr_.mass 0 1 0
              rel_err (abs_err / kernel.normalization)).2) / 2) ∧
    (eval_reporting kd p kernel rel_err abs_err).2 =
      report_error p
        (kernel.normalization *
          (single_tree kd kd.data_tree_.root_ p kernel kd.data_tree_.root_.attr_.mass 0 1 0
            rel_err (abs_err / kernel.normalization)).1)
        (kernel.normalization *
          (single_tree kd kd.data_tree_.root_ p kernel kd.data_tree_.root_.attr_.mass 0 1 0
            rel_err (abs_err / kernel.normalization)).2)
        rel_err abs_err := by
  refine ⟨?_, ?_, ?_, rfl, rfl, rfl⟩
  · unfold report_error
    by_cases h1 : |upper - lower| > abs_err
    · by_cases h2 : lower = 0
      · simp [h1, h2]
      · by_cases h3 : |(upper - lower) / lower| > rel_err
        · simp [h1, h2, h3]
        · simp [h1, h2, h3]
    · simp [h1]
  · intro h0 h1
    unfold report_error
    rw [if_pos h1, if_neg (not_not.mpr h0)]
  · intro h0 h1 h2
    unfold report_error
    rw [if_pos h1, if_pos h0, if_pos h2]

/-- C36, on an input where it fails. The function `swap` exchanges the kernels and the
reference trees of the two objects but not their tables `cum_weights_`. After
`swap(lhs, rhs)` with `lhs` the density over two points (table `[3/4, 1]`) and `rhs` the
density over one point (table `[1]`), `lhs` holds the one-point tree of `rhs` with its own
former table of two entries, and `simulate` with the draw `4/5` selects the index `1`,
for which there is no reference point. -/
theorem swap_keeps_cum_weights :
    (heavy_kd.swap (one_point_kd 1)).1.kernel_ = (one_point_kd (1 : ℚ)).kernel_ ∧
    (heavy_kd.swap (one_point_kd 1)).1.data_tree_ = (one_point_kd (1 : ℚ)).data_tree_ ∧
    (heavy_kd.swap (one_point_kd 1)).2.data_tree_ = heavy_kd.data_tree_ ∧
    (heavy_kd.swap (one_point_kd 1)).1.cum_weights_ = [3 / 4, 1] ∧
    (heavy_kd.swap (one_point_kd 1)).2.cum_weights_ = [1] ∧
    (heavy_kd.swap (one_point_kd 1)).1.data_tree_.points_.length = 1 ∧
    (heavy_kd.swap (one_point_kd 1)).2.data_tree_.points_.length = 2 ∧
    upper_bound (heavy_kd.swap (one_point_kd 1)).1.cum_weights_ (4 / 5) = 1 ∧
    simulate (heavy_kd.swap (one_point_kd 1)).1 (4 / 5) (fun _ _ => 0) = none := by
  have hub : upper_bound ([3 / 4, 1] : List ℚ) (4 / 5) = 1 := by
    obtain ⟨b1, b2, b3⟩ := upper_bound_spec heavy_kd.cum_weights_ (4 / 5)
      heavy_kd_cum_weights.1
    have hcw : heavy_kd.cum_weights_ = [3 / 4, 1] := rfl
    rw [hcw] at b1 b2 b3
    have h0 : upper_bound ([3 / 4, 1] : List ℚ) (4 / 5) ≠ 0 := by
      intro h
      have := b3 0 (by omega) (by simp)
      norm_num at this
    have h2 : upper_bound ([3 / 4, 1] : List ℚ) (4 / 5) ≠ 2 := by
      intro h
      have := b2 1 (by omega)
      norm_num at this
    simp only [List.length_cons, List.length_nil] at b1
    omega
  have hpts := (one_point_kd_points (1 : ℚ))
  refine ⟨rfl, rfl, rfl, rfl, hpts.2, ?_, ?_, hub, ?_⟩
  · show (one_point_kd (1 : ℚ)).data_tree_.points_.length = 1
    rw [hpts.1]
    rfl
  · show heavy_kd.data_tree_.points_.length = 2
    rw [← heavy_kd_cum_weights.2.2]
    rfl
  · unfold simulate
    have hcw : (heavy_kd.swap (one_point_kd 1)).1.cum_weights_ = [3 / 4, 1] := rfl
    have hdt : (heavy_kd.swap (one_point_kd (1 : ℚ))).1.data_tree_.points_ =
        (one_point_kd (1 : ℚ)).data_tree_.points_ := rfl
    simp only [hcw, hub, hdt, hpts.1]
    simp

/-- C37. For a reference node and a query node in whose subtrees the children of every
internal node split its index range into two adjacent non-empty parts, `dual_tree` returns
when its recursion bound is at least the number of nodes of the two trees, and the node
pairs at which it stops (approximated, or two leaves handled by `dual_tree_base`) cover
every pair of a reference index of `D_node` and a query index of `Q_node` exactly once,
and no other pair. -/
theorem dual_tree_exactly_once (kd : KernelDensity α D) (kernel : Kernel α D)
    (flt_max flt_min : α) (nD nQ fuel : Nat) (D_node Q_node : TreeNode α D)
    (du dl rel_err abs_err : α) (query_points : List (DataPoint α D))
    (hD : D_node.All (IndexInv nD)) (hQ : Q_node.All (IndexInv nQ))
    (hfuel : D_node.size + Q_node.size ≤ fuel) :
    (∃ r, dual_tree kd flt_max flt_min fuel D_node Q_node kernel du dl rel_err abs_err
      query_points = some r) ∧
    ∃ stops, dual_tree_stops kd flt_max flt_min fuel D_node Q_node kernel du dl rel_err abs_err
        query_points = some stops ∧
      ∀ i j : Nat, stops.countP (stop_covers i j) =
        if D_node.start_idx_ ≤ i ∧ i ≤ D_node.end_idx_ ∧
          Q_node.start_idx_ ≤ j ∧ j ≤ Q_node.end_idx_ then 1 else 0 := by
  obtain ⟨r, hr, -, -⟩ := dual_tree_total kd kernel flt_max flt_min fuel D_node Q_node du dl
    rel_err abs_err query_points hfuel
  obtain ⟨S, hS, hc⟩ := dual_tree_stops_count kd kernel flt_max flt_min nD nQ fuel D_node
    Q_node du dl rel_err abs_err query_points hD hQ hfuel
  refine ⟨⟨r, hr⟩, S, hS, fun i j => ?_⟩
  rw [hc, range_count_mul_eq]

/-- C37 at the reference tree with two leaves over the points `0` and `1` and the query
tree over the point `2`, with the recursion bound that `eval` uses. -/
theorem dual_tree_exactly_once_witness :
    split_kd.data_tree_.root_.All (IndexInv 2) ∧ (query_at 2).root_.All (IndexInv 1) ∧
    split_kd.data_tree_.root_.size + (query_at 2).root_.size ≤ 4 ∧
    (∃ r, dual_tree split_kd flt_max_value flt_min_value 4 split_kd.data_tree_.root_
      (query_at 2).root_ (tri_kernel 1 10) 1 0 0 0 (query_at 2).points_ = some r) ∧
    ∃ stops, dual_tree_stops split_kd flt_max_value flt_min_value 4 split_kd.data_tree_.root_
        (query_at 2).root_ (tri_kernel 1 10) 1 0 0 0 (query_at 2).points_ = some stops ∧
      ∀ i j : Nat, stops.countP (stop_covers i j) =
        if split_kd.data_tree_.root_.start_idx_ ≤ i ∧ i ≤ split_kd.data_tree_.root_.end_idx_ ∧
          (query_at 2).root_.start_idx_ ≤ j ∧ j ≤ (query_at 2).root_.end_idx_ then 1 else 0 :=
  ⟨split_kd_index, query_at_index 2, by simp [split_kd, query_at, line_leaf_tree, TreeNode.size],
    dual_tree_exactly_once split_kd (tri_kernel 1 10) flt_max_value flt_min_value 2 1 4
      split_kd.data_tree_.root_ (query_at 2).root_ 1 0 0 0 (query_at 2).points_
      split_kd_index (query_at_index 2)
      (by simp [split_kd, query_at, line_leaf_tree, TreeNode.size])⟩

/-- C38. The test `can_approximate` is monotone in the tolerances: when it answers true for
`(rel_err, abs_err)`, it answers true for every `(rel_err', abs_err')` with
`rel_err <= rel_err'` and `abs_err <= abs_err'`, all other arguments being the same. -/
theorem can_approximate_monotone (kd : KernelDensity α D) (D_node : TreeNode α D)
    (du_new dl_new du dl upper lower rel_err abs_err rel_err' abs_err' : α)
    (hrel : rel_err ≤ rel_err') (habs : abs_err ≤ abs_err')
    (h : can_approximate kd D_node du_new dl_new du dl upper lower rel_err abs_err = true) :
    can_approximate kd D_node du_new dl_new du dl upper lower rel_err' abs_err' = true := by
  rw [can_approximate_true_iff] at h ⊢
  have htol : 2 * abs_err / (kd.data_tree_.points_.length : α) ≤
      2 * abs_err' / (kd.data_tree_.points_.length : α) :=
    div_le_div_of_nonneg_right (by linarith) (Nat.cast_nonneg _)
  rcases h with h | h | h | h
  · exact Or.inl (le_trans h htol)
  · exact Or.inr (Or.inl (le_trans h htol))
  · exact Or.inr (Or.inr (Or.inl (le_trans h habs)))
  · exact Or.inr (Or.inr (Or.inr (le_trans h
      (mul_le_mul_of_nonneg_left hrel (abs_nonneg _)))))

/-- C38 at the root of the density over the points `0` and `1`, with `du_new = dl_new = 0`,
from the tolerances `(0, 0)` to `(1/10, 1/10)`. -/
theorem can_approximate_monotone_witness :
    (0 : ℚ) ≤ 1 / 10 ∧ (0 : ℚ) ≤ 1 / 10 ∧
    can_approximate unit_kd unit_kd.data_tree_.root_ 0 0 1 0 1 0 0 0 = true ∧
    can_approximate unit_kd unit_kd.data_tree_.root_ 0 0 1 0 1 0 (1 / 10) (1 / 10) = true :=
  have h : can_approximate unit_kd unit_kd.data_tree_.root_ 0 0 1 0 1 0 0 0 = true := by
    simp [can_approximate]
  ⟨by norm_num, by norm_num, h,
    can_approximate_monotone unit_kd unit_kd.data_tree_.root_ 0 0 1 0 1 0 0 0 (1 / 10) (1 / 10)
      (by norm_num) (by norm_num) h⟩

/-- C39. When the `d`-th edge of `r` contains `v`, both halfspace splits succeed; every
point contained in the lower or in the upper halfspace is contained in `r`, every point
contained in `r` is contained in at least one of the two, and it is contained in both
exactly when its `d`-th coordinate is `v`. -/
theorem halfspaces_cover (r : Rectangle α D) (d : Fin D) (v : α)
    (h : (r d).contains v = true) :
    ∃ rl ru : Rectangle α D,
      (r.lower_halfspace d v).1 = .ok rl ∧ (r.upper_halfspace d v).1 = .ok ru ∧
      ∀ p : Point α D,
        (rl.contains p = true → r.contains p = true) ∧
        (ru.contains p = true → r.contains p = true) ∧
        (r.contains p = true → rl.contains p = true ∨ ru.contains p = true) ∧
        (r.contains p = true → (rl.contains p = true ∧ ru.contains p = true ↔ p d = v)) := by
  obtain ⟨h1, h2⟩ := halfspace_ok r d v h
  obtain ⟨hv1, hv2⟩ := (interval_contains_iff _ _).mp h
  refine ⟨_, _, h1, h2, fun p => ?_⟩
  rw [(halfspace_contains_iff r d v p).1, (halfspace_contains_iff r d v p).2,
    Rectangle.contains_iff]
  refine ⟨?_, ?_, ?_, ?_⟩
  · rintro ⟨ho, hl, hu⟩ i
    by_cases hi : i = d
    · subst hi
      exact ⟨hl, le_trans hu hv2⟩
    · exact ho i hi
  · rintro ⟨ho, hl, hu⟩ i
    by_cases hi : i = d
    · subst hi
      exact ⟨le_trans hv1 hl, hu⟩
    · exact ho i hi
  · intro hr
    rcases le_total (p d) v with hp | hp
    · exact Or.inl ⟨fun i _ => hr i, (hr d).1, hp⟩
    · exact Or.inr ⟨fun i _ => hr i, hp, (hr d).2⟩
  · intro hr
    constructor
    · rintro ⟨⟨-, -, hu⟩, ⟨-, hl, -⟩⟩
      exact le_antisymm hu hl
    · intro hp
      exact ⟨⟨fun i _ => hr i, (hr d).1, le_of_eq hp⟩, ⟨fun i _ => hr i, le_of_eq hp.symm, (hr d).2⟩⟩

/-- C39 at the unit square, split along the first axis at `1/2`. -/
theorem halfspaces_cover_witness :
    ((unit_square : Rectangle ℚ 2) 0).contains (1 / 2) = true ∧
    ∃ rl ru : Rectangle ℚ 2,
      (unit_square.lower_halfspace 0 (1 / 2)).1 = .ok rl ∧
      (unit_square.upper_halfspace 0 (1 / 2)).1 = .ok ru ∧
      ∀ p : Point ℚ 2,
        (rl.contains p = true → unit_square.contains p = true) ∧
        (ru.contains p = true → unit_square.contains p = true) ∧
        (unit_square.contains p = true → rl.contains p = true ∨ ru.contains p = true) ∧
        (unit_square.contains p = true →
          (rl.contains p = true ∧ ru.contains p = true ↔ p 0 = 1 / 2)) :=
  have h : ((unit_square : Rectangle ℚ 2) 0).contains (1 / 2) = true := by
    simp [unit_square, Rectangle.of_points, minmax, Interval.contains]
    norm_num
  ⟨h, halfspaces_cover unit_square 0 (1 / 2) h⟩

/-- C40. For a point `x` contained in `r` and every point `p`, on every axis the minimum
distance of the edge to `p[i]` is at most `|p[i] - x[i]|`, which is at most the maximum
distance; with a monotone square root, `r.min_dist(p)` is at most the Euclidean distance of
`p` and `x`, which is at most `r.max_dist(p)`. With a square root that vanishes only at
zero, `r.min_dist(p) = 0` exactly when `r` contains `p`. -/
theorem rectangle_dist_brackets (sqrt : α → α)
    (hmono : ∀ x y, 0 ≤ x → x ≤ y → sqrt x ≤ sqrt y)
    (hzero : ∀ x, 0 ≤ x → (sqrt x = 0 ↔ x = 0))
    (r : Rectangle α D) (p x : Point α D) (hx : r.contains x = true) :
    (∀ i, r.min_dist_axis i p ≤ |p i - x i| ∧ |p i - x i| ≤ r.max_dist_axis i p) ∧
    r.min_dist sqrt p ≤ sqrt (∑ i : Fin D, (p i - x i) ^ 2) ∧
    sqrt (∑ i : Fin D, (p i - x i) ^ 2) ≤ r.max_dist sqrt p ∧
    (r.min_dist sqrt p = 0 ↔ r.contains p = true) := by
  have hc := (Rectangle.contains_iff _ _).mp hx
  have hax : ∀ i, r.min_dist_axis i p ≤ |p i - x i| ∧ |p i - x i| ≤ r.max_dist_axis i p :=
    fun i => ⟨min_dist_value_le _ _ _ (hc i).1 (hc i).2,
      le_max_dist_value _ _ _ (hc i).1 (hc i).2⟩
  have hmin0 : 0 ≤ r.min_dist_sq p := by
    rw [min_dist_sq_eq_sum]
    exact Finset.sum_nonneg (fun i _ => sq_nonneg _)
  refine ⟨hax, ?_, ?_, ?_⟩
  · apply hmono _ _ hmin0
    rw [min_dist_sq_eq_sum]
    refine Finset.sum_le_sum (fun i _ => ?_)
    rw [← sq_abs (p i - x i)]
    exact pow_le_pow_left₀ (min_dist_value_nonneg _ _) (hax i).1 2
  · apply hmono _ _ (Finset.sum_nonneg (fun i _ => sq_nonneg _))
    rw [max_dist_sq_eq_sum]
    refine Finset.sum_le_sum (fun i _ => ?_)
    rw [← sq_abs (p i - x i)]
    exact pow_le_pow_left₀ (abs_nonneg _) (hax i).2 2
  · unfold Rectangle.min_dist
    rw [hzero _ hmin0, min_dist_sq_eq_sum, Rectangle.contains_iff,
      Finset.sum_eq_zero_iff_of_nonneg (fun i _ => sq_nonneg _)]
    constructor
    · intro h i
      have := h i (Finset.mem_univ i)
      rw [sq_eq_zero_iff] at this
      exact (min_dist_value_eq_zero_iff _ _).mp this
    · intro h i _
      rw [sq_eq_zero_iff]
      exact (min_dist_value_eq_zero_iff _ _).mpr (h i)

/-- C40 over the reals with the real square root, at the unit square, the point `(2, 2)`
and the corner `(1, 1)` of the square. -/
theorem rectangle_dist_brackets_witness :
    (∀ x y : ℝ, 0 ≤ x → x ≤ y → Real.sqrt x ≤ Real.sqrt y) ∧
    (∀ x : ℝ, 0 ≤ x → (Real.sqrt x = 0 ↔ x = 0)) ∧
    (unit_square : Rectangle ℝ 2).contains (fun _ => 1) = true ∧
    (∀ i, (unit_square : Rectangle ℝ 2).min_dist_axis i (fun _ => (2 : ℝ)) ≤ |(2 : ℝ) - 1| ∧
      |(2 : ℝ) - 1| ≤ (unit_square : Rectangle ℝ 2).max_dist_axis i (fun _ => (2 : ℝ))) ∧
    (unit_square : Rectangle ℝ 2).min_dist Real.sqrt (fun _ => (2 : ℝ)) ≤
      Real.sqrt (∑ _i : Fin 2, ((2 : ℝ) - 1) ^ 2) ∧
    Real.sqrt (∑ _i : Fin 2, ((2 : ℝ) - 1) ^ 2) ≤
      (unit_square : Rectangle ℝ 2).max_dist Real.sqrt (fun _ => (2 : ℝ)) ∧
    ((unit_square : Rectangle ℝ 2).min_dist Real.sqrt (fun _ => (2 : ℝ)) = 0 ↔
      (unit_square : Rectangle ℝ 2).contains (fun _ => (2 : ℝ)) = true) :=
  have hx : (unit_square : Rectangle ℝ 2).contains (fun _ => 1) = true := by
    rw [Rectangle.contains_iff]
    intro i
    simp only [unit_square, Rectangle.of_points, minmax_eq]
    norm_num
  ⟨fun _ _ _ h => Real.sqrt_le_sqrt h, fun _ hx => Real.sqrt_eq_zero hx, hx,
    rectangle_dist_brackets Real.sqrt (fun _ _ _ h => Real.sqrt_le_sqrt h)
      (fun _ hx => Real.sqrt_eq_zero hx) unit_square (fun _ => 2) (fun _ => 1) hx⟩

end Claims

end bbrcit
